import Mathlib

/-!
Verification of the synchronization engine in
`scripts/upload_model_preds_to_figshare.py`.

The script reconciles locally produced model-prediction files against a
remote Figshare article: it walks each per-model metadata tree for keys
ending in the reserved `_file` suffix, decides per file whether to skip,
update or create a remote copy, and writes the resulting download URL back
into the tree at the sibling `_url` slot.

Python dictionaries are embedded as ordered association lists
(`List (String × α)`): assignment replaces the value at the first
occurrence of the key keeping its position, or appends a new binding,
which matches CPython insertion-order semantics.  YAML values are embedded
as the inductive `Val` (string leaf, nested mapping, or any other scalar).
The remote repository service (`matbench_discovery.remote.figshare`) is
not part of the analysed sources; its operations are modelled from the
interface contracts given in the specification and are marked
`Modelled from the spec:` below.
-/

set_option maxHeartbeats 1000000

/-- Association list lookup: Python dict subscript or `.get`, returning the
value at the first occurrence of the key. -/
def alookup {α : Type} : List (String × α) → String → Option α
  | [], _ => none
  | (k, v) :: rest, key => if k = key then some v else alookup rest key

/-- Python dict membership test `key in d`. -/
def hasKey {α : Type} (m : List (String × α)) (k : String) : Bool :=
  (alookup m k).isSome

/-- Python dict assignment `d[k] = v`: replace the value at the first
occurrence of `k`, keeping its position, or append a new binding. -/
def dictInsert {α : Type} : List (String × α) → String → α → List (String × α)
  | [], k, v => [(k, v)]
  | (k', v') :: rest, k, v =>
    if k' = k then (k, v) :: rest else (k', v') :: dictInsert rest k v

/-- Python dict merge `d1 |= d2`: assign every binding of `d2` into `d1`
in order. -/
def dictMerge {α : Type} (m1 m2 : List (String × α)) : List (String × α) :=
  m2.foldl (fun acc kv => dictInsert acc kv.1 kv.2) m1

/-- The keys of an association list, in order. -/
def keysOf {α : Type} (m : List (String × α)) : List String :=
  m.map Prod.fst

/-- Lookup in a `Nat`-keyed association list (remote article registry). -/
def nlookup {α : Type} : List (Nat × α) → Nat → Option α
  | [], _ => none
  | (k, v) :: rest, key => if k = key then some v else nlookup rest key

/-- Assignment in a `Nat`-keyed association list. -/
def nInsert {α : Type} : List (Nat × α) → Nat → α → List (Nat × α)
  | [], k, v => [(k, v)]
  | (k', v') :: rest, k, v =>
    if k' = k then (k, v) :: rest else (k', v') :: nInsert rest k v

/-- Split a character list at every dot, as Python `str.split(".")` does on
the underlying characters. -/
def splitDotAux : List Char → List Char → List (List Char)
  | [], acc => [acc.reverse]
  | c :: cs, acc =>
    if c = '.' then acc.reverse :: splitDotAux cs []
    else splitDotAux cs (c :: acc)

/-- Python `s.split(".")`. -/
def splitDot (s : String) : List String :=
  (splitDotAux s.data []).map String.mk

/-- Join segments with dots: the form in which `find_file_keys` builds the
dotted key path (left inverse of `splitDot` on dot-free segments). -/
def joinDot : List String → String
  | [] => ""
  | [s] => s
  | s :: rest => s ++ "." ++ joinDot rest

/-- Python `s.endswith(t)`, as a suffix test on the character lists. -/
def endsWithD (s t : String) : Bool :=
  t.data.isSuffixOf s.data

/-- True when the string contains no dot, so that joining and splitting
dotted key paths are mutually inverse. -/
def dotFree (s : String) : Bool :=
  !(s.data.contains '.')

/-- A YAML value as the script observes it: a string leaf, a nested
mapping, or any other scalar (numbers, lists, booleans, null). -/
inductive Val : Type where
  | str : String → Val
  | node : List (String × Val) → Val
  | other : Val

/-- Function `should_process_file` from the script: filter files by type. -/
def should_process_file (key : String) (fileType : String) : Bool :=
  fileType = "all" || endsWithD key (fileType ++ "_file")

mutual
/-- Function `find_file_keys` from the script: recursively find all keys ending in
`_file` (passing the type filter) and their string values in a nested
mapping, accumulating into the `result` dict exactly as the Python loop
does.  The per-value branch of the loop body (the `isinstance` dispatch)
is split into `find_file_keys_step` so that the recursion is structural. -/
def find_file_keys (fileType : String) :
    List (String × Val) → String → List (String × String) → List (String × String)
  | [], _, result => result
  | (key, v) :: rest, pre, result =>
    find_file_keys fileType rest pre
      (find_file_keys_step fileType key (if pre = "" then key else pre ++ "." ++ key) v result)

/-- One iteration of the loop body of `find_file_keys` for the entry
`key` with dotted path `full_key`: `result |= find_file_keys(value,
full_key)` on a nested mapping, `result[full_key] = value` on a matching
string leaf, and no change otherwise. -/
def find_file_keys_step (fileType : String) (key full_key : String) :
    Val → List (String × String) → List (String × String)
  | Val.node entries, result =>
      dictMerge result (find_file_keys fileType entries full_key [])
  | Val.str value, result =>
      if endsWithD key "_file" && should_process_file key fileType then
        dictInsert result full_key value
      else result
  | Val.other, result => result
end

mutual
/-- Accumulator-free form of the walk, concatenating contributions in
traversal order; proved below to agree with `find_file_keys` on
well-formed trees. -/
def ffkS (fileType : String) : List (String × Val) → String → List (String × String)
  | [], _ => []
  | (key, v) :: rest, pre =>
    ffkS_step fileType key (if pre = "" then key else pre ++ "." ++ key) v
      ++ ffkS fileType rest pre

/-- The contribution of a single entry to `ffkS`. -/
def ffkS_step (fileType : String) (key full_key : String) : Val → List (String × String)
  | Val.node entries => ffkS fileType entries full_key
  | Val.str value =>
      if endsWithD key "_file" && should_process_file key fileType then
        [(full_key, value)]
      else []
  | Val.other => []
end

/-- Read the value sitting at `parts` / `last` inside a nested mapping:
descend the mappings named by `parts`, then look up `last`. -/
def getAtPath : List (String × Val) → List String → String → Option Val
  | t, [], last => alookup t last
  | t, p :: rest, last =>
    match alookup t p with
    | some (Val.node es) => getAtPath es rest last
    | _ => none

/-- The metadata write performed by the script:
`target = metric_data; for part in parts: target = target[part]; target[last] = v`.
Descending into an absent or non-mapping segment leaves the tree
unchanged (the Python code would raise there; every call site derives the
path from a discovered leaf, so the parent chain exists). -/
def setAtPath : List (String × Val) → List String → String → Val → List (String × Val)
  | t, [], last, v => dictInsert t last v
  | t, p :: rest, last, v =>
    t.map (fun e =>
      if e.1 = p then
        (e.1, match e.2 with
              | Val.node es => Val.node (setAtPath es rest last v)
              | x => x)
      else e)

/-- A remote file as the engine compares it: an id and a content hash.
Modelled from the spec: `RemoteFile: {name, id, content-hash}`, keyed by
name within a Collection. -/
structure RemoteFile : Type where
  fid : Nat
  hash : String

/-- Modelled from the spec: the remote repository state, a mapping from
collection id to its files keyed by name, plus fresh-id counters for
lazily created collections and uploaded files. -/
structure Remote : Type where
  articles : List (Nat × List (String × RemoteFile))
  nextArticleId : Nat
  nextFileId : Nat

/-- Modelled from the spec: `collection_exists(id) -> bool`. -/
def article_exists (r : Remote) (aid : Nat) : Bool :=
  (nlookup r.articles aid).isSome

/-- Modelled from the spec: `create_collection(metadata) -> id`.  The
metadata fields (title, description, tags, categories) do not affect the
file inventory and are not tracked. -/
def create_article (r : Remote) : Remote × Nat :=
  (⟨r.articles ++ [(r.nextArticleId, [])], r.nextArticleId + 1, r.nextFileId⟩,
   r.nextArticleId)

/-- Modelled from the spec: `list_files(collection-id) -> mapping<name, file>`. -/
def get_existing_files (r : Remote) (aid : Nat) : List (String × RemoteFile) :=
  match nlookup r.articles aid with
  | some fs => fs
  | none => []

/-- Modelled from the spec: `file_matches(collection-id, name, hash) ->
(bool, id | none)`, a point query re-validated against the current remote
state. -/
def file_exists_with_same_hash (r : Remote) (aid : Nat) (name hash : String) :
    Bool × Option Nat :=
  match alookup (get_existing_files r aid) name with
  | some f => if f.hash = hash then (true, some f.fid) else (false, none)
  | none => (false, none)

/-- The local file system, as the map from relative path to content hash.
Modelled from the spec: `identity(path) -> (hash, size)`; the engine
discards the size, so only the hash is tracked, and `os.path.isfile` is
membership in this map. -/
def get_file_hash_and_size (lf : List (String × String)) (path : String) : Option String :=
  alookup lf path

/-- Modelled from the spec: `upload_if_needed(collection-id, local-path,
remote-name, force) -> (id, was-new)`.  Keyed by `(collection-id, name)`:
an existing file of the same name is replaced in place (same name, new
content, new id), never duplicated; with `force` false a same-hash file is
left alone.  Returns the new remote state, the file id and whether a
transfer happened. -/
def upload_file_if_needed (r : Remote) (aid : Nat) (fileHash fileName : String)
    (force : Bool) : Remote × Nat × Bool :=
  let files := get_existing_files r aid
  match alookup files fileName with
  | some f =>
    if force = false ∧ f.hash = fileHash then (r, f.fid, false)
    else
      (⟨nInsert r.articles aid (dictInsert files fileName ⟨r.nextFileId, fileHash⟩),
        r.nextArticleId, r.nextFileId + 1⟩, r.nextFileId, true)
  | none =>
      (⟨nInsert r.articles aid (dictInsert files fileName ⟨r.nextFileId, fileHash⟩),
        r.nextArticleId, r.nextFileId + 1⟩, r.nextFileId, true)

/-- Modelled from the spec: fixed URL construction rule, download URL =
download-prefix followed by the file id. -/
def downloadUrl (fid : Nat) : String :=
  "download-prefix/" ++ toString fid

/-- One per-model metadata store entry: the model name and, when the
metadata file exists on disk, its parsed document. -/
structure ModelEntry : Type where
  name : String
  doc : Option (List (String × Val))

/-- The mutable state of one task run: the remote repository plus the
three outcome buckets (`skipped_files`, `updated_files`, `new_files`). -/
structure TaskState : Type where
  remote : Remote
  skipped : List (String × String)
  updated : List (String × String)
  created : List (String × String)

/-- The body of the per-file loop of `update_one_modeling_task_article`,
for one discovered artifact `(key_path, rel_file_path)`: resolve the local
file (warn and skip when absent), with `force` and dry run off run the
hash-match point query and on a match record `skipped` and backfill the
`_url` sibling only when `key_path + "_url"` is absent from the top level
of `metric_data`; otherwise, when not a dry run, upload and record
`updated` or `new` according to the initial listing and set the `_url`
sibling unconditionally. -/
def processArtifact (dryRun force : Bool) (aid : Nat)
    (existing : List (String × RemoteFile)) (lf : List (String × String))
    (acc : TaskState × List (String × Val)) (art : String × String) :
    TaskState × List (String × Val) :=
  let ts := acc.1
  let md := acc.2
  let key_path := art.1
  let rel := art.2
  match get_file_hash_and_size lf rel with
  | none => (ts, md)
  | some fileHash =>
    let filename := rel
    let skipRes : Option (TaskState × List (String × Val)) :=
      if force = false ∧ dryRun = false then
        match file_exists_with_same_hash ts.remote aid filename fileHash with
        | (true, some fid) =>
          let fileUrl := downloadUrl fid
          let ts' : TaskState :=
            ⟨ts.remote, dictInsert ts.skipped filename fileUrl, ts.updated, ts.created⟩
          let urlKey := key_path ++ "_url"
          let md' :=
            if hasKey md urlKey then md
            else
              setAtPath md (splitDot urlKey).dropLast
                ((splitDot urlKey).getLastD "") (Val.str fileUrl)
          some (ts', md')
        | _ => none
      else none
    match skipRes with
    | some res => res
    | none =>
      if dryRun = false then
        let up := upload_file_if_needed ts.remote aid fileHash filename force
        let fileUrl := downloadUrl up.2.1
        let ts' : TaskState :=
          if hasKey existing filename then
            ⟨up.1, ts.skipped, dictInsert ts.updated filename fileUrl, ts.created⟩
          else
            ⟨up.1, ts.skipped, ts.updated, dictInsert ts.created filename fileUrl⟩
        let md' :=
          setAtPath md (splitDot key_path).dropLast
            ((splitDot key_path).getLastD "" ++ "_url") (Val.str fileUrl)
        (ts', md')
      else (ts, md)

/-- Persist the mutated `metric_data` back into the model document, as the
in-place aliasing of the Python code does: the mutation is visible in
`model_data` exactly when `model_data["metrics"]` is a mapping containing
`task` as a mapping (otherwise `metrics.get` produced a fresh dict not
aliased into the document). -/
def writeBackMetric (d : List (String × Val)) (task : String)
    (md : List (String × Val)) : List (String × Val) :=
  match alookup d "metrics" with
  | some (Val.node ms) =>
    match alookup ms task with
    | some (Val.node _) => dictInsert d "metrics" (Val.node (dictInsert ms task (Val.node md)))
    | _ => d
  | _ => d

/-- The value of `model_data.get("metrics", {}).get(task, {})` before the
dict defaults apply: `some v` when `model_data["metrics"]` is a mapping
containing `task` with value `v`, and `none` when either lookup misses
(each miss defaults to a fresh empty dict in the script).  A non-mapping
value under `metrics` would raise `AttributeError` in the script; `docOK`
below rules that shape out wherever fidelity matters. -/
def taskEntry (task : String) (d : List (String × Val)) : Option Val :=
  match alookup d "metrics" with
  | some (Val.node ms) => alookup ms task
  | _ => none

/-- The `metric_data` dict the script walks: the task entry when it is a
mapping, and the empty dict when the entry is absent (the `.get` default). -/
def extractMetric (task : String) (d : List (String × Val)) : List (String × Val) :=
  match taskEntry task d with
  | some (Val.node es) => es
  | _ => []

/-- The per-model body of `update_one_modeling_task_article`: skip models
whose metadata file is missing, read `metrics[task]` (an absent entry
defaults to an empty dict, a non-mapping entry skips the model), walk the
tree for file references, process each one, and when not a dry run write
the document back to the store (unconditionally, as the script does).
Returns the task state, the stored model entry and whether the metadata
file was written. -/
def processModel (dryRun force : Bool) (fileType task : String) (aid : Nat)
    (existing : List (String × RemoteFile)) (lf : List (String × String))
    (ts : TaskState) (m : ModelEntry) : TaskState × ModelEntry × Bool :=
  match m.doc with
  | none => (ts, m, false)
  | some d =>
    match taskEntry task d with
    | some (Val.str _) => (ts, m, false)
    | some Val.other => (ts, m, false)
    | _ =>
      let md := extractMetric task d
      let arts := find_file_keys fileType md "" []
      let res := arts.foldl (processArtifact dryRun force aid existing lf) (ts, md)
      if dryRun then (res.1, m, false)
      else (res.1, ⟨m.name, some (writeBackMetric d task res.2)⟩, true)

/-- The result of one task run: final remote state, the per-model
metadata store, the names of models whose metadata file was written, the
three outcome buckets, and the resolved article id. -/
structure RunResult : Type where
  remote : Remote
  models : List ModelEntry
  writes : List String
  skipped : List (String × String)
  updated : List (String × String)
  created : List (String × String)
  articleId : Nat

/-- The article resolution preamble of `update_one_modeling_task_article`:
a registered id is kept when the article is accessible, otherwise the
article is created — except in a dry run, which uses the placeholder id 0
and creates nothing. -/
def resolveArticle (dryRun : Bool) (reg : Option Nat) (remote0 : Remote) : Remote × Nat :=
  let aidChecked : Option Nat :=
    match reg with
    | some i => if article_exists remote0 i then some i else none
    | none => none
  match aidChecked with
  | some i => (remote0, i)
  | none => if dryRun then (remote0, 0) else create_article remote0

/-- One iteration of the model loop of `update_one_modeling_task_article`,
threading the task state, the stored model entries and the write log. -/
def runStep (dryRun force : Bool) (fileType task : String) (aid : Nat)
    (existing : List (String × RemoteFile)) (lf : List (String × String))
    (acc : TaskState × List ModelEntry × List String) (m : ModelEntry) :
    TaskState × List ModelEntry × List String :=
  let r := processModel dryRun force fileType task aid existing lf acc.1 m
  (r.1, acc.2.1 ++ [r.2.1], if r.2.2 then acc.2.2 ++ [m.name] else acc.2.2)

/-- Function `update_one_modeling_task_article` from the script: resolve or create
the article (dry run uses the placeholder id 0 instead of creating), list
the existing files once, then fold the per-model body over the models. -/
def update_one_modeling_task_article (task : String) (models : List ModelEntry)
    (dryRun : Bool) (fileType : String) (force : Bool)
    (reg : Option Nat) (remote0 : Remote) (lf : List (String × String)) : RunResult :=
  let resolved := resolveArticle dryRun reg remote0
  let remote1 := resolved.1
  let aid := resolved.2
  let existing := get_existing_files remote1 aid
  let final :=
    models.foldl (runStep dryRun force fileType task aid existing lf)
      (⟨remote1, [], [], []⟩, [], [])
  ⟨final.1.remote, final.2.1, final.2.2, final.1.skipped, final.1.updated,
   final.1.created, aid⟩

/-- A value of the diagnostic state attached by the failure handler of
`main`: the current task is a string, the requested model and task lists
are lists of strings. -/
inductive LVal : Type where
  | s : String → LVal
  | ls : List String → LVal

/-- The local variables of `main` live at the failure handler (the
variables bound in the body of `main` before and inside the task loop).
No variable named `model_name` is ever bound in `main`; the model loop
lives inside `update_one_modeling_task_article`. -/
def mainLocalsAt (task : String) (models tasks : List String) : List (String × LVal) :=
  [("models_to_update", LVal.ls models),
   ("tasks_to_update", LVal.ls tasks),
   ("task", LVal.s task)]

/-- The diagnostic state built by the failure handler of `main`:
`{key: locals().get(key) for key in ("task", "model_name",
"models_to_update", "tasks_to_update")}`.  A key absent from the locals of
`main` maps to `none` (Python `None`). -/
def failure_state (task : String) (models tasks : List String) :
    List (String × Option LVal) :=
  ["task", "model_name", "models_to_update", "tasks_to_update"].map
    (fun k => (k, alookup (mainLocalsAt task models tasks) k))

/-- The task loop of `main`: run each task in order; on the first failure
attach the diagnostic state as a note and re-raise, aborting the remaining
tasks; return exit code 0 when every task succeeds.  The body of one task
(`update_one_modeling_task_article` together with its remote transport,
whose errors the spec routes to the top level) is abstracted as `runOne`. -/
def mainTaskLoop (runOne : String → Except String Unit) (models tasks : List String) :
    List String → Except (String × List (String × Option LVal)) Nat
  | [] => Except.ok 0
  | t :: rest =>
    match runOne t with
    | Except.ok _ => mainTaskLoop runOne models tasks rest
    | Except.error e => Except.error (e, failure_state t models tasks)

/-- Function `main` from the script, restricted to the failure-propagation
behaviour of its task loop. -/
def mainRun (runOne : String → Except String Unit) (models tasks : List String) :
    Except (String × List (String × Option LVal)) Nat :=
  mainTaskLoop runOne models tasks tasks

mutual
/-- Well-formedness of a metadata tree: at every level the keys are
dot-free (so dotted key paths determine the path of segments), pairwise
distinct (as in any YAML mapping), and no key ending in the reserved
`_url` suffix carries a nested mapping (the `_url` slots hold locators). -/
def wfEntries : List (String × Val) → Bool
  | [] => true
  | (k, v) :: rest =>
    (k != "") && dotFree k && !(hasKey rest k) && wfVal k v && wfEntries rest

/-- Well-formedness of one value under its key. -/
def wfVal (k : String) : Val → Bool
  | Val.node es => !(endsWithD k "_url") && wfEntries es
  | _ => true
end

/-- Well-formedness of a model document for a task: the `metrics` entry is
absent or a mapping, and its entry for the task, when it is a mapping, is
a well-formed metadata tree. -/
def docOK (task : String) (d : List (String × Val)) : Bool :=
  match alookup d "metrics" with
  | none => true
  | some (Val.node ms) =>
    (match alookup ms task with
     | some (Val.node md) => wfEntries md
     | _ => true)
  | some _ => false

/-- Well-formedness of a model store entry for a task. -/
def modelOK (task : String) (m : ModelEntry) : Bool :=
  match m.doc with
  | none => true
  | some d => docOK task d

/-- Representation invariant tying the string prefix threaded through the
walk to the list of ancestor key segments it was joined from. -/
def preRep (pre : String) (P : List String) : Prop :=
  (P = [] ∧ pre = "") ∨
  (P ≠ [] ∧ (∀ s ∈ P, dotFree s = true ∧ s ≠ "") ∧ pre = joinDot P)

/-- The parts of the dotted key path of an artifact, as the script
computes them by splitting on dots: all but the last segment. -/
def artParts (kp : String) : List String :=
  (splitDot kp).dropLast

/-- The last segment of the dotted key path of an artifact. -/
def artLast (kp : String) : String :=
  (splitDot kp).getLastD ""

/-- A discovered artifact `(key_path, rel_path)` sits as a real leaf of
the tree: descending all but the last segment and reading the last one
yields the relative path, the segments are dot-free, and the last segment
carries the reserved file suffix. -/
def ArtOK (md : List (String × Val)) (p : String × String) : Prop :=
  getAtPath md (artParts p.1) (artLast p.1) = some (Val.str p.2) ∧
  (∀ s ∈ splitDot p.1, dotFree s = true) ∧
  endsWithD (artLast p.1) "_file" = true

/-- After a successful pass, an artifact is settled: its local file has a
hash, the article holds a file of the same name with that hash, and the
locator slot will not change on a re-run (either the top-level membership
test short-circuits the backfill, or the slot already holds exactly the
URL the engine would write). -/
def GoodArt (r : Remote) (aid : Nat) (lf : List (String × String))
    (md : List (String × Val)) (p : String × String) : Prop :=
  ∃ h fid, alookup lf p.2 = some h ∧
    alookup (get_existing_files r aid) p.2 = some ⟨fid, h⟩ ∧
    (hasKey md (p.1 ++ "_url") = true ∨
      getAtPath md (artParts (p.1 ++ "_url")) (artLast (p.1 ++ "_url"))
        = some (Val.str (downloadUrl fid)))

/-- The metric tree of a model as the engine reads it from the store
(empty when the metadata file is missing). -/
def modelMetric (task : String) (m : ModelEntry) : List (String × Val) :=
  match m.doc with
  | some d => extractMetric task d
  | none => []

/-- The artifacts the walk discovers for one model. -/
def discoveredOf (fileType task : String) (m : ModelEntry) : List (String × String) :=
  find_file_keys fileType (modelMetric task m) "" []

/-- All relative paths discovered across a run, in processing order. -/
def discoveredRels (fileType task : String) (models : List ModelEntry) : List String :=
  models.flatMap (fun m => (discoveredOf fileType task m).map Prod.snd)

/-- Every key of every outcome bucket of a task state. -/
def allBucketKeys (ts : TaskState) : List String :=
  keysOf ts.skipped ++ keysOf ts.updated ++ keysOf ts.created

/-- The three outcome buckets have pairwise disjoint key sets. -/
def BucketsDisjoint (ts : TaskState) : Prop :=
  (∀ k, k ∈ keysOf ts.skipped → k ∉ keysOf ts.updated) ∧
  (∀ k, k ∈ keysOf ts.skipped → k ∉ keysOf ts.created) ∧
  (∀ k, k ∈ keysOf ts.updated → k ∉ keysOf ts.created)

/-! ### Association list lemmas -/

theorem alookup_cons {α : Type} (e : String × α) (rest : List (String × α)) (key : String) :
    alookup (e :: rest) key = if e.1 = key then some e.2 else alookup rest key := by
  cases e; rfl

theorem dictInsert_cons {α : Type} (e : String × α) (rest : List (String × α))
    (k : String) (v : α) :
    dictInsert (e :: rest) k v = if e.1 = k then (k, v) :: rest else e :: dictInsert rest k v := by
  cases e; rfl

theorem hasKey_cons {α : Type} (e : String × α) (rest : List (String × α)) (k : String) :
    hasKey (e :: rest) k = ((e.1 = k : Bool) || hasKey rest k) := by
  by_cases h : e.1 = k <;> simp [hasKey, alookup_cons, h]

theorem hasKey_append {α : Type} (a b : List (String × α)) (k : String) :
    hasKey (a ++ b) k = (hasKey a k || hasKey b k) := by
  induction a with
  | nil => simp [hasKey, alookup]
  | cons e rest ih =>
    by_cases h : e.1 = k <;> simp [hasKey_cons, h, ih]

theorem alookup_dictInsert_self {α : Type} (m : List (String × α)) (k : String) (v : α) :
    alookup (dictInsert m k v) k = some v := by
  induction m with
  | nil => simp [dictInsert, alookup]
  | cons e rest ih =>
    by_cases h : e.1 = k
    · simp [dictInsert_cons, h, alookup_cons]
    · simp [dictInsert_cons, h, alookup_cons, ih]

theorem alookup_dictInsert_ne {α : Type} (m : List (String × α)) (k key : String) (v : α)
    (h : k ≠ key) : alookup (dictInsert m k v) key = alookup m key := by
  induction m with
  | nil => simp [dictInsert, alookup, h]
  | cons e rest ih =>
    by_cases he : e.1 = k
    · subst he
      simp [dictInsert_cons, alookup_cons, h]
    · simp only [dictInsert_cons, if_neg he]
      by_cases hk : e.1 = key
      · simp [alookup_cons, hk]
      · simp [alookup_cons, hk, ih]

theorem dictInsert_noop {α : Type} (m : List (String × α)) (k : String) (v : α)
    (h : alookup m k = some v) : dictInsert m k v = m := by
  induction m with
  | nil => simp [alookup] at h
  | cons e rest ih =>
    by_cases he : e.1 = k
    · rw [alookup_cons, if_pos he] at h
      obtain ⟨k', v'⟩ := e
      simp only at he
      subst he
      injection h with h
      subst h
      simp [dictInsert_cons]
    · rw [alookup_cons, if_neg he] at h
      rw [dictInsert_cons, if_neg he, ih h]

theorem mem_dictInsert {α : Type} (m : List (String × α)) (k : String) (v : α)
    (p : String × α) (h : p ∈ dictInsert m k v) : p ∈ m ∨ p = (k, v) := by
  induction m with
  | nil => simp [dictInsert] at h; simp [h]
  | cons e rest ih =>
    by_cases he : e.1 = k
    · rw [dictInsert_cons, if_pos he] at h
      rcases List.mem_cons.mp h with h | h
      · right; exact h
      · left; exact List.mem_cons_of_mem _ h
    · rw [dictInsert_cons, if_neg he] at h
      rcases List.mem_cons.mp h with h | h
      · left; simp [h]
      · rcases ih h with h' | h'
        · left; exact List.mem_cons_of_mem _ h'
        · right; exact h'

theorem mem_dictMerge {α : Type} (b a : List (String × α)) (p : String × α)
    (h : p ∈ dictMerge a b) : p ∈ a ∨ p ∈ b := by
  induction b generalizing a with
  | nil => left; exact h
  | cons x bs ih =>
    have h' : p ∈ dictMerge (dictInsert a x.1 x.2) bs := h
    rcases ih _ h' with h'' | h''
    · rcases mem_dictInsert _ _ _ _ h'' with h3 | h3
      · left; exact h3
      · right
        have hx : p = x := by cases x; simpa using h3
        simp [hx]
    · right; exact List.mem_cons_of_mem _ h''

theorem hasKey_iff_mem_keysOf {α : Type} (m : List (String × α)) (k : String) :
    hasKey m k = true ↔ k ∈ keysOf m := by
  induction m with
  | nil => simp [hasKey, alookup, keysOf]
  | cons e rest ih =>
    by_cases he : e.1 = k
    · simp [hasKey_cons, he, keysOf]
    · simp only [hasKey_cons, he, keysOf, List.map_cons, List.mem_cons]
      constructor
      · intro h
        right
        rw [keysOf] at ih
        exact ih.mp (by simpa using h)
      · intro h
        rcases h with h | h
        · exact absurd h.symm he
        · simp only [Bool.or_eq_true]
          right
          rw [keysOf] at ih
          exact ih.mpr h

theorem hasKey_false_of_not_mem {α : Type} (m : List (String × α)) (k : String)
    (h : k ∉ keysOf m) : hasKey m k = false := by
  by_cases hh : hasKey m k = true
  · exact absurd ((hasKey_iff_mem_keysOf m k).mp hh) h
  · simpa using hh

theorem dictInsert_fresh {α : Type} (m : List (String × α)) (k : String) (v : α)
    (h : hasKey m k = false) : dictInsert m k v = m ++ [(k, v)] := by
  induction m with
  | nil => simp [dictInsert]
  | cons e rest ih =>
    rw [hasKey_cons] at h
    simp only [Bool.or_eq_false_iff] at h
    have he : e.1 ≠ k := by
      intro hh
      rw [hh] at h
      simp at h
    rw [dictInsert_cons, if_neg he, ih h.2]
    simp

theorem keysOf_append {α : Type} (a b : List (String × α)) :
    keysOf (a ++ b) = keysOf a ++ keysOf b := by
  simp [keysOf]

theorem dictMerge_append {α : Type} (b : List (String × α)) :
    ∀ a, (∀ k ∈ keysOf b, hasKey a k = false) → (keysOf b).Nodup →
    dictMerge a b = a ++ b := by
  induction b with
  | nil => intro a _ _; simp [dictMerge]
  | cons x bs ih =>
    intro a hfresh hnd
    have hx : hasKey a x.1 = false := hfresh x.1 (by simp [keysOf])
    have step : dictMerge a (x :: bs) = dictMerge (dictInsert a x.1 x.2) bs := rfl
    rw [step, dictInsert_fresh a x.1 x.2 hx]
    have hkc : keysOf (x :: bs) = x.1 :: keysOf bs := by simp [keysOf]
    rw [hkc] at hnd
    have hnd2 : x.1 ∉ keysOf bs ∧ (keysOf bs).Nodup := List.nodup_cons.mp hnd
    have hfresh' : ∀ k ∈ keysOf bs, hasKey (a ++ [x]) k = false := by
      intro k hk
      rw [hasKey_append]
      have h1 : hasKey a k = false := hfresh k (by simp [keysOf]; right; simpa [keysOf] using hk)
      have h2 : k ≠ x.1 := fun hkx => hnd2.1 (hkx ▸ hk)
      have h3 : hasKey [x] k = false := by
        simp [hasKey_cons, hasKey, alookup, Ne.symm h2]
      rw [h1, h3]
      rfl
    have hx1 : (x.1, x.2) = x := rfl
    rw [hx1, ih (a ++ [x]) hfresh' hnd2.2, List.append_assoc]
    rfl

/-! ### Dotted path lemmas -/

theorem splitDotAux_cons_dot (cs acc : List Char) :
    splitDotAux ('.' :: cs) acc = acc.reverse :: splitDotAux cs [] := by
  simp [splitDotAux]

theorem splitDotAux_cons_ne (c : Char) (cs acc : List Char) (h : c ≠ '.') :
    splitDotAux (c :: cs) acc = splitDotAux cs (c :: acc) := by
  simp [splitDotAux, h]

theorem splitDotAux_ne_nil (cs : List Char) : ∀ acc, splitDotAux cs acc ≠ [] := by
  induction cs with
  | nil => intro acc; simp [splitDotAux]
  | cons c cs ih =>
    intro acc
    by_cases h : c = '.'
    · subst h; rw [splitDotAux_cons_dot]; simp
    · rw [splitDotAux_cons_ne c cs acc h]; exact ih (c :: acc)

theorem splitDotAux_dot_append (xs : List Char) :
    ∀ acc ys, splitDotAux (xs ++ '.' :: ys) acc = splitDotAux xs acc ++ splitDotAux ys [] := by
  induction xs with
  | nil =>
    intro acc ys
    rw [List.nil_append, splitDotAux_cons_dot]
    rfl
  | cons c cs ih =>
    intro acc ys
    by_cases h : c = '.'
    · subst h
      rw [List.cons_append, splitDotAux_cons_dot, splitDotAux_cons_dot, ih]
      rfl
    · rw [List.cons_append, splitDotAux_cons_ne c _ acc h, splitDotAux_cons_ne c cs acc h, ih]

theorem splitDotAux_no_dot (cs : List Char) :
    ∀ acc, '.' ∉ cs → splitDotAux cs acc = [acc.reverse ++ cs] := by
  induction cs with
  | nil => intro acc _; simp [splitDotAux]
  | cons c cs ih =>
    intro acc h
    have hc : c ≠ '.' := fun hh => h (hh ▸ List.mem_cons_self c cs)
    have h2 : '.' ∉ cs := fun hh => h (List.mem_cons_of_mem c hh)
    rw [splitDotAux_cons_ne c cs acc hc, ih (c :: acc) h2]
    simp

theorem stringMk_data (s : String) : String.mk s.data = s := rfl

theorem stringMk_append (a b : List Char) :
    String.mk (a ++ b) = String.mk a ++ String.mk b := rfl

theorem dotFree_not_mem (s : String) (h : dotFree s = true) : '.' ∉ s.data := by
  intro hm
  rw [dotFree, Bool.not_eq_true'] at h
  rw [List.contains_eq_any_beq] at h
  have : s.data.any (fun x => '.' == x) = true := by
    rw [List.any_eq_true]
    exact ⟨'.', hm, by simp⟩
  rw [this] at h
  exact Bool.noConfusion h

theorem splitDot_dotFree (s : String) (h : dotFree s = true) : splitDot s = [s] := by
  rw [splitDot, splitDotAux_no_dot s.data [] (dotFree_not_mem s h)]
  simp [stringMk_data]

theorem joinDot_cons (s : String) (rest : List String) (h : rest ≠ []) :
    joinDot (s :: rest) = s ++ "." ++ joinDot rest := by
  cases rest with
  | nil => exact absurd rfl h
  | cons a l => rfl

theorem splitDot_joinDot (segs : List String) (hne : segs ≠ [])
    (hd : ∀ s ∈ segs, dotFree s = true) : splitDot (joinDot segs) = segs := by
  induction segs with
  | nil => exact absurd rfl hne
  | cons s rest ih =>
    cases rest with
    | nil =>
      exact splitDot_dotFree s (hd s (by simp))
    | cons a l =>
      rw [joinDot_cons s (a :: l) (by simp)]
      have hdata : (s ++ "." ++ joinDot (a :: l)).data
          = s.data ++ '.' :: (joinDot (a :: l)).data := by
        rw [String.data_append, String.data_append]
        simp
      rw [splitDot, hdata, splitDotAux_dot_append,
        splitDotAux_no_dot s.data [] (dotFree_not_mem s (hd s (by simp)))]
      have ihr := ih (by simp) (fun x hx => hd x (List.mem_cons_of_mem s hx))
      rw [splitDot] at ihr
      rw [List.map_append, ihr]
      simp [stringMk_data]

theorem getLastD_irrel {α : Type} (l : List α) (d d' : α) (h : l ≠ []) :
    l.getLastD d = l.getLastD d' := by
  cases l with
  | nil => exact absurd rfl h
  | cons a rest => rw [List.getLastD_cons, List.getLastD_cons]

theorem getLastD_map_mk (l : List (List Char)) :
    ∀ a, String.mk (l.getLastD a) = (l.map String.mk).getLastD (String.mk a) := by
  induction l with
  | nil => intro a; rfl
  | cons b l ih =>
    intro a
    rw [List.getLastD_cons, List.map_cons, List.getLastD_cons]
    exact ih b

theorem splitDotAux_append_no_dot (xs ys : List Char) (hy : '.' ∉ ys) :
    ∀ acc, splitDotAux (xs ++ ys) acc =
      (splitDotAux xs acc).dropLast ++ [((splitDotAux xs acc).getLastD []) ++ ys] := by
  induction xs with
  | nil =>
    intro acc
    rw [List.nil_append, splitDotAux_no_dot ys acc hy]
    rfl
  | cons c cs ih =>
    intro acc
    by_cases h : c = '.'
    · subst h
      rw [List.cons_append, splitDotAux_cons_dot, splitDotAux_cons_dot, ih []]
      have hne := splitDotAux_ne_nil cs ([] : List Char)
      rw [List.dropLast_cons_of_ne_nil hne, List.getLastD_cons]
      have hir : (splitDotAux cs []).getLastD acc.reverse
          = (splitDotAux cs []).getLastD ([] : List Char) := getLastD_irrel _ _ _ hne
      rw [hir]
      simp
    · rw [List.cons_append, splitDotAux_cons_ne c _ acc h,
        splitDotAux_cons_ne c cs acc h]
      exact ih (c :: acc)

theorem splitDot_ne_nil (s : String) : splitDot s ≠ [] := by
  rw [splitDot]
  intro h
  exact splitDotAux_ne_nil s.data [] (List.map_eq_nil_iff.mp h)

theorem splitDot_append_dotFree (s t : String) (h : dotFree t = true) :
    splitDot (s ++ t) = (splitDot s).dropLast ++ [((splitDot s).getLastD "") ++ t] := by
  rw [splitDot, splitDot, String.data_append,
    splitDotAux_append_no_dot s.data t.data (dotFree_not_mem t h) []]
  rw [List.map_append, List.map_dropLast]
  congr 1
  rw [List.map_cons, List.map_nil]
  congr 1
  rw [stringMk_append]
  have hmk : String.mk ((splitDotAux s.data []).getLastD [])
      = ((splitDotAux s.data []).map String.mk).getLastD (String.mk []) :=
    getLastD_map_mk (splitDotAux s.data []) []
  rw [hmk, stringMk_data t]

/-! ### Suffix lemmas -/

theorem endsWithD_iff (s t : String) : endsWithD s t = true ↔ t.data <:+ s.data := by
  rw [endsWithD]
  exact List.isSuffixOf_iff_suffix

theorem endsWithD_append_left (pre key t : String) (h : endsWithD key t = true) :
    endsWithD (pre ++ key) t = true := by
  rw [endsWithD_iff] at h ⊢
  rw [String.data_append]
  exact h.trans (List.suffix_append pre.data key.data)

theorem endsWithD_self_append (s t : String) : endsWithD (s ++ t) t = true := by
  rw [endsWithD_iff, String.data_append]
  exact List.suffix_append s.data t.data

theorem url_file_clash (s : String) (hu : endsWithD s "_url" = true)
    (hf : endsWithD s "_file" = true) : False := by
  rw [endsWithD_iff] at hu hf
  rcases List.suffix_or_suffix_of_suffix hu hf with h | h
  · have : ¬ (("_url" : String).data <:+ ("_file" : String).data) := by decide
    exact this h
  · have : ¬ (("_file" : String).data <:+ ("_url" : String).data) := by decide
    exact this h

theorem append_url_inj (a b : String) (h : a ++ "_url" = b ++ "_url") : a = b := by
  have hd : a.data ++ ("_url" : String).data = b.data ++ ("_url" : String).data := by
    rw [← String.data_append, ← String.data_append, h]
  have : a.data = b.data := List.append_cancel_right hd
  have := congrArg String.mk this
  rwa [stringMk_data, stringMk_data] at this

/-! ### Well-formedness lemmas -/

theorem wfEntries_cons_str (k : String) (s : String) (rest : List (String × Val)) :
    wfEntries ((k, Val.str s) :: rest)
      = ((k != "") && dotFree k && !(hasKey rest k) && true && wfEntries rest) := rfl

theorem wfEntries_cons_other (k : String) (rest : List (String × Val)) :
    wfEntries ((k, Val.other) :: rest)
      = ((k != "") && dotFree k && !(hasKey rest k) && true && wfEntries rest) := rfl

theorem wfEntries_cons_node (k : String) (es : List (String × Val))
    (rest : List (String × Val)) :
    wfEntries ((k, Val.node es) :: rest)
      = ((k != "") && dotFree k && !(hasKey rest k) && (!(endsWithD k "_url") && wfEntries es)
          && wfEntries rest) := rfl

theorem wfEntries_cons_parts (k : String) (v : Val) (rest : List (String × Val))
    (h : wfEntries ((k, v) :: rest) = true) :
    dotFree k = true ∧ hasKey rest k = false ∧ wfEntries rest = true ∧
      (∀ es, v = Val.node es → endsWithD k "_url" = false ∧ wfEntries es = true) := by
  cases v with
  | str s =>
    rw [wfEntries_cons_str] at h
    simp only [Bool.and_eq_true, Bool.not_eq_true'] at h
    exact ⟨h.1.1.1.2, h.1.1.2, h.2, fun es hv => Val.noConfusion hv⟩
  | other =>
    rw [wfEntries_cons_other] at h
    simp only [Bool.and_eq_true, Bool.not_eq_true'] at h
    exact ⟨h.1.1.1.2, h.1.1.2, h.2, fun es hv => Val.noConfusion hv⟩
  | node es =>
    rw [wfEntries_cons_node] at h
    simp only [Bool.and_eq_true, Bool.not_eq_true'] at h
    refine ⟨h.1.1.1.2, h.1.1.2, h.2, ?_⟩
    intro es' hv
    injection hv with hv
    subst hv
    exact ⟨h.1.2.1, h.1.2.2⟩

theorem wfEntries_cons_ne (k : String) (v : Val) (rest : List (String × Val))
    (h : wfEntries ((k, v) :: rest) = true) : (k != "") = true := by
  cases v with
  | str s =>
    rw [wfEntries_cons_str] at h
    simp only [Bool.and_eq_true] at h
    exact h.1.1.1.1
  | other =>
    rw [wfEntries_cons_other] at h
    simp only [Bool.and_eq_true] at h
    exact h.1.1.1.1
  | node es =>
    rw [wfEntries_cons_node] at h
    simp only [Bool.and_eq_true] at h
    exact h.1.1.1.1

theorem wfEntries_alookup_node (t : List (String × Val)) (p : String)
    (es : List (String × Val)) (hw : wfEntries t = true)
    (hl : alookup t p = some (Val.node es)) :
    wfEntries es = true ∧ endsWithD p "_url" = false := by
  induction t with
  | nil => simp [alookup] at hl
  | cons e rest ih =>
    obtain ⟨k, v⟩ := e
    have hp := wfEntries_cons_parts k v rest hw
    rw [alookup_cons] at hl
    by_cases hk : k = p
    · simp only at hl
      rw [if_pos hk] at hl
      injection hl with hl
      subst hk
      exact ⟨(hp.2.2.2 es hl).2, (hp.2.2.2 es hl).1⟩
    · simp only at hl
      rw [if_neg hk] at hl
      exact ih hp.2.2.1 hl

theorem wfEntries_str_at_url (t : List (String × Val)) (k : String)
    (es : List (String × Val)) (hw : wfEntries t = true)
    (hu : endsWithD k "_url" = true) (hl : alookup t k = some (Val.node es)) : False := by
  have := wfEntries_alookup_node t k es hw hl
  rw [this.2] at hu
  exact Bool.noConfusion hu

/-! ### Path read-write lemmas -/

theorem setAtPath_cons_step (t : List (String × Val)) (p : String) (rest : List String)
    (last : String) (v : Val) (e : String × Val) :
    setAtPath (e :: t) (p :: rest) last v =
      (if e.1 = p then
        (e.1, match e.2 with
              | Val.node es => Val.node (setAtPath es rest last v)
              | x => x)
       else e) :: setAtPath t (p :: rest) last v := by
  rfl

theorem alookup_setAtPath_cons_ne (t : List (String × Val)) (p : String)
    (rest : List String) (last : String) (v : Val) (k : String) (h : k ≠ p) :
    alookup (setAtPath t (p :: rest) last v) k = alookup t k := by
  induction t with
  | nil => rfl
  | cons e tl ih =>
    rw [setAtPath_cons_step]
    by_cases he : e.1 = p
    · rw [if_pos he, alookup_cons, alookup_cons]
      have hek : ¬ (e.1 = k) := by
        rw [he]
        exact fun hh => h hh.symm
      simp only [hek, if_false]
      exact ih
    · rw [if_neg he, alookup_cons, alookup_cons]
      by_cases hek : e.1 = k
      · simp [hek]
      · simp only [hek, if_false]
        exact ih

theorem alookup_setAtPath_cons_eq (t : List (String × Val)) (p : String)
    (rest : List String) (last : String) (v : Val) :
    alookup (setAtPath t (p :: rest) last v) p =
      (alookup t p).map (fun w =>
        match w with
        | Val.node es => Val.node (setAtPath es rest last v)
        | x => x) := by
  induction t with
  | nil => rfl
  | cons e tl ih =>
    rw [setAtPath_cons_step]
    by_cases he : e.1 = p
    · rw [if_pos he, alookup_cons, alookup_cons]
      simp only [he, if_pos rfl]
      rfl
    · rw [if_neg he, alookup_cons, alookup_cons, if_neg he, if_neg he]
      exact ih

theorem getAtPath_cons_unfold (t : List (String × Val)) (p : String) (rest : List String)
    (last : String) :
    getAtPath t (p :: rest) last =
      (match alookup t p with
       | some (Val.node es) => getAtPath es rest last
       | _ => none) := rfl

theorem getAtPath_cons_some (t : List (String × Val)) (p : String) (rest : List String)
    (last : String) (v : Val) (h : getAtPath t (p :: rest) last = some v) :
    ∃ es, alookup t p = some (Val.node es) ∧ getAtPath es rest last = some v := by
  rw [getAtPath_cons_unfold] at h
  cases hl : alookup t p with
  | none => rw [hl] at h; exact Option.noConfusion h
  | some w =>
    cases w with
    | node es => rw [hl] at h; exact ⟨es, rfl, h⟩
    | str s => rw [hl] at h; exact Option.noConfusion h
    | other => rw [hl] at h; exact Option.noConfusion h

theorem getAtPath_setAtPath_same (P : List String) :
    ∀ t l0 l v w, getAtPath t P l0 = some w →
    getAtPath (setAtPath t P l v) P l = some v := by
  induction P with
  | nil =>
    intro t l0 l v w _
    exact alookup_dictInsert_self t l v
  | cons p r ih =>
    intro t l0 l v w h
    obtain ⟨es, hlp, hin⟩ := getAtPath_cons_some t p r l0 w h
    rw [getAtPath_cons_unfold, alookup_setAtPath_cons_eq, hlp]
    exact ih es l0 l v w hin

theorem hasKey_dictInsert_mono {α : Type} (t : List (String × α)) (l k : String) (v : α)
    (h : hasKey t k = true) : hasKey (dictInsert t l v) k = true := by
  by_cases hk : l = k
  · subst hk
    rw [hasKey, alookup_dictInsert_self]
    rfl
  · rw [hasKey, alookup_dictInsert_ne t l k v hk]
    exact h

theorem hasKey_setAtPath_cons (t : List (String × Val)) (p : String) (rest : List String)
    (l : String) (v : Val) (k : String) :
    hasKey (setAtPath t (p :: rest) l v) k = hasKey t k := by
  by_cases hk : k = p
  · subst hk
    rw [hasKey, hasKey, alookup_setAtPath_cons_eq]
    cases alookup t k <;> rfl
  · rw [hasKey, hasKey, alookup_setAtPath_cons_ne t p rest l v k hk]

theorem hasKey_setAtPath_mono (P : List String) (t : List (String × Val))
    (l : String) (v : Val) (k : String) (h : hasKey t k = true) :
    hasKey (setAtPath t P l v) k = true := by
  cases P with
  | nil => exact hasKey_dictInsert_mono t l k v h
  | cons p r => rw [hasKey_setAtPath_cons]; exact h

theorem setAtPath_cons_of_no_key (t : List (String × Val)) (p : String)
    (rest : List String) (l : String) (v : Val) (h : hasKey t p = false) :
    setAtPath t (p :: rest) l v = t := by
  induction t with
  | nil => rfl
  | cons e tl ih =>
    rw [hasKey_cons, Bool.or_eq_false_iff] at h
    have he : ¬ (e.1 = p) := by
      intro hh
      rw [hh] at h
      simp at h
    rw [setAtPath_cons_step, if_neg he, ih h.2]

theorem setAtPath_noop (P : List String) :
    ∀ t l v, wfEntries t = true → getAtPath t P l = some v →
    setAtPath t P l v = t := by
  induction P with
  | nil =>
    intro t l v _ h
    exact dictInsert_noop t l v h
  | cons p r ih =>
    intro t l v hw h
    induction t with
    | nil => rfl
    | cons e tl iht =>
      obtain ⟨k, w⟩ := e
      have hp := wfEntries_cons_parts k w tl hw
      by_cases hk : k = p
      · subst hk
        obtain ⟨es, hlp, hin⟩ := getAtPath_cons_some ((k, w) :: tl) k r l v h
        rw [alookup_cons, if_pos rfl] at hlp
        injection hlp with hlp
        rw [setAtPath_cons_step, if_pos rfl]
        subst hlp
        show (k, Val.node (setAtPath es r l v)) :: setAtPath tl (k :: r) l v
          = (k, Val.node es) :: tl
        rw [ih es l v (hp.2.2.2 es rfl).2 hin]
        rw [setAtPath_cons_of_no_key tl k r l v hp.2.1]
      · obtain ⟨es, hlp, hin⟩ := getAtPath_cons_some ((k, w) :: tl) p r l v h
        rw [alookup_cons, if_neg hk] at hlp
        have htl : getAtPath tl (p :: r) l = some v := by
          rw [getAtPath_cons_unfold, hlp]
          exact hin
        rw [setAtPath_cons_step, if_neg hk, iht hp.2.2.1 htl]

theorem getAtPath_setAtPath_other (P2 : List String) :
    ∀ t P1 l1 l2 w u, wfEntries t = true → endsWithD l2 "_url" = true →
    P1 ++ [l1] ≠ P2 ++ [l2] → getAtPath t P1 l1 = some (Val.str u) →
    getAtPath (setAtPath t P2 l2 (Val.str w)) P1 l1 = some (Val.str u) := by
  induction P2 with
  | nil =>
    intro t P1 l1 l2 w u hw hu hne hget
    cases P1 with
    | nil =>
      have hl : l1 ≠ l2 := by
        intro hh
        exact hne (by rw [hh])
      rw [getAtPath] at hget ⊢
      rw [setAtPath, alookup_dictInsert_ne t l2 l1 (Val.str w) (fun hh => hl hh.symm)]
      exact hget
    | cons q r1 =>
      obtain ⟨es, hlp, hin⟩ := getAtPath_cons_some t q r1 l1 (Val.str u) hget
      by_cases hq : q = l2
      · exact absurd (hq ▸ hlp) (fun hh => wfEntries_str_at_url t l2 es hw hu hh)
      · rw [getAtPath_cons_unfold]
        rw [setAtPath, alookup_dictInsert_ne t l2 q (Val.str w) (fun hh => hq hh.symm), hlp]
        exact hin
  | cons p r2 ih =>
    intro t P1 l1 l2 w u hw hu hne hget
    cases P1 with
    | nil =>
      rw [getAtPath] at hget ⊢
      by_cases hl : l1 = p
      · subst hl
        rw [alookup_setAtPath_cons_eq, hget]
        rfl
      · rw [alookup_setAtPath_cons_ne t p r2 l2 (Val.str w) l1 hl]
        exact hget
    | cons q r1 =>
      obtain ⟨es, hlp, hin⟩ := getAtPath_cons_some t q r1 l1 (Val.str u) hget
      by_cases hq : q = p
      · subst hq
        rw [getAtPath_cons_unfold, alookup_setAtPath_cons_eq, hlp]
        have hwes := (wfEntries_alookup_node t q es hw hlp).1
        have hne' : r1 ++ [l1] ≠ r2 ++ [l2] := by
          intro hh
          exact hne (by rw [List.cons_append, List.cons_append, hh])
        exact ih es r1 l1 l2 w u hwes hu hne' hin
      · rw [getAtPath_cons_unfold, alookup_setAtPath_cons_ne t p r2 l2 (Val.str w) q hq, hlp]
        exact hin

theorem endsWithD_file_false_of_url (l : String) (hu : endsWithD l "_url" = true) :
    endsWithD l "_file" = false := by
  by_cases h : endsWithD l "_file" = true
  · exact absurd (url_file_clash l hu h) (fun hh => hh)
  · simpa using h

theorem wfEntries_dictInsert_url (t : List (String × Val)) (l : String) (u : String)
    (hw : wfEntries t = true) (hd : dotFree l = true) (hne : l ≠ "") :
    wfEntries (dictInsert t l (Val.str u)) = true := by
  induction t with
  | nil =>
    rw [dictInsert]
    rw [wfEntries_cons_str]
    simp [hd, hne, hasKey, alookup, wfEntries]
  | cons e tl ih =>
    obtain ⟨k, w⟩ := e
    have hp := wfEntries_cons_parts k w tl hw
    have hkne := wfEntries_cons_ne k w tl hw
    by_cases hk : k = l
    · subst hk
      rw [dictInsert_cons, if_pos rfl]
      rw [wfEntries_cons_str]
      simp only [Bool.and_eq_true, Bool.not_eq_true']
      exact ⟨⟨⟨⟨hkne, hp.1⟩, hp.2.1⟩, trivial⟩, hp.2.2.1⟩
    · rw [dictInsert_cons, if_neg hk]
      have hkk : hasKey (dictInsert tl l (Val.str u)) k = false := by
        rw [hasKey, alookup_dictInsert_ne tl l k (Val.str u) (fun hh => hk hh.symm)]
        exact hp.2.1
      cases w with
      | str s =>
        rw [wfEntries_cons_str]
        simp only [Bool.and_eq_true, Bool.not_eq_true']
        exact ⟨⟨⟨⟨hkne, hp.1⟩, hkk⟩, trivial⟩, ih hp.2.2.1⟩
      | other =>
        rw [wfEntries_cons_other]
        simp only [Bool.and_eq_true, Bool.not_eq_true']
        exact ⟨⟨⟨⟨hkne, hp.1⟩, hkk⟩, trivial⟩, ih hp.2.2.1⟩
      | node es =>
        rw [wfEntries_cons_node]
        simp only [Bool.and_eq_true, Bool.not_eq_true']
        exact ⟨⟨⟨⟨hkne, hp.1⟩, hkk⟩, (hp.2.2.2 es rfl).1, (hp.2.2.2 es rfl).2⟩, ih hp.2.2.1⟩

theorem wfEntries_setAtPath_url (P : List String) :
    ∀ t l u, wfEntries t = true → dotFree l = true → l ≠ "" →
    wfEntries (setAtPath t P l (Val.str u)) = true := by
  induction P with
  | nil =>
    intro t l u hw hd hne
    exact wfEntries_dictInsert_url t l u hw hd hne
  | cons p r ih =>
    intro t l u hw hd hne
    induction t with
    | nil => exact hw
    | cons e tl iht =>
      obtain ⟨k, w⟩ := e
      have hp := wfEntries_cons_parts k w tl hw
      have hkne := wfEntries_cons_ne k w tl hw
      have hkeys : ∀ q, hasKey (setAtPath tl (p :: r) l (Val.str u)) q = hasKey tl q :=
        fun q => hasKey_setAtPath_cons tl p r l (Val.str u) q
      by_cases hk : k = p
      · rw [setAtPath_cons_step, if_pos hk]
        cases w with
        | node es =>
          show wfEntries ((k, Val.node (setAtPath es r l (Val.str u)))
            :: setAtPath tl (p :: r) l (Val.str u)) = true
          rw [wfEntries_cons_node]
          simp only [Bool.and_eq_true, Bool.not_eq_true']
          exact ⟨⟨⟨⟨hkne, hp.1⟩, by rw [hkeys k]; exact hp.2.1⟩,
            (hp.2.2.2 es rfl).1, ih es l u (hp.2.2.2 es rfl).2 hd hne⟩,
            iht hp.2.2.1⟩
        | str s =>
          show wfEntries ((k, Val.str s) :: setAtPath tl (p :: r) l (Val.str u)) = true
          rw [wfEntries_cons_str]
          simp only [Bool.and_eq_true, Bool.not_eq_true']
          exact ⟨⟨⟨⟨hkne, hp.1⟩, by rw [hkeys k]; exact hp.2.1⟩, trivial⟩, iht hp.2.2.1⟩
        | other =>
          show wfEntries ((k, Val.other) :: setAtPath tl (p :: r) l (Val.str u)) = true
          rw [wfEntries_cons_other]
          simp only [Bool.and_eq_true, Bool.not_eq_true']
          exact ⟨⟨⟨⟨hkne, hp.1⟩, by rw [hkeys k]; exact hp.2.1⟩, trivial⟩, iht hp.2.2.1⟩
      · rw [setAtPath_cons_step, if_neg hk]
        cases w with
        | node es =>
          rw [wfEntries_cons_node]
          simp only [Bool.and_eq_true, Bool.not_eq_true']
          exact ⟨⟨⟨⟨hkne, hp.1⟩, by rw [hkeys k]; exact hp.2.1⟩,
            (hp.2.2.2 es rfl).1, (hp.2.2.2 es rfl).2⟩, iht hp.2.2.1⟩
        | str s =>
          rw [wfEntries_cons_str]
          simp only [Bool.and_eq_true, Bool.not_eq_true']
          exact ⟨⟨⟨⟨hkne, hp.1⟩, by rw [hkeys k]; exact hp.2.1⟩, trivial⟩, iht hp.2.2.1⟩
        | other =>
          rw [wfEntries_cons_other]
          simp only [Bool.and_eq_true, Bool.not_eq_true']
          exact ⟨⟨⟨⟨hkne, hp.1⟩, by rw [hkeys k]; exact hp.2.1⟩, trivial⟩, iht hp.2.2.1⟩

theorem ffkS_nil_entries (ft : String) (pre : String) : ffkS ft [] pre = [] := rfl

theorem ffkS_cons_node (ft key : String) (es rest : List (String × Val)) (pre : String) :
    ffkS ft ((key, Val.node es) :: rest) pre =
      ffkS ft es (if pre = "" then key else pre ++ "." ++ key) ++ ffkS ft rest pre := rfl

theorem ffkS_cons_str (ft key value : String) (rest : List (String × Val)) (pre : String) :
    ffkS ft ((key, Val.str value) :: rest) pre =
      (if endsWithD key "_file" && should_process_file key ft then
        [((if pre = "" then key else pre ++ "." ++ key), value)]
       else []) ++ ffkS ft rest pre := rfl

theorem ffkS_cons_other (ft key : String) (rest : List (String × Val)) (pre : String) :
    ffkS ft ((key, Val.other) :: rest) pre = ffkS ft rest pre := rfl

theorem ffkS_dictInsert_url (ft : String) (t : List (String × Val)) :
    ∀ pre l u, wfEntries t = true → endsWithD l "_url" = true →
    ffkS ft (dictInsert t l (Val.str u)) pre = ffkS ft t pre := by
  induction t with
  | nil =>
    intro pre l u _ hu
    rw [dictInsert, ffkS_cons_str, ffkS_nil_entries]
    rw [endsWithD_file_false_of_url l hu]
    simp
  | cons e tl ih =>
    intro pre l u hw hu
    obtain ⟨k, w⟩ := e
    have hp := wfEntries_cons_parts k w tl hw
    by_cases hk : k = l
    · subst hk
      rw [dictInsert_cons, if_pos rfl]
      cases w with
      | node es => exact absurd ((hp.2.2.2 es rfl).1) (by rw [hu]; simp)
      | str s =>
        rw [ffkS_cons_str, ffkS_cons_str]
        rw [endsWithD_file_false_of_url k hu]
        simp
      | other =>
        rw [ffkS_cons_str, ffkS_cons_other]
        rw [endsWithD_file_false_of_url k hu]
        simp
    · rw [dictInsert_cons, if_neg hk]
      cases w with
      | node es =>
        rw [ffkS_cons_node, ffkS_cons_node, ih pre l u hp.2.2.1 hu]
      | str s =>
        rw [ffkS_cons_str, ffkS_cons_str, ih pre l u hp.2.2.1 hu]
      | other =>
        rw [ffkS_cons_other, ffkS_cons_other, ih pre l u hp.2.2.1 hu]

theorem ffkS_setAtPath_url (P : List String) :
    ∀ ft t pre l u, wfEntries t = true → endsWithD l "_url" = true →
    ffkS ft (setAtPath t P l (Val.str u)) pre = ffkS ft t pre := by
  induction P with
  | nil =>
    intro ft t pre l u hw hu
    exact ffkS_dictInsert_url ft t pre l u hw hu
  | cons p r ih =>
    intro ft t pre l u hw hu
    induction t with
    | nil => rfl
    | cons e tl iht =>
      obtain ⟨k, w⟩ := e
      have hp := wfEntries_cons_parts k w tl hw
      by_cases hk : k = p
      · rw [setAtPath_cons_step, if_pos hk]
        cases w with
        | node es =>
          show ffkS ft ((k, Val.node (setAtPath es r l (Val.str u)))
            :: setAtPath tl (p :: r) l (Val.str u)) pre = _
          rw [ffkS_cons_node, ffkS_cons_node]
          rw [ih ft es _ l u (hp.2.2.2 es rfl).2 hu]
          rw [iht hp.2.2.1]
        | str s =>
          show ffkS ft ((k, Val.str s) :: setAtPath tl (p :: r) l (Val.str u)) pre = _
          rw [ffkS_cons_str, ffkS_cons_str, iht hp.2.2.1]
        | other =>
          show ffkS ft ((k, Val.other) :: setAtPath tl (p :: r) l (Val.str u)) pre = _
          rw [ffkS_cons_other, ffkS_cons_other, iht hp.2.2.1]
      · rw [setAtPath_cons_step, if_neg hk]
        cases w with
        | node es =>
          rw [ffkS_cons_node, ffkS_cons_node, iht hp.2.2.1]
        | str s =>
          rw [ffkS_cons_str, ffkS_cons_str, iht hp.2.2.1]
        | other =>
          rw [ffkS_cons_other, ffkS_cons_other, iht hp.2.2.1]

/-! ### Tree induction and walk shape lemmas -/

mutual
theorem valInd (motive : List (String × Val) → Prop)
    (hnil : motive [])
    (hstr : ∀ k s rest, motive rest → motive ((k, Val.str s) :: rest))
    (hother : ∀ k rest, motive rest → motive ((k, Val.other) :: rest))
    (hnode : ∀ k es rest, motive es → motive rest → motive ((k, Val.node es) :: rest)) :
    ∀ (v : Val) (k : String) (rest : List (String × Val)),
      motive rest → motive ((k, v) :: rest)
  | Val.str s => fun k rest h => hstr k s rest h
  | Val.other => fun k rest h => hother k rest h
  | Val.node es => fun k rest h =>
      hnode k es rest (entriesInd motive hnil hstr hother hnode es) h

theorem entriesInd (motive : List (String × Val) → Prop)
    (hnil : motive [])
    (hstr : ∀ k s rest, motive rest → motive ((k, Val.str s) :: rest))
    (hother : ∀ k rest, motive rest → motive ((k, Val.other) :: rest))
    (hnode : ∀ k es rest, motive es → motive rest → motive ((k, Val.node es) :: rest)) :
    ∀ t, motive t
  | [] => hnil
  | (k, v) :: rest =>
      valInd motive hnil hstr hother hnode v k rest
        (entriesInd motive hnil hstr hother hnode rest)
end

theorem joinDot_single (s : String) : joinDot [s] = s := rfl

theorem joinDot_append_single (P : List String) (k : String) :
    P ≠ [] → joinDot (P ++ [k]) = joinDot P ++ "." ++ k := by
  induction P with
  | nil => intro h; exact absurd rfl h
  | cons p ps ih =>
    intro _
    cases hps : ps with
    | nil => rfl
    | cons a l =>
      subst hps
      rw [List.cons_append, joinDot_cons p ((a :: l) ++ [k]) (by simp),
        joinDot_cons p (a :: l) (by simp)]
      rw [ih (by simp)]
      simp [String.append_assoc]

theorem joinDot_ne_empty (P : List String) (hne : P ≠ [])
    (h : ∀ s ∈ P, s ≠ "") : joinDot P ≠ "" := by
  cases P with
  | nil => exact absurd rfl hne
  | cons s rest =>
    cases rest with
    | nil => exact h s (by simp)
    | cons a l =>
      rw [joinDot_cons s (a :: l) (by simp)]
      intro hh
      have := congrArg String.data hh
      rw [String.data_append, String.data_append] at this
      simp at this

theorem preRep_step (pre : String) (P : List String) (key : String)
    (hp : preRep pre P) (hk : dotFree key = true) (hkne : key ≠ "") :
    preRep (if pre = "" then key else pre ++ "." ++ key) (P ++ [key]) := by
  rcases hp with ⟨hP, hpre⟩ | ⟨hP, hdf, hpre⟩
  · subst hP
    subst hpre
    right
    refine ⟨by simp, ?_, ?_⟩
    · intro s hs
      simp only [List.nil_append, List.mem_singleton] at hs
      rw [hs]; exact ⟨hk, hkne⟩
    · simp [joinDot_single]
  · right
    refine ⟨by simp, ?_, ?_⟩
    · intro s hs
      rw [List.mem_append] at hs
      rcases hs with hs | hs
      · exact hdf s hs
      · rw [List.mem_singleton] at hs
        rw [hs]; exact ⟨hk, hkne⟩
    · have hne : ¬ (pre = "") := by
        rw [hpre]
        exact joinDot_ne_empty P hP (fun s hs => (hdf s hs).2)
      rw [if_neg hne, joinDot_append_single P key hP, hpre]

theorem splitDot_full_key (pre : String) (P : List String) (key : String)
    (hp : preRep pre P) (hk : dotFree key = true) (hkne : key ≠ "") :
    splitDot (if pre = "" then key else pre ++ "." ++ key) = P ++ [key] := by
  have hstep := preRep_step pre P key hp hk hkne
  rcases hstep with ⟨habs, _⟩ | ⟨_, hdf, hpre⟩
  · exact absurd habs (by simp)
  · rw [hpre]
    exact splitDot_joinDot (P ++ [key]) (by simp) (fun s hs => (hdf s hs).1)

theorem getAtPath_cons_lift (key : String) (v : Val) (rest : List (String × Val))
    (X : List String) (l : String) (h : X.headD l ≠ key) :
    getAtPath ((key, v) :: rest) X l = getAtPath rest X l := by
  cases X with
  | nil =>
    show alookup ((key, v) :: rest) l = alookup rest l
    rw [alookup_cons, if_neg (fun hh : key = l => h (by simp [List.headD]; exact hh.symm))]
  | cons q r =>
    rw [getAtPath_cons_unfold, getAtPath_cons_unfold,
      alookup_cons, if_neg (fun hh : key = q => h (by simp [List.headD]; exact hh.symm))]

theorem dropLast_headD_getLastD (k : String) (segs : List String) :
    ((k :: segs).dropLast).headD ((k :: segs).getLastD "") = k := by
  cases segs with
  | nil => rfl
  | cons a l => rw [List.dropLast_cons_of_ne_nil (by simp)]; rfl

theorem ffkS_shape (ft : String) :
    ∀ entries, wfEntries entries = true → ∀ pre P, preRep pre P →
    ∀ K rel, (K, rel) ∈ ffkS ft entries pre →
    ∃ k segs, k ∈ keysOf entries ∧ splitDot K = P ++ k :: segs ∧
      (∀ s ∈ k :: segs, dotFree s = true ∧ s ≠ "") ∧
      getAtPath entries ((k :: segs).dropLast) ((k :: segs).getLastD "")
        = some (Val.str rel) ∧
      endsWithD ((k :: segs).getLastD "") "_file" = true := by
  intro entries
  induction entries using entriesInd with
  | hnil =>
    intro _ pre P _ K rel hmem
    rw [ffkS_nil_entries] at hmem
    exact absurd hmem (List.not_mem_nil (K, rel))
  | hstr k s rest ih =>
    intro hw pre P hp K rel hmem
    have hparts := wfEntries_cons_parts k (Val.str s) rest hw
    have hkne : k ≠ "" := by
      have := wfEntries_cons_ne k (Val.str s) rest hw
      exact bne_iff_ne.mp this
    rw [ffkS_cons_str] at hmem
    rcases List.mem_append.mp hmem with hmem | hmem
    · by_cases hcond : (endsWithD k "_file" && should_process_file k ft) = true
      · rw [if_pos hcond] at hmem
        rw [List.mem_singleton, Prod.mk.injEq] at hmem
        obtain ⟨hK, hrel⟩ := hmem
        refine ⟨k, [], by simp [keysOf], ?_, ?_, ?_, ?_⟩
        · rw [hK]
          exact splitDot_full_key pre P k hp hparts.1 hkne
        · intro x hx
          rw [List.mem_singleton] at hx
          rw [hx]
          exact ⟨hparts.1, hkne⟩
        · show alookup ((k, Val.str s) :: rest) k = some (Val.str rel)
          rw [alookup_cons, if_pos rfl, hrel]
        · exact (Bool.and_eq_true _ _).mp hcond |>.1
      · rw [if_neg hcond] at hmem
        exact absurd hmem (List.not_mem_nil (K, rel))
    · obtain ⟨k', segs, hk', hsplit, hdf, hget, hend⟩ :=
        ih hparts.2.2.1 pre P hp K rel hmem
      have hne : k' ≠ k := by
        intro hh
        rw [hh] at hk'
        have := (hasKey_iff_mem_keysOf rest k).mpr hk'
        rw [hparts.2.1] at this
        exact Bool.noConfusion this
      refine ⟨k', segs, ?_, hsplit, hdf, ?_, hend⟩
      · show k' ∈ keysOf ((k, Val.str s) :: rest)
        rw [keysOf, List.map_cons]
        exact List.mem_cons_of_mem _ hk'
      · rw [getAtPath_cons_lift k (Val.str s) rest _ _
          (by rw [dropLast_headD_getLastD]; exact hne)]
        exact hget
  | hother k rest ih =>
    intro hw pre P hp K rel hmem
    have hparts := wfEntries_cons_parts k Val.other rest hw
    rw [ffkS_cons_other] at hmem
    obtain ⟨k', segs, hk', hsplit, hdf, hget, hend⟩ :=
      ih hparts.2.2.1 pre P hp K rel hmem
    have hne : k' ≠ k := by
      intro hh
      rw [hh] at hk'
      have := (hasKey_iff_mem_keysOf rest k).mpr hk'
      rw [hparts.2.1] at this
      exact Bool.noConfusion this
    refine ⟨k', segs, ?_, hsplit, hdf, ?_, hend⟩
    · show k' ∈ keysOf ((k, Val.other) :: rest)
      rw [keysOf, List.map_cons]
      exact List.mem_cons_of_mem _ hk'
    · rw [getAtPath_cons_lift k Val.other rest _ _
        (by rw [dropLast_headD_getLastD]; exact hne)]
      exact hget
  | hnode k es rest ihes ih =>
    intro hw pre P hp K rel hmem
    have hparts := wfEntries_cons_parts k (Val.node es) rest hw
    have hkne : k ≠ "" := by
      have := wfEntries_cons_ne k (Val.node es) rest hw
      exact bne_iff_ne.mp this
    rw [ffkS_cons_node] at hmem
    rcases List.mem_append.mp hmem with hmem | hmem
    · obtain ⟨k0, segs0, hk0, hsplit0, hdf0, hget0, hend0⟩ :=
        ihes (hparts.2.2.2 es rfl).2
          (if pre = "" then k else pre ++ "." ++ k) (P ++ [k])
          (preRep_step pre P k hp hparts.1 hkne) K rel hmem
      refine ⟨k, k0 :: segs0, by simp [keysOf], ?_, ?_, ?_, ?_⟩
      · rw [hsplit0, List.append_assoc]
        rfl
      · intro x hx
        rw [List.mem_cons] at hx
        rcases hx with hx | hx
        · rw [hx]; exact ⟨hparts.1, hkne⟩
        · exact hdf0 x hx
      · rw [List.dropLast_cons_of_ne_nil (by simp : (k0 :: segs0) ≠ [])]
        rw [getAtPath_cons_unfold, alookup_cons, if_pos rfl]
        have hlast : (k :: k0 :: segs0).getLastD "" = (k0 :: segs0).getLastD "" := by
          rw [List.getLastD_cons]
          exact getLastD_irrel (k0 :: segs0) k "" (by simp)
        rw [hlast]
        exact hget0
      · have hlast : (k :: k0 :: segs0).getLastD "" = (k0 :: segs0).getLastD "" := by
          rw [List.getLastD_cons]
          exact getLastD_irrel (k0 :: segs0) k "" (by simp)
        rw [hlast]
        exact hend0
    · obtain ⟨k', segs, hk', hsplit, hdf, hget, hend⟩ :=
        ih hparts.2.2.1 pre P hp K rel hmem
      have hne : k' ≠ k := by
        intro hh
        rw [hh] at hk'
        have := (hasKey_iff_mem_keysOf rest k).mpr hk'
        rw [hparts.2.1] at this
        exact Bool.noConfusion this
      refine ⟨k', segs, ?_, hsplit, hdf, ?_, hend⟩
      · show k' ∈ keysOf ((k, Val.node es) :: rest)
        rw [keysOf, List.map_cons]
        exact List.mem_cons_of_mem _ hk'
      · rw [getAtPath_cons_lift k (Val.node es) rest _ _
          (by rw [dropLast_headD_getLastD]; exact hne)]
        exact hget

theorem ffkS_key_shape (ft : String) (entries : List (String × Val))
    (hw : wfEntries entries = true) (pre : String) (P : List String)
    (hp : preRep pre P) (K : String) (hK : K ∈ keysOf (ffkS ft entries pre)) :
    ∃ k segs, k ∈ keysOf entries ∧ splitDot K = P ++ k :: segs := by
  rw [keysOf] at hK
  obtain ⟨q, hq, hfst⟩ := List.mem_map.mp hK
  obtain ⟨qk, qr⟩ := q
  simp only at hfst
  obtain ⟨k, segs, hk, hsplit, _, _, _⟩ := ffkS_shape ft entries hw pre P hp qk qr hq
  subst hfst
  exact ⟨k, segs, hk, hsplit⟩

theorem ffkS_step_key_shape (ft k : String) (v : Val) (rest : List (String × Val))
    (pre : String) (P : List String)
    (hw : wfEntries ((k, v) :: rest) = true) (hp : preRep pre P) (K : String)
    (hK : K ∈ keysOf (ffkS_step ft k (if pre = "" then k else pre ++ "." ++ k) v)) :
    ∃ segs, splitDot K = P ++ k :: segs := by
  have hparts := wfEntries_cons_parts k v rest hw
  have hkne : k ≠ "" := bne_iff_ne.mp (wfEntries_cons_ne k v rest hw)
  cases v with
  | node es =>
    obtain ⟨k0, segs0, _, hsplit⟩ :=
      ffkS_key_shape ft es (hparts.2.2.2 es rfl).2 _ (P ++ [k])
        (preRep_step pre P k hp hparts.1 hkne) K hK
    refine ⟨k0 :: segs0, ?_⟩
    rw [hsplit, List.append_assoc]
    rfl
  | str s =>
    show ∃ segs, splitDot K = P ++ k :: segs
    by_cases hcond : (endsWithD k "_file" && should_process_file k ft) = true
    · have : K ∈ keysOf (if (endsWithD k "_file" && should_process_file k ft) = true
          then [((if pre = "" then k else pre ++ "." ++ k), s)] else []) := hK
      rw [if_pos hcond] at this
      have hKfk : K = (if pre = "" then k else pre ++ "." ++ k) := by
        simpa [keysOf] using this
      refine ⟨[], ?_⟩
      rw [hKfk]
      exact splitDot_full_key pre P k hp hparts.1 hkne
    · have : K ∈ keysOf (if (endsWithD k "_file" && should_process_file k ft) = true
          then [((if pre = "" then k else pre ++ "." ++ k), s)] else []) := hK
      rw [if_neg hcond] at this
      simp [keysOf] at this
  | other =>
    simp [ffkS_step, keysOf] at hK

theorem ffkS_sibling_disjoint (ft k : String) (v : Val) (rest : List (String × Val))
    (pre : String) (P : List String)
    (hw : wfEntries ((k, v) :: rest) = true) (hp : preRep pre P) (K : String)
    (hstep : K ∈ keysOf (ffkS_step ft k (if pre = "" then k else pre ++ "." ++ k) v))
    (hrest : K ∈ keysOf (ffkS ft rest pre)) : False := by
  have hparts := wfEntries_cons_parts k v rest hw
  obtain ⟨segs, hsplit1⟩ := ffkS_step_key_shape ft k v rest pre P hw hp K hstep
  obtain ⟨k', segs', hk', hsplit2⟩ :=
    ffkS_key_shape ft rest hparts.2.2.1 pre P hp K hrest
  rw [hsplit1] at hsplit2
  have := List.append_cancel_left hsplit2
  injection this with hh
  rw [← hh] at hk'
  have := (hasKey_iff_mem_keysOf rest k).mpr hk'
  rw [hparts.2.1] at this
  exact Bool.noConfusion this

theorem ffkS_keys_nodup (ft : String) :
    ∀ entries, wfEntries entries = true → ∀ pre P, preRep pre P →
    (keysOf (ffkS ft entries pre)).Nodup := by
  intro entries
  induction entries using entriesInd with
  | hnil =>
    intro _ pre P _
    simp [ffkS_nil_entries, keysOf]
  | hstr k s rest ih =>
    intro hw pre P hp
    have hparts := wfEntries_cons_parts k (Val.str s) rest hw
    rw [ffkS_cons_str, keysOf_append, List.nodup_append]
    refine ⟨?_, ih hparts.2.2.1 pre P hp, ?_⟩
    · by_cases hcond : (endsWithD k "_file" && should_process_file k ft) = true
      · rw [if_pos hcond]; simp [keysOf]
      · rw [if_neg hcond]; simp [keysOf]
    · intro a ha hb
      exact ffkS_sibling_disjoint ft k (Val.str s) rest pre P hw hp a ha hb
  | hother k rest ih =>
    intro hw pre P hp
    have hparts := wfEntries_cons_parts k Val.other rest hw
    rw [ffkS_cons_other]
    exact ih hparts.2.2.1 pre P hp
  | hnode k es rest ihes ih =>
    intro hw pre P hp
    have hparts := wfEntries_cons_parts k (Val.node es) rest hw
    have hkne : k ≠ "" := bne_iff_ne.mp (wfEntries_cons_ne k (Val.node es) rest hw)
    rw [ffkS_cons_node, keysOf_append, List.nodup_append]
    refine ⟨ihes (hparts.2.2.2 es rfl).2 _ (P ++ [k])
      (preRep_step pre P k hp hparts.1 hkne), ih hparts.2.2.1 pre P hp, ?_⟩
    intro a ha hb
    exact ffkS_sibling_disjoint ft k (Val.node es) rest pre P hw hp a ha hb

theorem find_file_keys_cons (ft key : String) (v : Val) (rest : List (String × Val))
    (pre : String) (acc : List (String × String)) :
    find_file_keys ft ((key, v) :: rest) pre acc =
      find_file_keys ft rest pre
        (find_file_keys_step ft key (if pre = "" then key else pre ++ "." ++ key) v acc) := rfl

theorem find_file_keys_acc (ft : String) :
    ∀ entries, wfEntries entries = true → ∀ pre P acc, preRep pre P →
    (keysOf acc).Nodup →
    (∀ K ∈ keysOf (ffkS ft entries pre), hasKey acc K = false) →
    find_file_keys ft entries pre acc = acc ++ ffkS ft entries pre := by
  intro entries
  induction entries using entriesInd with
  | hnil =>
    intro _ pre P acc _ _ _
    rw [ffkS_nil_entries]
    simp [find_file_keys]
  | hstr k s rest ih =>
    intro hw pre P acc hp hnd hfresh
    have hparts := wfEntries_cons_parts k (Val.str s) rest hw
    rw [find_file_keys_cons, ffkS_cons_str]
    by_cases hcond : (endsWithD k "_file" && should_process_file k ft) = true
    · have hstep : find_file_keys_step ft k (if pre = "" then k else pre ++ "." ++ k)
          (Val.str s) acc
          = dictInsert acc (if pre = "" then k else pre ++ "." ++ k) s := by
        show (if (endsWithD k "_file" && should_process_file k ft) = true
          then dictInsert acc (if pre = "" then k else pre ++ "." ++ k) s else acc) = _
        rw [if_pos hcond]
      have hfkmem : (if pre = "" then k else pre ++ "." ++ k)
          ∈ keysOf (ffkS ft ((k, Val.str s) :: rest) pre) := by
        rw [ffkS_cons_str, if_pos hcond, keysOf_append]
        simp [keysOf]
      have hfka : hasKey acc (if pre = "" then k else pre ++ "." ++ k) = false :=
        hfresh _ hfkmem
      rw [hstep, dictInsert_fresh acc _ s hfka]
      have hnd' : (keysOf (acc ++ [((if pre = "" then k else pre ++ "." ++ k), s)])).Nodup := by
        rw [keysOf_append, List.nodup_append]
        refine ⟨hnd, by simp [keysOf], ?_⟩
        intro a ha hb
        have hab : a = (if pre = "" then k else pre ++ "." ++ k) := by
          simpa [keysOf] using hb
        rw [hab] at ha
        have := (hasKey_iff_mem_keysOf acc _).mpr ha
        rw [hfka] at this
        exact Bool.noConfusion this
      have hfresh' : ∀ K ∈ keysOf (ffkS ft rest pre),
          hasKey (acc ++ [((if pre = "" then k else pre ++ "." ++ k), s)]) K = false := by
        intro K hK
        rw [hasKey_append]
        have h1 : hasKey acc K = false := by
          apply hfresh
          rw [ffkS_cons_str, keysOf_append]
          exact List.mem_append_right _ hK
        have h2 : K ≠ (if pre = "" then k else pre ++ "." ++ k) := by
          intro hh
          apply ffkS_sibling_disjoint ft k (Val.str s) rest pre P hw hp K _ hK
          show K ∈ keysOf (if (endsWithD k "_file" && should_process_file k ft) = true
            then [((if pre = "" then k else pre ++ "." ++ k), s)] else [])
          rw [if_pos hcond, hh]
          simp [keysOf]
        have h3 : hasKey [((if pre = "" then k else pre ++ "." ++ k), s)] K = false := by
          have hne2 : ¬ ((if pre = "" then k else pre ++ "." ++ k) = K) :=
            fun hh => h2 hh.symm
          simp [hasKey_cons, hasKey, alookup, hne2]
        rw [h1, h3]
        rfl
      rw [ih hparts.2.2.1 pre P _ hp hnd' hfresh']
      rw [if_pos hcond]
      simp
    · have hstep : find_file_keys_step ft k (if pre = "" then k else pre ++ "." ++ k)
          (Val.str s) acc = acc := by
        show (if (endsWithD k "_file" && should_process_file k ft) = true
          then dictInsert acc (if pre = "" then k else pre ++ "." ++ k) s else acc) = _
        rw [if_neg hcond]
      have hfresh' : ∀ K ∈ keysOf (ffkS ft rest pre), hasKey acc K = false := by
        intro K hK
        apply hfresh
        rw [ffkS_cons_str, keysOf_append]
        exact List.mem_append_right _ hK
      rw [hstep, ih hparts.2.2.1 pre P acc hp hnd hfresh']
      rw [if_neg hcond]
      simp
  | hother k rest ih =>
    intro hw pre P acc hp hnd hfresh
    have hparts := wfEntries_cons_parts k Val.other rest hw
    rw [find_file_keys_cons, ffkS_cons_other]
    have hstep : find_file_keys_step ft k (if pre = "" then k else pre ++ "." ++ k)
        Val.other acc = acc := rfl
    have hfresh' : ∀ K ∈ keysOf (ffkS ft rest pre), hasKey acc K = false := by
      intro K hK
      apply hfresh
      rw [ffkS_cons_other]
      exact hK
    rw [hstep, ih hparts.2.2.1 pre P acc hp hnd hfresh']
  | hnode k es rest ihes ih =>
    intro hw pre P acc hp hnd hfresh
    have hparts := wfEntries_cons_parts k (Val.node es) rest hw
    have hkne : k ≠ "" := bne_iff_ne.mp (wfEntries_cons_ne k (Val.node es) rest hw)
    have hpre' := preRep_step pre P k hp hparts.1 hkne
    rw [find_file_keys_cons]
    have hX : find_file_keys ft es (if pre = "" then k else pre ++ "." ++ k) []
        = ffkS ft es (if pre = "" then k else pre ++ "." ++ k) := by
      have := ihes (hparts.2.2.2 es rfl).2 _ (P ++ [k]) [] hpre'
        (by simp [keysOf]) (fun K _ => rfl)
      simpa using this
    have hstep : find_file_keys_step ft k (if pre = "" then k else pre ++ "." ++ k)
        (Val.node es) acc
        = dictMerge acc (find_file_keys ft es (if pre = "" then k else pre ++ "." ++ k) []) := rfl
    have hXnodup : (keysOf (ffkS ft es (if pre = "" then k else pre ++ "." ++ k))).Nodup :=
      ffkS_keys_nodup ft es (hparts.2.2.2 es rfl).2 _ (P ++ [k]) hpre'
    have hXfresh : ∀ K ∈ keysOf (ffkS ft es (if pre = "" then k else pre ++ "." ++ k)),
        hasKey acc K = false := by
      intro K hK
      apply hfresh
      rw [ffkS_cons_node, keysOf_append]
      exact List.mem_append_left _ hK
    have hmerge : dictMerge acc (ffkS ft es (if pre = "" then k else pre ++ "." ++ k))
        = acc ++ ffkS ft es (if pre = "" then k else pre ++ "." ++ k) :=
      dictMerge_append _ acc hXfresh hXnodup
    rw [hstep, hX, hmerge]
    have hnd' : (keysOf (acc ++ ffkS ft es (if pre = "" then k else pre ++ "." ++ k))).Nodup := by
      rw [keysOf_append, List.nodup_append]
      refine ⟨hnd, hXnodup, ?_⟩
      intro a ha hb
      have := (hasKey_iff_mem_keysOf acc a).mpr ha
      rw [hXfresh a hb] at this
      exact Bool.noConfusion this
    have hfresh' : ∀ K ∈ keysOf (ffkS ft rest pre),
        hasKey (acc ++ ffkS ft es (if pre = "" then k else pre ++ "." ++ k)) K = false := by
      intro K hK
      rw [hasKey_append]
      have h1 : hasKey acc K = false := by
        apply hfresh
        rw [ffkS_cons_node, keysOf_append]
        exact List.mem_append_right _ hK
      have h2 : hasKey (ffkS ft es (if pre = "" then k else pre ++ "." ++ k)) K = false := by
        apply hasKey_false_of_not_mem
        intro hmem
        exact ffkS_sibling_disjoint ft k (Val.node es) rest pre P hw hp K hmem hK
      rw [h1, h2]
      rfl
    rw [ih hparts.2.2.1 pre P _ hp hnd' hfresh']
    rw [ffkS_cons_node, List.append_assoc]

theorem find_file_keys_eq_ffkS (ft : String) (md : List (String × Val))
    (hw : wfEntries md = true) :
    find_file_keys ft md "" [] = ffkS ft md "" := by
  have := find_file_keys_acc ft md hw "" [] [] (Or.inl ⟨rfl, rfl⟩)
    (by simp [keysOf]) (fun K _ => rfl)
  simpa using this

/-! ### Engine step characterizations -/

theorem mem_keysOf_dictInsert {α : Type} (m : List (String × α)) (k' : String) (v : α)
    (k : String) : k ∈ keysOf (dictInsert m k' v) ↔ k = k' ∨ k ∈ keysOf m := by
  rw [← hasKey_iff_mem_keysOf, ← hasKey_iff_mem_keysOf]
  by_cases hk : k = k'
  · subst hk
    rw [hasKey, alookup_dictInsert_self]
    simp
  · rw [hasKey, alookup_dictInsert_ne m k' k v (fun hh => hk hh.symm)]
    simp [hasKey, hk]

theorem processArtifact_missing (dryRun force : Bool) (aid : Nat)
    (existing : List (String × RemoteFile)) (lf : List (String × String))
    (ts : TaskState) (md : List (String × Val)) (art : String × String)
    (h : alookup lf art.2 = none) :
    processArtifact dryRun force aid existing lf (ts, md) art = (ts, md) := by
  rw [processArtifact]
  simp only [get_file_hash_and_size, h]

theorem processArtifact_dryRun (force : Bool) (aid : Nat)
    (existing : List (String × RemoteFile)) (lf : List (String × String))
    (acc : TaskState × List (String × Val)) (art : String × String) :
    processArtifact true force aid existing lf acc art = acc := by
  obtain ⟨ts, md⟩ := acc
  rw [processArtifact]
  cases h : get_file_hash_and_size lf art.2 with
  | none => rfl
  | some fh => simp

theorem processArtifact_skip (aid : Nat) (existing : List (String × RemoteFile))
    (lf : List (String × String)) (ts : TaskState) (md : List (String × Val))
    (art : String × String) (h : String) (fid : Nat)
    (hlf : alookup lf art.2 = some h)
    (hq : file_exists_with_same_hash ts.remote aid art.2 h = (true, some fid)) :
    processArtifact false false aid existing lf (ts, md) art =
      (⟨ts.remote, dictInsert ts.skipped art.2 (downloadUrl fid), ts.updated, ts.created⟩,
       if hasKey md (art.1 ++ "_url") then md
       else setAtPath md (splitDot (art.1 ++ "_url")).dropLast
         ((splitDot (art.1 ++ "_url")).getLastD "") (Val.str (downloadUrl fid))) := by
  rw [processArtifact]
  simp only [get_file_hash_and_size, hlf, hq]
  simp

theorem processArtifact_upload (force : Bool) (aid : Nat)
    (existing : List (String × RemoteFile)) (lf : List (String × String))
    (ts : TaskState) (md : List (String × Val)) (art : String × String) (h : String)
    (hlf : alookup lf art.2 = some h)
    (hq : force = true ∨ (file_exists_with_same_hash ts.remote aid art.2 h).1 = false) :
    processArtifact false force aid existing lf (ts, md) art =
      (let up := upload_file_if_needed ts.remote aid h art.2 force
       let fileUrl := downloadUrl up.2.1
       ((if hasKey existing art.2 then
          ⟨up.1, ts.skipped, dictInsert ts.updated art.2 fileUrl, ts.created⟩
        else
          ⟨up.1, ts.skipped, ts.updated, dictInsert ts.created art.2 fileUrl⟩),
        setAtPath md (splitDot art.1).dropLast
          ((splitDot art.1).getLastD "" ++ "_url") (Val.str fileUrl))) := by
  rw [processArtifact]
  simp only [get_file_hash_and_size, hlf]
  rcases hq with hq | hq
  · subst hq
    simp
  · cases hqq : file_exists_with_same_hash ts.remote aid art.2 h with
    | mk b o =>
      rw [hqq] at hq
      simp only at hq
      subst hq
      cases o <;> simp

theorem foldl_artifacts_dryRun (force : Bool) (aid : Nat)
    (existing : List (String × RemoteFile)) (lf : List (String × String)) :
    ∀ (arts : List (String × String)) (acc : TaskState × List (String × Val)),
    arts.foldl (processArtifact true force aid existing lf) acc = acc := by
  intro arts
  induction arts with
  | nil => intro acc; rfl
  | cons a l ih =>
    intro acc
    rw [List.foldl_cons, processArtifact_dryRun]
    exact ih acc

theorem processModel_dryRun (force : Bool) (ft task : String) (aid : Nat)
    (existing : List (String × RemoteFile)) (lf : List (String × String))
    (ts : TaskState) (m : ModelEntry) :
    processModel true force ft task aid existing lf ts m = (ts, m, false) := by
  obtain ⟨name, doc⟩ := m
  cases doc with
  | none => rfl
  | some d =>
    rw [processModel]
    cases ht : taskEntry task d with
    | none => simp [ht, foldl_artifacts_dryRun]
    | some v =>
      cases v with
      | str s => simp [ht]
      | other => simp [ht]
      | node es => simp [ht, foldl_artifacts_dryRun]

theorem nlookup_nInsert_self {α : Type} (m : List (Nat × α)) (k : Nat) (v : α) :
    nlookup (nInsert m k v) k = some v := by
  induction m with
  | nil => simp [nInsert, nlookup]
  | cons e rest ih =>
    obtain ⟨k', v'⟩ := e
    by_cases h : k' = k
    · simp [nInsert, h, nlookup]
    · simp [nInsert, h, nlookup, ih]

theorem nlookup_nInsert_ne {α : Type} (m : List (Nat × α)) (k key : Nat) (v : α)
    (h : k ≠ key) : nlookup (nInsert m k v) key = nlookup m key := by
  induction m with
  | nil => simp [nInsert, nlookup, h]
  | cons e rest ih =>
    obtain ⟨k', v'⟩ := e
    by_cases he : k' = k
    · subst he
      simp [nInsert, nlookup, h]
    · by_cases hk : k' = key
      · subst hk
        simp [nInsert, nlookup, Ne.symm h]
      · simp [nInsert, he, nlookup, hk, ih]

theorem query_shape (r : Remote) (aid : Nat) (n h : String) :
    (∃ fid, file_exists_with_same_hash r aid n h = (true, some fid)) ∨
    file_exists_with_same_hash r aid n h = (false, none) := by
  rw [file_exists_with_same_hash]
  cases alookup (get_existing_files r aid) n with
  | none => right; rfl
  | some f =>
    by_cases hh : f.hash = h
    · left; exact ⟨f.fid, by simp [hh]⟩
    · right; simp [hh]

theorem query_match_lookup (r : Remote) (aid : Nat) (n h : String) (fid : Nat)
    (hq : file_exists_with_same_hash r aid n h = (true, some fid)) :
    alookup (get_existing_files r aid) n = some ⟨fid, h⟩ := by
  rw [file_exists_with_same_hash] at hq
  cases hl : alookup (get_existing_files r aid) n with
  | none => rw [hl] at hq; simp at hq
  | some f =>
    obtain ⟨f1, f2⟩ := f
    rw [hl] at hq
    by_cases hh : f2 = h
    · subst hh
      simp at hq
      rw [hq]
    · simp [hh] at hq

theorem query_of_lookup (r : Remote) (aid : Nat) (n h : String) (fid : Nat)
    (hl : alookup (get_existing_files r aid) n = some ⟨fid, h⟩) :
    file_exists_with_same_hash r aid n h = (true, some fid) := by
  rw [file_exists_with_same_hash, hl]
  simp

theorem processArtifact_ts_shape (dryRun force : Bool) (aid : Nat)
    (existing : List (String × RemoteFile)) (lf : List (String × String))
    (ts : TaskState) (md : List (String × Val)) (art : String × String) :
    (processArtifact dryRun force aid existing lf (ts, md) art).1 = ts ∨
    (∃ u, (processArtifact dryRun force aid existing lf (ts, md) art).1
        = ⟨ts.remote, dictInsert ts.skipped art.2 u, ts.updated, ts.created⟩
      ∧ force = false ∧ dryRun = false) ∨
    (∃ r u, (processArtifact dryRun force aid existing lf (ts, md) art).1
        = ⟨r, ts.skipped, dictInsert ts.updated art.2 u, ts.created⟩ ∧ dryRun = false) ∨
    (∃ r u, (processArtifact dryRun force aid existing lf (ts, md) art).1
        = ⟨r, ts.skipped, ts.updated, dictInsert ts.created art.2 u⟩ ∧ dryRun = false) := by
  cases hlf : alookup lf art.2 with
  | none =>
    left
    rw [processArtifact_missing dryRun force aid existing lf ts md art hlf]
  | some h =>
    cases dryRun with
    | true =>
      left
      rw [processArtifact_dryRun force aid existing lf (ts, md) art]
    | false =>
      cases force with
      | true =>
        rw [processArtifact_upload true aid existing lf ts md art h hlf (Or.inl rfl)]
        by_cases he : hasKey existing art.2 = true
        · right; right; left
          refine ⟨(upload_file_if_needed ts.remote aid h art.2 true).1,
            downloadUrl (upload_file_if_needed ts.remote aid h art.2 true).2.1, ?_, rfl⟩
          simp only [he, if_true]
        · right; right; right
          refine ⟨(upload_file_if_needed ts.remote aid h art.2 true).1,
            downloadUrl (upload_file_if_needed ts.remote aid h art.2 true).2.1, ?_, rfl⟩
          simp only [Bool.not_eq_true] at he
          simp only [he]
          simp
      | false =>
        rcases query_shape ts.remote aid art.2 h with ⟨fid, hq⟩ | hq
        · right; left
          refine ⟨downloadUrl fid, ?_, rfl, rfl⟩
          rw [processArtifact_skip aid existing lf ts md art h fid hlf hq]
        · rw [processArtifact_upload false aid existing lf ts md art h hlf
            (Or.inr (by rw [hq]))]
          by_cases he : hasKey existing art.2 = true
          · right; right; left
            refine ⟨(upload_file_if_needed ts.remote aid h art.2 false).1,
              downloadUrl (upload_file_if_needed ts.remote aid h art.2 false).2.1, ?_, rfl⟩
            simp only [he, if_true]
          · right; right; right
            refine ⟨(upload_file_if_needed ts.remote aid h art.2 false).1,
              downloadUrl (upload_file_if_needed ts.remote aid h art.2 false).2.1, ?_, rfl⟩
            simp only [Bool.not_eq_true] at he
            simp only [he]
            simp

theorem step_skipped_mono (dryRun force : Bool) (aid : Nat)
    (existing : List (String × RemoteFile)) (lf : List (String × String))
    (ts : TaskState) (md : List (String × Val)) (art : String × String) (k : String)
    (h : k ∈ keysOf ts.skipped) :
    k ∈ keysOf (processArtifact dryRun force aid existing lf (ts, md) art).1.skipped := by
  rcases processArtifact_ts_shape dryRun force aid existing lf ts md art with
    hc | ⟨u, hc, _, _⟩ | ⟨r, u, hc, _⟩ | ⟨r, u, hc, _⟩ <;> rw [hc]
  · exact h
  · exact (mem_keysOf_dictInsert ts.skipped art.2 u k).mpr (Or.inr h)
  · exact h
  · exact h

theorem step_updated_mono (dryRun force : Bool) (aid : Nat)
    (existing : List (String × RemoteFile)) (lf : List (String × String))
    (ts : TaskState) (md : List (String × Val)) (art : String × String) (k : String)
    (h : k ∈ keysOf ts.updated) :
    k ∈ keysOf (processArtifact dryRun force aid existing lf (ts, md) art).1.updated := by
  rcases processArtifact_ts_shape dryRun force aid existing lf ts md art with
    hc | ⟨u, hc, _, _⟩ | ⟨r, u, hc, _⟩ | ⟨r, u, hc, _⟩ <;> rw [hc]
  · exact h
  · exact h
  · exact (mem_keysOf_dictInsert ts.updated art.2 u k).mpr (Or.inr h)
  · exact h

theorem step_force_no_skip (dryRun : Bool) (aid : Nat)
    (existing : List (String × RemoteFile)) (lf : List (String × String))
    (ts : TaskState) (md : List (String × Val)) (art : String × String) :
    (processArtifact dryRun true aid existing lf (ts, md) art).1.skipped = ts.skipped := by
  rcases processArtifact_ts_shape dryRun true aid existing lf ts md art with
    hc | ⟨u, hc, hf, _⟩ | ⟨r, u, hc, _⟩ | ⟨r, u, hc, _⟩
  · rw [hc]
  · exact Bool.noConfusion hf
  · rw [hc]
  · rw [hc]

theorem step_bucket_sub (dryRun force : Bool) (aid : Nat)
    (existing : List (String × RemoteFile)) (lf : List (String × String))
    (ts : TaskState) (md : List (String × Val)) (art : String × String) (x : String)
    (h : x ∈ allBucketKeys (processArtifact dryRun force aid existing lf (ts, md) art).1) :
    x ∈ allBucketKeys ts ∨ x = art.2 := by
  rcases processArtifact_ts_shape dryRun force aid existing lf ts md art with
    hc | ⟨u, hc, _, _⟩ | ⟨r, u, hc, _⟩ | ⟨r, u, hc, _⟩ <;> rw [hc] at h
  · exact Or.inl h
  · rw [allBucketKeys] at h ⊢
    rcases List.mem_append.mp h with h | h
    · rcases List.mem_append.mp h with h | h
      · rcases (mem_keysOf_dictInsert ts.skipped art.2 u x).mp h with h | h
        · exact Or.inr h
        · exact Or.inl (List.mem_append_left _ (List.mem_append_left _ h))
      · exact Or.inl (List.mem_append_left _ (List.mem_append_right _ h))
    · exact Or.inl (List.mem_append_right _ h)
  · rw [allBucketKeys] at h ⊢
    rcases List.mem_append.mp h with h | h
    · rcases List.mem_append.mp h with h | h
      · exact Or.inl (List.mem_append_left _ (List.mem_append_left _ h))
      · rcases (mem_keysOf_dictInsert ts.updated art.2 u x).mp h with h | h
        · exact Or.inr h
        · exact Or.inl (List.mem_append_left _ (List.mem_append_right _ h))
    · exact Or.inl (List.mem_append_right _ h)
  · rw [allBucketKeys] at h ⊢
    rcases List.mem_append.mp h with h | h
    · exact Or.inl (List.mem_append_left _ h)
    · rcases (mem_keysOf_dictInsert ts.created art.2 u x).mp h with h | h
      · exact Or.inr h
      · exact Or.inl (List.mem_append_right _ h)

theorem mem_allBucketKeys_skipped (ts : TaskState) (k : String)
    (h : k ∈ keysOf ts.skipped) : k ∈ allBucketKeys ts := by
  rw [allBucketKeys]
  exact List.mem_append_left _ (List.mem_append_left _ h)

theorem mem_allBucketKeys_updated (ts : TaskState) (k : String)
    (h : k ∈ keysOf ts.updated) : k ∈ allBucketKeys ts := by
  rw [allBucketKeys]
  exact List.mem_append_left _ (List.mem_append_right _ h)

theorem mem_allBucketKeys_created (ts : TaskState) (k : String)
    (h : k ∈ keysOf ts.created) : k ∈ allBucketKeys ts := by
  rw [allBucketKeys]
  exact List.mem_append_right _ h

theorem step_disjoint (dryRun force : Bool) (aid : Nat)
    (existing : List (String × RemoteFile)) (lf : List (String × String))
    (ts : TaskState) (md : List (String × Val)) (art : String × String)
    (hd : BucketsDisjoint ts) (hfr : art.2 ∉ allBucketKeys ts) :
    BucketsDisjoint (processArtifact dryRun force aid existing lf (ts, md) art).1 := by
  obtain ⟨h12, h13, h23⟩ := hd
  rcases processArtifact_ts_shape dryRun force aid existing lf ts md art with
    hc | ⟨u, hc, _, _⟩ | ⟨r, u, hc, _⟩ | ⟨r, u, hc, _⟩ <;> rw [hc]
  · exact ⟨h12, h13, h23⟩
  · refine ⟨?_, ?_, h23⟩
    · intro k hk
      rcases (mem_keysOf_dictInsert ts.skipped art.2 u k).mp hk with hk | hk
      · subst hk
        exact fun hm => hfr (mem_allBucketKeys_updated ts _ hm)
      · exact h12 k hk
    · intro k hk
      rcases (mem_keysOf_dictInsert ts.skipped art.2 u k).mp hk with hk | hk
      · subst hk
        exact fun hm => hfr (mem_allBucketKeys_created ts _ hm)
      · exact h13 k hk
  · refine ⟨?_, h13, ?_⟩
    · intro k hk hm
      rcases (mem_keysOf_dictInsert ts.updated art.2 u k).mp hm with hm | hm
      · rw [hm] at hk
        exact hfr (mem_allBucketKeys_skipped ts _ hk)
      · exact h12 k hk hm
    · intro k hk
      rcases (mem_keysOf_dictInsert ts.updated art.2 u k).mp hk with hk | hk
      · subst hk
        exact fun hm => hfr (mem_allBucketKeys_created ts _ hm)
      · exact h23 k hk
  · refine ⟨h12, ?_, ?_⟩
    · intro k hk hm
      rcases (mem_keysOf_dictInsert ts.created art.2 u k).mp hm with hm | hm
      · rw [hm] at hk
        exact hfr (mem_allBucketKeys_skipped ts _ hk)
      · exact h13 k hk hm
    · intro k hk hm
      rcases (mem_keysOf_dictInsert ts.created art.2 u k).mp hm with hm | hm
      · rw [hm] at hk
        exact hfr (mem_allBucketKeys_updated ts _ hk)
      · exact h23 k hk hm

theorem fold_skipped_mono (dryRun force : Bool) (aid : Nat)
    (existing : List (String × RemoteFile)) (lf : List (String × String)) :
    ∀ (arts : List (String × String)) (acc : TaskState × List (String × Val)) (k : String),
    k ∈ keysOf acc.1.skipped →
    k ∈ keysOf (arts.foldl (processArtifact dryRun force aid existing lf) acc).1.skipped := by
  intro arts
  induction arts with
  | nil => intro acc k h; exact h
  | cons a l ih =>
    intro acc k h
    obtain ⟨ts, md⟩ := acc
    rw [List.foldl_cons]
    exact ih _ k (step_skipped_mono dryRun force aid existing lf ts md a k h)

theorem fold_updated_mono (dryRun force : Bool) (aid : Nat)
    (existing : List (String × RemoteFile)) (lf : List (String × String)) :
    ∀ (arts : List (String × String)) (acc : TaskState × List (String × Val)) (k : String),
    k ∈ keysOf acc.1.updated →
    k ∈ keysOf (arts.foldl (processArtifact dryRun force aid existing lf) acc).1.updated := by
  intro arts
  induction arts with
  | nil => intro acc k h; exact h
  | cons a l ih =>
    intro acc k h
    obtain ⟨ts, md⟩ := acc
    rw [List.foldl_cons]
    exact ih _ k (step_updated_mono dryRun force aid existing lf ts md a k h)

theorem fold_force_no_skip (dryRun : Bool) (aid : Nat)
    (existing : List (String × RemoteFile)) (lf : List (String × String)) :
    ∀ (arts : List (String × String)) (acc : TaskState × List (String × Val)),
    (arts.foldl (processArtifact dryRun true aid existing lf) acc).1.skipped
      = acc.1.skipped := by
  intro arts
  induction arts with
  | nil => intro acc; rfl
  | cons a l ih =>
    intro acc
    obtain ⟨ts, md⟩ := acc
    rw [List.foldl_cons, ih _]
    exact step_force_no_skip dryRun aid existing lf ts md a

theorem fold_bucket_sub (dryRun force : Bool) (aid : Nat)
    (existing : List (String × RemoteFile)) (lf : List (String × String)) :
    ∀ (arts : List (String × String)) (acc : TaskState × List (String × Val)) (x : String),
    x ∈ allBucketKeys (arts.foldl (processArtifact dryRun force aid existing lf) acc).1 →
    x ∈ allBucketKeys acc.1 ∨ x ∈ arts.map Prod.snd := by
  intro arts
  induction arts with
  | nil => intro acc x h; exact Or.inl h
  | cons a l ih =>
    intro acc x h
    obtain ⟨ts, md⟩ := acc
    rw [List.foldl_cons] at h
    rcases ih _ x h with h' | h'
    · rcases step_bucket_sub dryRun force aid existing lf ts md a x h' with h'' | h''
      · exact Or.inl h''
      · exact Or.inr (by rw [List.map_cons, h'']; exact List.mem_cons_self _ _)
    · exact Or.inr (by rw [List.map_cons]; exact List.mem_cons_of_mem _ h')

theorem fold_disjoint (dryRun force : Bool) (aid : Nat)
    (existing : List (String × RemoteFile)) (lf : List (String × String)) :
    ∀ (arts : List (String × String)) (acc : TaskState × List (String × Val)),
    BucketsDisjoint acc.1 → (arts.map Prod.snd).Nodup →
    (∀ r ∈ arts.map Prod.snd, r ∉ allBucketKeys acc.1) →
    BucketsDisjoint (arts.foldl (processArtifact dryRun force aid existing lf) acc).1 := by
  intro arts
  induction arts with
  | nil => intro acc hd _ _; exact hd
  | cons a l ih =>
    intro acc hd hnd hfr
    obtain ⟨ts, md⟩ := acc
    rw [List.map_cons] at hnd hfr
    rw [List.foldl_cons]
    apply ih
    · exact step_disjoint dryRun force aid existing lf ts md a hd
        (hfr a.2 (List.mem_cons_self _ _))
    · exact (List.nodup_cons.mp hnd).2
    · intro r hr hmem
      rcases step_bucket_sub dryRun force aid existing lf ts md a r hmem with h' | h'
      · exact hfr r (List.mem_cons_of_mem _ hr) h'
      · rw [h'] at hr
        exact (List.nodup_cons.mp hnd).1 hr

theorem processModel_ts_shape (dryRun force : Bool) (ft task : String) (aid : Nat)
    (existing : List (String × RemoteFile)) (lf : List (String × String))
    (ts : TaskState) (m : ModelEntry) :
    ((processModel dryRun force ft task aid existing lf ts m).1 = ts
      ∧ modelMetric task m = []) ∨
    (processModel dryRun force ft task aid existing lf ts m).1 =
      ((find_file_keys ft (modelMetric task m) "" []).foldl
        (processArtifact dryRun force aid existing lf) (ts, modelMetric task m)).1 := by
  obtain ⟨name, doc⟩ := m
  cases doc with
  | none => left; exact ⟨rfl, rfl⟩
  | some d =>
    have hmm : modelMetric task ⟨name, some d⟩ = extractMetric task d := rfl
    rw [processModel]
    cases ht : taskEntry task d with
    | none =>
      right
      rw [hmm]
      simp only [ht]
      cases dryRun <;> simp
    | some v =>
      cases v with
      | str s =>
        left
        refine ⟨by simp [ht], ?_⟩
        rw [hmm, extractMetric, ht]
      | other =>
        left
        refine ⟨by simp [ht], ?_⟩
        rw [hmm, extractMetric, ht]
      | node es =>
        right
        rw [hmm]
        simp only [ht]
        cases dryRun <;> simp

theorem model_skipped_mono (dryRun force : Bool) (ft task : String) (aid : Nat)
    (existing : List (String × RemoteFile)) (lf : List (String × String))
    (ts : TaskState) (m : ModelEntry) (k : String) (h : k ∈ keysOf ts.skipped) :
    k ∈ keysOf (processModel dryRun force ft task aid existing lf ts m).1.skipped := by
  rcases processModel_ts_shape dryRun force ft task aid existing lf ts m with ⟨hc, _⟩ | hc <;>
    rw [hc]
  · exact h
  · exact fold_skipped_mono dryRun force aid existing lf _ _ k h

theorem model_updated_mono (dryRun force : Bool) (ft task : String) (aid : Nat)
    (existing : List (String × RemoteFile)) (lf : List (String × String))
    (ts : TaskState) (m : ModelEntry) (k : String) (h : k ∈ keysOf ts.updated) :
    k ∈ keysOf (processModel dryRun force ft task aid existing lf ts m).1.updated := by
  rcases processModel_ts_shape dryRun force ft task aid existing lf ts m with ⟨hc, _⟩ | hc <;>
    rw [hc]
  · exact h
  · exact fold_updated_mono dryRun force aid existing lf _ _ k h

theorem model_force_no_skip (dryRun : Bool) (ft task : String) (aid : Nat)
    (existing : List (String × RemoteFile)) (lf : List (String × String))
    (ts : TaskState) (m : ModelEntry) :
    (processModel dryRun true ft task aid existing lf ts m).1.skipped = ts.skipped := by
  rcases processModel_ts_shape dryRun true ft task aid existing lf ts m with ⟨hc, _⟩ | hc <;>
    rw [hc]
  exact fold_force_no_skip dryRun aid existing lf _ _

theorem model_bucket_sub (dryRun force : Bool) (ft task : String) (aid : Nat)
    (existing : List (String × RemoteFile)) (lf : List (String × String))
    (ts : TaskState) (m : ModelEntry) (x : String)
    (h : x ∈ allBucketKeys (processModel dryRun force ft task aid existing lf ts m).1) :
    x ∈ allBucketKeys ts ∨ x ∈ (discoveredOf ft task m).map Prod.snd := by
  rcases processModel_ts_shape dryRun force ft task aid existing lf ts m with ⟨hc, _⟩ | hc <;>
    rw [hc] at h
  · exact Or.inl h
  · exact fold_bucket_sub dryRun force aid existing lf _ _ x h

theorem model_disjoint (dryRun force : Bool) (ft task : String) (aid : Nat)
    (existing : List (String × RemoteFile)) (lf : List (String × String))
    (ts : TaskState) (m : ModelEntry)
    (hd : BucketsDisjoint ts) (hnd : ((discoveredOf ft task m).map Prod.snd).Nodup)
    (hfr : ∀ r ∈ (discoveredOf ft task m).map Prod.snd, r ∉ allBucketKeys ts) :
    BucketsDisjoint (processModel dryRun force ft task aid existing lf ts m).1 := by
  rcases processModel_ts_shape dryRun force ft task aid existing lf ts m with ⟨hc, _⟩ | hc <;>
    rw [hc]
  · exact hd
  · exact fold_disjoint dryRun force aid existing lf _ _ hd hnd hfr

theorem step_force_adds_updated (aid : Nat) (existing : List (String × RemoteFile))
    (lf : List (String × String)) (ts : TaskState) (md : List (String × Val))
    (art : String × String) (h : String)
    (hlf : alookup lf art.2 = some h) (he : hasKey existing art.2 = true) :
    art.2 ∈ keysOf (processArtifact false true aid existing lf (ts, md) art).1.updated := by
  rw [processArtifact_upload true aid existing lf ts md art h hlf (Or.inl rfl)]
  simp only [he, if_true]
  exact (mem_keysOf_dictInsert ts.updated art.2 _ art.2).mpr (Or.inl rfl)

theorem model_force_adds_updated (ft task : String) (aid : Nat)
    (existing : List (String × RemoteFile)) (lf : List (String × String))
    (ts : TaskState) (m : ModelEntry) (art : String × String) (h : String)
    (hart : art ∈ discoveredOf ft task m)
    (hlf : alookup lf art.2 = some h) (he : hasKey existing art.2 = true) :
    art.2 ∈ keysOf (processModel false true ft task aid existing lf ts m).1.updated := by
  rcases processModel_ts_shape false true ft task aid existing lf ts m with ⟨hc, hmm⟩ | hc
  · exfalso
    rw [discoveredOf, hmm] at hart
    simp [find_file_keys] at hart
  · rw [hc]
    rw [discoveredOf] at hart
    obtain ⟨l1, l2, hsplit⟩ := List.append_of_mem hart
    rw [hsplit, List.foldl_append, List.foldl_cons]
    apply fold_updated_mono
    obtain ⟨ts0, md0⟩ := (l1.foldl (processArtifact false true aid existing lf)
      (ts, modelMetric task m))
    exact step_force_adds_updated aid existing lf ts0 md0 art h hlf he

theorem joinDot_splitDotAux (cs : List Char) :
    ∀ acc, joinDot ((splitDotAux cs acc).map String.mk) = String.mk (acc.reverse ++ cs) := by
  induction cs with
  | nil =>
    intro acc
    rw [splitDotAux, List.map_cons, List.map_nil, joinDot_single, List.append_nil]
  | cons c cs ih =>
    intro acc
    by_cases hc : c = '.'
    · subst hc
      rw [splitDotAux_cons_dot, List.map_cons]
      have hne : (splitDotAux cs []).map String.mk ≠ [] := by
        intro hh
        exact splitDotAux_ne_nil cs [] (List.map_eq_nil_iff.mp hh)
      rw [joinDot_cons _ _ hne, ih []]
      show String.mk ((acc.reverse ++ ['.']) ++ ([].reverse ++ cs))
        = String.mk (acc.reverse ++ '.' :: cs)
      rw [List.append_assoc]
      rfl
    · rw [splitDotAux_cons_ne c cs acc hc, ih (c :: acc)]
      simp

theorem joinDot_splitDot (s : String) : joinDot (splitDot s) = s := by
  rw [splitDot, joinDot_splitDotAux s.data []]
  simp [stringMk_data]

theorem splitDot_inj (a b : String) (h : splitDot a = splitDot b) : a = b := by
  rw [← joinDot_splitDot a, ← joinDot_splitDot b, h]

theorem runStep_dryRun (force : Bool) (ft task : String) (aid : Nat)
    (existing : List (String × RemoteFile)) (lf : List (String × String))
    (acc : TaskState × List ModelEntry × List String) (m : ModelEntry) :
    runStep true force ft task aid existing lf acc m
      = (acc.1, acc.2.1 ++ [m], acc.2.2) := by
  rw [runStep, processModel_dryRun]
  rfl

theorem runfold_dryRun (force : Bool) (ft task : String) (aid : Nat)
    (existing : List (String × RemoteFile)) (lf : List (String × String)) :
    ∀ (models : List ModelEntry) (acc : TaskState × List ModelEntry × List String),
    models.foldl (runStep true force ft task aid existing lf) acc
      = (acc.1, acc.2.1 ++ models, acc.2.2) := by
  intro models
  induction models with
  | nil => intro acc; simp
  | cons m rest ih =>
    intro acc
    rw [List.foldl_cons, runStep_dryRun, ih]
    simp

theorem resolveArticle_dry_remote (reg : Option Nat) (r0 : Remote) :
    (resolveArticle true reg r0).1 = r0 := by
  rw [resolveArticle.eq_def]
  cases reg with
  | none => rfl
  | some i =>
    by_cases h : article_exists r0 i
    · simp [h]
    · simp [h]

theorem update_one_dryRun (task : String) (models : List ModelEntry)
    (fileType : String) (force : Bool) (reg : Option Nat) (remote0 : Remote)
    (lf : List (String × String)) :
    update_one_modeling_task_article task models true fileType force reg remote0 lf
      = ⟨remote0, models, [], [], [], [], (resolveArticle true reg remote0).2⟩ := by
  simp only [update_one_modeling_task_article]
  rw [runfold_dryRun, resolveArticle_dry_remote]
  simp

/-- Claim C2: in simulate (dry-run) mode the engine performs zero
mutations, for every input: the remote repository is returned unchanged
(no collection created, no file uploaded), every stored model document is
unchanged, no metadata file is written back, and all three outcome
buckets are empty. -/
theorem C2_simulate_never_mutates (task : String) (models : List ModelEntry)
    (fileType : String) (force : Bool) (reg : Option Nat) (remote0 : Remote)
    (lf : List (String × String)) :
    (update_one_modeling_task_article task models true fileType force reg remote0 lf).remote
        = remote0 ∧
    (update_one_modeling_task_article task models true fileType force reg remote0 lf).models
        = models ∧
    (update_one_modeling_task_article task models true fileType force reg remote0 lf).writes
        = [] ∧
    (update_one_modeling_task_article task models true fileType force reg remote0 lf).skipped
        = [] ∧
    (update_one_modeling_task_article task models true fileType force reg remote0 lf).updated
        = [] ∧
    (update_one_modeling_task_article task models true fileType force reg remote0 lf).created
        = [] := by
  rw [update_one_dryRun]
  exact ⟨rfl, rfl, rfl, rfl, rfl, rfl⟩

theorem discoveredRels_cons (ft task : String) (m : ModelEntry) (rest : List ModelEntry) :
    discoveredRels ft task (m :: rest)
      = (discoveredOf ft task m).map Prod.snd ++ discoveredRels ft task rest := by
  rw [discoveredRels, List.flatMap_cons]
  rfl

theorem runfold_disjoint (dryRun force : Bool) (ft task : String) (aid : Nat)
    (existing : List (String × RemoteFile)) (lf : List (String × String)) :
    ∀ (models : List ModelEntry) (ts : TaskState) (ms : List ModelEntry) (ws : List String),
    BucketsDisjoint ts → (discoveredRels ft task models).Nodup →
    (∀ r ∈ discoveredRels ft task models, r ∉ allBucketKeys ts) →
    BucketsDisjoint
      (models.foldl (runStep dryRun force ft task aid existing lf) (ts, ms, ws)).1 := by
  intro models
  induction models with
  | nil => intro ts ms ws hd _ _; exact hd
  | cons m rest ih =>
    intro ts ms ws hd hnd hfr
    rw [discoveredRels_cons] at hnd hfr
    rw [List.nodup_append] at hnd
    rw [List.foldl_cons]
    have hdis : ∀ r ∈ (discoveredOf ft task m).map Prod.snd, r ∉ allBucketKeys ts :=
      fun r hr => hfr r (List.mem_append_left _ hr)
    have hd' : BucketsDisjoint (processModel dryRun force ft task aid existing lf ts m).1 :=
      model_disjoint dryRun force ft task aid existing lf ts m hd hnd.1 hdis
    have hfr' : ∀ r ∈ discoveredRels ft task rest,
        r ∉ allBucketKeys (processModel dryRun force ft task aid existing lf ts m).1 := by
      intro r hr hmem
      rcases model_bucket_sub dryRun force ft task aid existing lf ts m r hmem with h1 | h1
      · exact hfr r (List.mem_append_right _ hr) h1
      · exact hnd.2.2 h1 hr
    exact ih _ _ _ hd' hnd.2.1 hfr'

/-- The relative path `p` lands in both the `new_files` and the
`skipped_files` buckets of one run when two models reference the same
local file: the first model uploads it (outcome created), the second
model finds the just-uploaded copy with a matching hash (outcome
skipped).  This contradicts the claim that a relative path appears in at
most one outcome bucket per run. -/
theorem C4_same_rel_two_buckets :
    (update_one_modeling_task_article "t"
      [⟨"m1", some [("metrics", Val.node [("t", Val.node [("x_file", Val.str "p")])])]⟩,
       ⟨"m2", some [("metrics", Val.node [("t", Val.node [("x_file", Val.str "p")])])]⟩]
      false "all" false (some 5) ⟨[(5, [])], 6, 0⟩ [("p", "h")]).created
      = [("p", "download-prefix/0")] ∧
    (update_one_modeling_task_article "t"
      [⟨"m1", some [("metrics", Val.node [("t", Val.node [("x_file", Val.str "p")])])]⟩,
       ⟨"m2", some [("metrics", Val.node [("t", Val.node [("x_file", Val.str "p")])])]⟩]
      false "all" false (some 5) ⟨[(5, [])], 6, 0⟩ [("p", "h")]).skipped
      = [("p", "download-prefix/0")] := by
  exact ⟨rfl, rfl⟩

/-- Claim C4 (amended): when the relative paths discovered across the run
are pairwise distinct — no two key-paths and no two models reference the
same relative file path — the three outcome buckets of the run have
pairwise disjoint key sets. -/
theorem C4_buckets_disjoint (task : String) (models : List ModelEntry)
    (dryRun force : Bool) (fileType : String) (reg : Option Nat) (remote0 : Remote)
    (lf : List (String × String))
    (hnd : (discoveredRels fileType task models).Nodup) :
    BucketsDisjoint
      ⟨(update_one_modeling_task_article task models dryRun fileType force reg remote0 lf).remote,
       (update_one_modeling_task_article task models dryRun fileType force reg remote0 lf).skipped,
       (update_one_modeling_task_article task models dryRun fileType force reg remote0 lf).updated,
       (update_one_modeling_task_article task models dryRun fileType force reg remote0 lf).created⟩ := by
  simp only [update_one_modeling_task_article]
  refine runfold_disjoint dryRun force fileType task _ _ lf models _ [] [] ?_ hnd ?_
  · exact ⟨fun k hk => by simp [keysOf] at hk, fun k hk => by simp [keysOf] at hk,
      fun k hk => by simp [keysOf] at hk⟩
  · intro r _ hmem
    simp [allBucketKeys, keysOf] at hmem

/-- Concrete instance of the amended C4 theorem: a single model with one
discovered artifact has pairwise-distinct discovered paths, and the run's
outcome buckets are pairwise disjoint. -/
theorem C4_buckets_disjoint_witness :
    (discoveredRels "all" "t"
      [⟨"m1", some [("metrics", Val.node [("t", Val.node [("x_file", Val.str "p")])])]⟩]).Nodup ∧
    BucketsDisjoint
      ⟨(update_one_modeling_task_article "t"
          [⟨"m1", some [("metrics", Val.node [("t", Val.node [("x_file", Val.str "p")])])]⟩]
          false "all" false (some 5) ⟨[(5, [])], 6, 0⟩ [("p", "h")]).remote,
       (update_one_modeling_task_article "t"
          [⟨"m1", some [("metrics", Val.node [("t", Val.node [("x_file", Val.str "p")])])]⟩]
          false "all" false (some 5) ⟨[(5, [])], 6, 0⟩ [("p", "h")]).skipped,
       (update_one_modeling_task_article "t"
          [⟨"m1", some [("metrics", Val.node [("t", Val.node [("x_file", Val.str "p")])])]⟩]
          false "all" false (some 5) ⟨[(5, [])], 6, 0⟩ [("p", "h")]).updated,
       (update_one_modeling_task_article "t"
          [⟨"m1", some [("metrics", Val.node [("t", Val.node [("x_file", Val.str "p")])])]⟩]
          false "all" false (some 5) ⟨[(5, [])], 6, 0⟩ [("p", "h")]).created⟩ :=
  ⟨by decide,
   C4_buckets_disjoint "t"
     [⟨"m1", some [("metrics", Val.node [("t", Val.node [("x_file", Val.str "p")])])]⟩]
     false false "all" (some 5) ⟨[(5, [])], 6, 0⟩ [("p", "h")] (by decide)⟩

theorem runfold_force_no_skip (dryRun : Bool) (ft task : String) (aid : Nat)
    (existing : List (String × RemoteFile)) (lf : List (String × String)) :
    ∀ (models : List ModelEntry) (acc : TaskState × List ModelEntry × List String),
    (models.foldl (runStep dryRun true ft task aid existing lf) acc).1.skipped
      = acc.1.skipped := by
  intro models
  induction models with
  | nil => intro acc; rfl
  | cons m rest ih =>
    intro acc
    rw [List.foldl_cons, ih]
    exact model_force_no_skip dryRun ft task aid existing lf acc.1 m

theorem runfold_updated_mono (dryRun force : Bool) (ft task : String) (aid : Nat)
    (existing : List (String × RemoteFile)) (lf : List (String × String)) :
    ∀ (models : List ModelEntry) (acc : TaskState × List ModelEntry × List String) (k : String),
    k ∈ keysOf acc.1.updated →
    k ∈ keysOf (models.foldl (runStep dryRun force ft task aid existing lf) acc).1.updated := by
  intro models
  induction models with
  | nil => intro acc k h; exact h
  | cons m rest ih =>
    intro acc k h
    rw [List.foldl_cons]
    exact ih _ k (model_updated_mono dryRun force ft task aid existing lf acc.1 m k h)

theorem runfold_force_adds_updated (ft task : String) (aid : Nat)
    (existing : List (String × RemoteFile)) (lf : List (String × String))
    (models : List ModelEntry) (acc : TaskState × List ModelEntry × List String)
    (m : ModelEntry) (art : String × String) (h : String)
    (hm : m ∈ models) (hart : art ∈ discoveredOf ft task m)
    (hlf : alookup lf art.2 = some h) (he : hasKey existing art.2 = true) :
    art.2 ∈ keysOf
      (models.foldl (runStep false true ft task aid existing lf) acc).1.updated := by
  obtain ⟨l1, l2, hsplit⟩ := List.append_of_mem hm
  rw [hsplit, List.foldl_append, List.foldl_cons]
  apply runfold_updated_mono
  show art.2 ∈ keysOf (runStep false true ft task aid existing lf _ m).1.updated
  rw [runStep]
  exact model_force_adds_updated ft task aid existing lf _ m art h hart hlf he

/-- Claim C6: in execute mode with force on, an artifact whose local file
is byte-identical to its remote counterpart (an entry of the same name
and the same hash already in the collection's listing) ends in the
`updated` bucket, and the `skipped` bucket of the whole run is empty. -/
theorem C6_force_supersedes_match (task : String) (models : List ModelEntry)
    (fileType : String) (reg : Option Nat) (remote0 : Remote)
    (lf : List (String × String)) (m : ModelEntry) (art : String × String)
    (h : String) (fid : Nat)
    (hm : m ∈ models) (hart : art ∈ discoveredOf fileType task m)
    (hlf : alookup lf art.2 = some h)
    (hrem : alookup (get_existing_files (resolveArticle false reg remote0).1
        (resolveArticle false reg remote0).2) art.2 = some ⟨fid, h⟩) :
    art.2 ∈ keysOf
      (update_one_modeling_task_article task models false fileType true reg remote0 lf).updated ∧
    (update_one_modeling_task_article task models false fileType true reg remote0 lf).skipped
      = [] := by
  have he : hasKey (get_existing_files (resolveArticle false reg remote0).1
      (resolveArticle false reg remote0).2) art.2 = true := by
    rw [hasKey, hrem]
    rfl
  constructor
  · simp only [update_one_modeling_task_article]
    exact runfold_force_adds_updated fileType task _ _ lf models _ m art h hm hart hlf he
  · simp only [update_one_modeling_task_article]
    rw [runfold_force_no_skip]

/-- Concrete instance of the C6 theorem: the article already holds `p`
with the same hash as the local copy, force reuploads it, outcome
updated, nothing skipped. -/
theorem C6_force_supersedes_match_witness :
    ⟨"m", some [("metrics", Val.node [("t", Val.node [("x_file", Val.str "p")])])]⟩
      ∈ [(⟨"m", some [("metrics", Val.node [("t", Val.node [("x_file", Val.str "p")])])]⟩ : ModelEntry)] ∧
    ("x_file", "p") ∈ discoveredOf "all" "t"
      ⟨"m", some [("metrics", Val.node [("t", Val.node [("x_file", Val.str "p")])])]⟩ ∧
    alookup [("p", "h")] "p" = some "h" ∧
    alookup (get_existing_files (resolveArticle false (some 5) ⟨[(5, [("p", ⟨3, "h"⟩)])], 6, 10⟩).1
        (resolveArticle false (some 5) ⟨[(5, [("p", ⟨3, "h"⟩)])], 6, 10⟩).2) "p"
      = some ⟨3, "h"⟩ ∧
    "p" ∈ keysOf
      (update_one_modeling_task_article "t"
        [⟨"m", some [("metrics", Val.node [("t", Val.node [("x_file", Val.str "p")])])]⟩]
        false "all" true (some 5) ⟨[(5, [("p", ⟨3, "h"⟩)])], 6, 10⟩ [("p", "h")]).updated ∧
    (update_one_modeling_task_article "t"
        [⟨"m", some [("metrics", Val.node [("t", Val.node [("x_file", Val.str "p")])])]⟩]
        false "all" true (some 5) ⟨[(5, [("p", ⟨3, "h"⟩)])], 6, 10⟩ [("p", "h")]).skipped
      = [] := by
  refine ⟨List.mem_cons_self _ _, by decide, rfl, rfl, ?_⟩
  exact C6_force_supersedes_match "t"
    [⟨"m", some [("metrics", Val.node [("t", Val.node [("x_file", Val.str "p")])])]⟩]
    "all" (some 5) ⟨[(5, [("p", ⟨3, "h"⟩)])], 6, 10⟩ [("p", "h")]
    ⟨"m", some [("metrics", Val.node [("t", Val.node [("x_file", Val.str "p")])])]⟩
    ("x_file", "p") "h" 3 (List.mem_cons_self _ _) (by decide) rfl rfl

theorem writeBackMetric_of_taskEntry_none (d : List (String × Val)) (task : String)
    (md : List (String × Val)) (h : taskEntry task d = none) :
    writeBackMetric d task md = d := by
  rw [writeBackMetric]
  rw [taskEntry] at h
  cases hm : alookup d "metrics" with
  | none => rfl
  | some v =>
    cases v with
    | str s => rfl
    | other => rfl
    | node ms =>
      rw [hm] at h
      have h2 : alookup ms task = none := h
      simp [h2]

theorem ffkS_pred_sub_all :
    ∀ (entries : List (String × Val)) (pre : String) (p : String × String),
    p ∈ ffkS "pred" entries pre → p ∈ ffkS "all" entries pre := by
  intro entries
  induction entries using entriesInd with
  | hnil => intro pre p hp; exact hp
  | hstr k s rest ih =>
    intro pre p hp
    rw [ffkS_cons_str] at hp ⊢
    rcases List.mem_append.mp hp with h1 | h1
    · apply List.mem_append_left
      by_cases hc : (endsWithD k "_file" && should_process_file k "pred") = true
      · have hall : (endsWithD k "_file" && should_process_file k "all") = true := by
          rw [Bool.and_eq_true] at hc
          rw [Bool.and_eq_true]
          exact ⟨hc.1, by rw [should_process_file]; simp⟩
        rw [if_pos hc] at h1
        rw [if_pos hall]
        exact h1
      · rw [if_neg hc] at h1
        exact absurd h1 (List.not_mem_nil p)
    · exact List.mem_append_right _ (ih pre p h1)
  | hother k rest ih =>
    intro pre p hp
    rw [ffkS_cons_other] at hp ⊢
    exact ih pre p hp
  | hnode k es rest ihes ih =>
    intro pre p hp
    rw [ffkS_cons_node] at hp ⊢
    rcases List.mem_append.mp hp with h1 | h1
    · exact List.mem_append_left _ (ihes _ p h1)
    · exact List.mem_append_right _ (ih pre p h1)

theorem ffkS_key_file_suffix (ft : String) :
    ∀ (entries : List (String × Val)) (pre : String) (p : String × String),
    p ∈ ffkS ft entries pre → endsWithD p.1 "_file" = true := by
  intro entries
  induction entries using entriesInd with
  | hnil => intro pre p hp; exact absurd hp (List.not_mem_nil p)
  | hstr k s rest ih =>
    intro pre p hp
    rw [ffkS_cons_str] at hp
    rcases List.mem_append.mp hp with h1 | h1
    · by_cases hc : (endsWithD k "_file" && should_process_file k ft) = true
      · rw [if_pos hc] at h1
        rw [List.mem_singleton] at h1
        subst h1
        rw [Bool.and_eq_true] at hc
        by_cases hpre : pre = ""
        · simpa [hpre] using hc.1
        · show endsWithD (if pre = "" then k else pre ++ "." ++ k) "_file" = true
          rw [if_neg hpre]
          exact endsWithD_append_left (pre ++ ".") k "_file" hc.1
      · rw [if_neg hc] at h1
        exact absurd h1 (List.not_mem_nil p)
    · exact ih pre p h1
  | hother k rest ih =>
    intro pre p hp
    rw [ffkS_cons_other] at hp
    exact ih pre p hp
  | hnode k es rest ihes ih =>
    intro pre p hp
    rw [ffkS_cons_node] at hp
    rcases List.mem_append.mp hp with h1 | h1
    · exact ihes _ p h1
    · exact ih pre p h1

/-- Claim C5: the claim says a dry run records the intended action for
every discovered artifact as a no-op report entry.  The code does not: on
this input the walk discovers the artifact `p` (so a report entry for it
would be due), yet the dry run leaves all three per-artifact outcome
buckets and the write log empty, so the run report reflects nothing per
artifact. -/
theorem C5_dry_run_records_nothing :
    discoveredRels "all" "t"
      [⟨"m", some [("metrics", Val.node [("t", Val.node [("x_file", Val.str "p")])])]⟩]
      = ["p"] ∧
    (update_one_modeling_task_article "t"
      [⟨"m", some [("metrics", Val.node [("t", Val.node [("x_file", Val.str "p")])])]⟩]
      true "all" false (some 5) ⟨[(5, [])], 6, 0⟩ [("p", "h")]).skipped = [] ∧
    (update_one_modeling_task_article "t"
      [⟨"m", some [("metrics", Val.node [("t", Val.node [("x_file", Val.str "p")])])]⟩]
      true "all" false (some 5) ⟨[(5, [])], 6, 0⟩ [("p", "h")]).updated = [] ∧
    (update_one_modeling_task_article "t"
      [⟨"m", some [("metrics", Val.node [("t", Val.node [("x_file", Val.str "p")])])]⟩]
      true "all" false (some 5) ⟨[(5, [])], 6, 0⟩ [("p", "h")]).created = [] ∧
    (update_one_modeling_task_article "t"
      [⟨"m", some [("metrics", Val.node [("t", Val.node [("x_file", Val.str "p")])])]⟩]
      true "all" false (some 5) ⟨[(5, [])], 6, 0⟩ [("p", "h")]).writes = [] := by
  exact ⟨rfl, rfl, rfl, rfl, rfl⟩

/-- Claim C8: the claim says a metadata tree is written back only when it
was actually mutated.  The code writes back unconditionally in execute
mode: on this input no file reference is discovered, the document is
returned byte-identical, yet the model's metadata file is written. -/
theorem C8_write_back_unconditional :
    (update_one_modeling_task_article "t"
      [⟨"m", some [("metrics", Val.node [("t", Val.node [])])]⟩]
      false "all" false (some 5) ⟨[(5, [])], 6, 0⟩ []).writes = ["m"] ∧
    (update_one_modeling_task_article "t"
      [⟨"m", some [("metrics", Val.node [("t", Val.node [])])]⟩]
      false "all" false (some 5) ⟨[(5, [])], 6, 0⟩ []).models
      = [⟨"m", some [("metrics", Val.node [("t", Val.node [])])]⟩] := by
  exact ⟨rfl, rfl⟩

/-- Claim C9: the claim says the propagated failure carries the current
model identifier.  The code evaluates `locals().get("model_name")` in
`main`, where no variable of that name is ever bound (the model loop is a
local of `update_one_modeling_task_article`), so the diagnostic state maps
`model_name` to `None` on every failure; the remaining diagnostic keys and
the abort-and-propagate behaviour are as claimed. -/
theorem C9_model_name_always_none :
    mainRun (fun _ => Except.error "boom") ["m1"] ["t1", "t2"]
      = Except.error ("boom",
          [("task", some (LVal.s "t1")),
           ("model_name", none),
           ("models_to_update", some (LVal.ls ["m1"])),
           ("tasks_to_update", some (LVal.ls ["t1", "t2"]))]) := by
  rfl

/-- A model whose metadata document lacks a metrics entry for the task
is not skipped entirely: the `.get` defaults make the walk run on an
empty dict, and in execute mode the unconditional write-back still
rewrites the model's metadata file, contradicting the claim that such a
model's file is not rewritten. -/
theorem C10_missing_entry_still_written :
    taskEntry "t" [("metrics", Val.node [("other", Val.node [])])] = none ∧
    (update_one_modeling_task_article "t"
      [⟨"m", some [("metrics", Val.node [("other", Val.node [])])]⟩]
      false "all" false (some 5) ⟨[(5, [])], 6, 0⟩ []).writes = ["m"] := by
  exact ⟨rfl, rfl⟩

/-- Claim C10 (amended): a model whose metrics entry for the task is a
non-mapping value (a scalar string or any other non-mapping) is skipped
entirely — no discovery, no state change, no write; a model whose
document lacks the task entry likewise discovers nothing and records no
outcome, but in execute mode its metadata file is still rewritten (with
byte-identical content). -/
theorem C10_non_mapping_skips (dryRun force : Bool) (ft task : String) (aid : Nat)
    (existing : List (String × RemoteFile)) (lf : List (String × String))
    (ts : TaskState) (m : ModelEntry) (d : List (String × Val))
    (hd : m.doc = some d) :
    (((∃ s, taskEntry task d = some (Val.str s)) ∨ taskEntry task d = some Val.other) →
      discoveredOf ft task m = [] ∧
      processModel dryRun force ft task aid existing lf ts m = (ts, m, false)) ∧
    (taskEntry task d = none →
      discoveredOf ft task m = [] ∧
      processModel dryRun force ft task aid existing lf ts m = (ts, m, !dryRun)) := by
  obtain ⟨name, doc⟩ := m
  simp only at hd
  subst hd
  constructor
  · intro hbad
    have hmm : extractMetric task d = [] := by
      rcases hbad with ⟨s, hs⟩ | ho
      · rw [extractMetric, hs]
      · rw [extractMetric, ho]
    constructor
    · show find_file_keys ft (extractMetric task d) "" [] = []
      rw [hmm]
      rfl
    · rcases hbad with ⟨s, hs⟩ | ho
      · rw [processModel]
        simp [hs]
      · rw [processModel]
        simp [ho]
  · intro hnone
    have hmm : extractMetric task d = [] := by
      rw [extractMetric, hnone]
    constructor
    · show find_file_keys ft (extractMetric task d) "" [] = []
      rw [hmm]
      rfl
    · rw [processModel]
      simp only [hnone, hmm]
      have hwb : ∀ X, writeBackMetric d task X = d :=
        fun X => writeBackMetric_of_taskEntry_none d task X hnone
      cases dryRun with
      | true => rfl
      | false => simp [find_file_keys, hwb]

/-- Concrete instance of the amended C10 theorem: a model whose task
entry is the scalar string `x` is skipped entirely. -/
theorem C10_non_mapping_skips_witness :
    (⟨"m", some [("metrics", Val.node [("t", Val.str "x")])]⟩ : ModelEntry).doc
      = some [("metrics", Val.node [("t", Val.str "x")])] ∧
    (discoveredOf "all" "t" ⟨"m", some [("metrics", Val.node [("t", Val.str "x")])]⟩ = [] ∧
      processModel false false "all" "t" 5 [] [] ⟨⟨[(5, [])], 6, 0⟩, [], [], []⟩
          ⟨"m", some [("metrics", Val.node [("t", Val.str "x")])]⟩
        = (⟨⟨[(5, [])], 6, 0⟩, [], [], []⟩,
           ⟨"m", some [("metrics", Val.node [("t", Val.str "x")])]⟩, false)) :=
  ⟨rfl,
   (C10_non_mapping_skips false false "all" "t" 5 [] []
      ⟨⟨[(5, [])], 6, 0⟩, [], [], []⟩
      ⟨"m", some [("metrics", Val.node [("t", Val.str "x")])]⟩
      [("metrics", Val.node [("t", Val.str "x")])] rfl).1
     (Or.inl ⟨"x", rfl⟩)⟩

/-- On a tree whose only leaf carries the `pred_file` suffix, the walk
with filter `pred` returns exactly the walk with filter `all`, so the
former is not a strict subset of the latter; the claimed strictness also
fails on the empty tree, where both walks are empty. -/
theorem C7_pred_not_strict :
    find_file_keys "pred" [("x_pred_file", Val.str "p")] "" []
      = find_file_keys "all" [("x_pred_file", Val.str "p")] "" [] ∧
    find_file_keys "pred" [] "" [] = find_file_keys "all" [] "" [] := by
  exact ⟨rfl, rfl⟩

/-- Claim C7 (amended): on a well-formed metadata tree the walk with
filter `pred` returns a subset (not necessarily strict) of the walk with
filter `all`, and for every filter value each returned key-path ends in
the reserved `_file` suffix, so a leaf whose key lacks that suffix is
never returned. -/
theorem C7_filter_subset_and_suffix (md : List (String × Val))
    (hw : wfEntries md = true) :
    (∀ p ∈ find_file_keys "pred" md "" [], p ∈ find_file_keys "all" md "" []) ∧
    (∀ (ft : String), ∀ p ∈ find_file_keys ft md "" [],
      endsWithD p.1 "_file" = true) := by
  constructor
  · intro p hp
    rw [find_file_keys_eq_ffkS "pred" md hw] at hp
    rw [find_file_keys_eq_ffkS "all" md hw]
    exact ffkS_pred_sub_all md "" p hp
  · intro ft p hp
    rw [find_file_keys_eq_ffkS ft md hw] at hp
    exact ffkS_key_file_suffix ft md "" p hp

/-- Concrete instance of the amended C7 theorem at a two-leaf tree with
one `pred_file` leaf and one `analysis_file` leaf. -/
theorem C7_filter_subset_and_suffix_witness :
    wfEntries [("a_pred_file", Val.str "p"), ("b_analysis_file", Val.str "q")] = true ∧
    ((∀ p ∈ find_file_keys "pred"
        [("a_pred_file", Val.str "p"), ("b_analysis_file", Val.str "q")] "" [],
      p ∈ find_file_keys "all"
        [("a_pred_file", Val.str "p"), ("b_analysis_file", Val.str "q")] "" []) ∧
    (∀ (ft : String), ∀ p ∈ find_file_keys ft
        [("a_pred_file", Val.str "p"), ("b_analysis_file", Val.str "q")] "" [],
      endsWithD p.1 "_file" = true)) :=
  ⟨by decide,
   C7_filter_subset_and_suffix
     [("a_pred_file", Val.str "p"), ("b_analysis_file", Val.str "q")] (by decide)⟩

/-- Claim C1: the claim says an existing locator value at the sibling URL
slot of a nested key-path is never overwritten when the remote content
matches.  The code's presence test `url_key not in metric_data` checks
only the top level of the tree against the full dotted key, so for the
nested key-path `a.x_file` the existing nested slot value `OLD` is
overwritten with the freshly computed URL even though the remote content
matched and the artifact was skipped. -/
theorem C1_nested_backfill_overwrites :
    (update_one_modeling_task_article "t"
      [⟨"m", some [("metrics", Val.node [("t", Val.node
        [("a", Val.node [("x_file", Val.str "p"), ("x_file_url", Val.str "OLD")])])])]⟩]
      false "all" false (some 5) ⟨[(5, [("p", ⟨7, "h"⟩)])], 6, 10⟩ [("p", "h")]).models
      = [⟨"m", some [("metrics", Val.node [("t", Val.node
        [("a", Val.node [("x_file", Val.str "p"),
                          ("x_file_url", Val.str "download-prefix/7")])])])]⟩] ∧
    (update_one_modeling_task_article "t"
      [⟨"m", some [("metrics", Val.node [("t", Val.node
        [("a", Val.node [("x_file", Val.str "p"), ("x_file_url", Val.str "OLD")])])])]⟩]
      false "all" false (some 5) ⟨[(5, [("p", ⟨7, "h"⟩)])], 6, 10⟩ [("p", "h")]).skipped
      = [("p", "download-prefix/7")] := by
  exact ⟨rfl, rfl⟩

theorem dropLast_append_getLastD (l : List String) (h : l ≠ []) :
    l.dropLast ++ [l.getLastD ""] = l := by
  have h2 := List.dropLast_append_getLast h
  have h3 : l.getLast h = l.getLastD "" := by
    rw [List.getLastD_eq_getLast?, List.getLast?_eq_getLast _ h]
    rfl
  rw [h3] at h2
  exact h2

theorem dotFree_append (a b : String) (ha : dotFree a = true) (hb : dotFree b = true) :
    dotFree (a ++ b) = true := by
  rw [dotFree] at ha hb ⊢
  rw [String.data_append]
  simp_all

theorem append_ne_empty_of_ne (a b : String) (hb : b ≠ "") : a ++ b ≠ "" := by
  intro h
  have hd : (a ++ b).data = [] := by rw [h]
  rw [String.data_append] at hd
  rcases List.append_eq_nil.mp hd with ⟨_, h2⟩
  exact hb (by cases b; simp_all)

theorem url_dotFree : dotFree "_url" = true := by decide

theorem artParts_url (kp : String) :
    artParts (kp ++ "_url") = (splitDot kp).dropLast ∧
    artLast (kp ++ "_url") = (splitDot kp).getLastD "" ++ "_url" := by
  rw [artParts, artLast, splitDot_append_dotFree kp "_url" url_dotFree]
  constructor
  · exact List.dropLast_concat
  · simp

theorem url_paths_ne (kp1 kp2 : String) (hne : kp1 ≠ kp2) :
    artParts (kp1 ++ "_url") ++ [artLast (kp1 ++ "_url")]
      ≠ artParts (kp2 ++ "_url") ++ [artLast (kp2 ++ "_url")] := by
  intro heq
  rw [(artParts_url kp1).1, (artParts_url kp1).2,
      (artParts_url kp2).1, (artParts_url kp2).2] at heq
  have hdrop : (splitDot kp1).dropLast = (splitDot kp2).dropLast := by
    have := congrArg List.dropLast heq
    rwa [List.dropLast_concat, List.dropLast_concat] at this
  have hlast : (splitDot kp1).getLastD "" ++ "_url"
      = (splitDot kp2).getLastD "" ++ "_url" := by
    have := congrArg (fun l => l.getLastD "") heq
    simpa using this
  have hl2 : (splitDot kp1).getLastD "" = (splitDot kp2).getLastD "" :=
    append_url_inj _ _ hlast
  apply hne
  apply splitDot_inj
  rw [← dropLast_append_getLastD (splitDot kp1) (splitDot_ne_nil kp1),
      ← dropLast_append_getLastD (splitDot kp2) (splitDot_ne_nil kp2),
      hdrop, hl2]

theorem upload_entry (r : Remote) (aid : Nat) (h rel : String) (force : Bool) :
    alookup (get_existing_files (upload_file_if_needed r aid h rel force).1 aid) rel
      = some ⟨(upload_file_if_needed r aid h rel force).2.1, h⟩ := by
  rw [upload_file_if_needed]
  cases hl : alookup (get_existing_files r aid) rel with
  | none =>
    simp only [get_existing_files, nlookup_nInsert_self]
    exact alookup_dictInsert_self _ rel _
  | some f =>
    by_cases hc : force = false ∧ f.hash = h
    · simp only [if_pos hc]
      rw [hl, ← hc.2]
    · simp only [if_neg hc]
      simp only [get_existing_files, nlookup_nInsert_self]
      exact alookup_dictInsert_self _ rel _

theorem upload_frame (r : Remote) (aid : Nat) (h rel : String) (force : Bool)
    (n : String) (hn : n ≠ rel) :
    alookup (get_existing_files (upload_file_if_needed r aid h rel force).1 aid) n
      = alookup (get_existing_files r aid) n := by
  rw [upload_file_if_needed]
  cases hl : alookup (get_existing_files r aid) rel with
  | none =>
    simp only [get_existing_files, nlookup_nInsert_self]
    rw [alookup_dictInsert_ne _ rel n _ (fun hh => hn hh.symm)]
  | some f =>
    by_cases hc : force = false ∧ f.hash = h
    · simp only [if_pos hc]
    · simp only [if_neg hc]
      simp only [get_existing_files, nlookup_nInsert_self]
      rw [alookup_dictInsert_ne _ rel n _ (fun hh => hn hh.symm)]

theorem upload_article_exists (r : Remote) (aid : Nat) (h rel : String) (force : Bool)
    (he : article_exists r aid = true) :
    article_exists (upload_file_if_needed r aid h rel force).1 aid = true := by
  rw [upload_file_if_needed]
  cases hl : alookup (get_existing_files r aid) rel with
  | none =>
    simp only [article_exists, nlookup_nInsert_self]
    rfl
  | some f =>
    by_cases hc : force = false ∧ f.hash = h
    · simp only [if_pos hc]
      exact he
    · simp only [if_neg hc]
      simp only [article_exists, nlookup_nInsert_self]
      rfl

theorem goodArt_remote_frame (r r2 : Remote) (aid : Nat) (lf : List (String × String))
    (md : List (String × Val)) (a : String × String)
    (hfr : alookup (get_existing_files r2 aid) a.2 = alookup (get_existing_files r aid) a.2)
    (hg : GoodArt r aid lf md a) : GoodArt r2 aid lf md a := by
  obtain ⟨h, fid, hlf, hrem, hslot⟩ := hg
  exact ⟨h, fid, hlf, by rw [hfr]; exact hrem, hslot⟩

theorem goodArt_setAtPath (r : Remote) (aid : Nat) (lf : List (String × String))
    (md : List (String × Val)) (a : String × String) (P2 : List String) (l2 w : String)
    (hw : wfEntries md = true) (hu : endsWithD l2 "_url" = true)
    (hne : artParts (a.1 ++ "_url") ++ [artLast (a.1 ++ "_url")] ≠ P2 ++ [l2])
    (hg : GoodArt r aid lf md a) :
    GoodArt r aid lf (setAtPath md P2 l2 (Val.str w)) a := by
  obtain ⟨h, fid, hlf, hrem, hslot⟩ := hg
  refine ⟨h, fid, hlf, hrem, ?_⟩
  rcases hslot with hk | hget
  · exact Or.inl (hasKey_setAtPath_mono P2 md l2 (Val.str w) _ hk)
  · exact Or.inr (getAtPath_setAtPath_other P2 md _ _ l2 w _ hw hu hne hget)

theorem processArtifact_settled (aid : Nat) (existing : List (String × RemoteFile))
    (lf : List (String × String)) (ts : TaskState) (md : List (String × Val))
    (a : String × String)
    (hw : wfEntries md = true) (hg : GoodArt ts.remote aid lf md a) :
    ∃ fid, processArtifact false false aid existing lf (ts, md) a
      = (⟨ts.remote, dictInsert ts.skipped a.2 (downloadUrl fid), ts.updated, ts.created⟩,
         md) := by
  obtain ⟨h, fid, hlf, hrem, hslot⟩ := hg
  have hq := query_of_lookup ts.remote aid a.2 h fid hrem
  refine ⟨fid, ?_⟩
  rw [processArtifact_skip aid existing lf ts md a h fid hlf hq]
  by_cases hk : hasKey md (a.1 ++ "_url") = true
  · rw [if_pos hk]
  · rw [if_neg hk]
    rcases hslot with hk2 | hget
    · exact absurd hk2 hk
    · rw [setAtPath_noop ((splitDot (a.1 ++ "_url")).dropLast) md
        ((splitDot (a.1 ++ "_url")).getLastD "") (Val.str (downloadUrl fid)) hw hget]

theorem fold_settled (aid : Nat) (existing : List (String × RemoteFile))
    (lf : List (String × String)) :
    ∀ (arts : List (String × String)) (ts : TaskState) (md : List (String × Val)),
    wfEntries md = true →
    (∀ a ∈ arts, GoodArt ts.remote aid lf md a) →
    (arts.foldl (processArtifact false false aid existing lf) (ts, md)).2 = md ∧
    (arts.foldl (processArtifact false false aid existing lf) (ts, md)).1.remote
      = ts.remote ∧
    (arts.foldl (processArtifact false false aid existing lf) (ts, md)).1.updated
      = ts.updated ∧
    (arts.foldl (processArtifact false false aid existing lf) (ts, md)).1.created
      = ts.created ∧
    (∀ k ∈ keysOf ts.skipped,
      k ∈ keysOf (arts.foldl (processArtifact false false aid existing lf) (ts, md)).1.skipped) ∧
    (∀ a ∈ arts,
      a.2 ∈ keysOf (arts.foldl (processArtifact false false aid existing lf) (ts, md)).1.skipped) := by
  intro arts
  induction arts with
  | nil =>
    intro ts md hw _
    exact ⟨rfl, rfl, rfl, rfl, fun k hk => hk, fun a ha => absurd ha (List.not_mem_nil a)⟩
  | cons a rest ih =>
    intro ts md hw hg
    obtain ⟨fid, hstep⟩ := processArtifact_settled aid existing lf ts md a hw
      (hg a (List.mem_cons_self a rest))
    rw [List.foldl_cons, hstep]
    have hg' : ∀ b ∈ rest,
        GoodArt (⟨ts.remote, dictInsert ts.skipped a.2 (downloadUrl fid),
          ts.updated, ts.created⟩ : TaskState).remote aid lf md b :=
      fun b hb => hg b (List.mem_cons_of_mem a hb)
    obtain ⟨h1, h2, h3, h4, h5, h6⟩ := ih _ md hw hg'
    refine ⟨h1, h2, h3, h4, ?_, ?_⟩
    · intro k hk
      exact h5 k ((mem_keysOf_dictInsert ts.skipped a.2 (downloadUrl fid) k).mpr (Or.inr hk))
    · intro b hb
      rcases List.mem_cons.mp hb with hb | hb
      · subst hb
        exact h5 b.2 ((mem_keysOf_dictInsert ts.skipped b.2 (downloadUrl fid) b.2).mpr
          (Or.inl rfl))
      · exact h6 b hb

theorem modelOK_wf (task : String) (m : ModelEntry) (d : List (String × Val))
    (hd : m.doc = some d) (hok : modelOK task m = true) :
    wfEntries (extractMetric task d) = true := by
  rw [modelOK, hd] at hok
  rw [extractMetric]
  cases ht : taskEntry task d with
  | none => rfl
  | some v =>
    cases v with
    | str s => rfl
    | other => rfl
    | node md0 =>
      cases hm : alookup d "metrics" with
      | none => rw [taskEntry, hm] at ht; simp at ht
      | some w =>
        cases w with
        | str s => rw [taskEntry, hm] at ht; simp at ht
        | other => rw [taskEntry, hm] at ht; simp at ht
        | node ms =>
          rw [taskEntry, hm] at ht
          have ht2 : alookup ms task = some (Val.node md0) := ht
          have hok2 : (match alookup d "metrics" with
            | none => true
            | some (Val.node ms2) =>
              (match alookup ms2 task with
               | some (Val.node md) => wfEntries md
               | _ => true)
            | some _ => false) = true := hok
          rw [hm] at hok2
          have hok3 : (match alookup ms task with
            | some (Val.node md) => wfEntries md
            | _ => true) = true := hok2
          rw [ht2] at hok3
          exact hok3

theorem writeBackMetric_roundtrip (d : List (String × Val)) (task : String)
    (md0 : List (String × Val)) (ht : taskEntry task d = some (Val.node md0)) :
    writeBackMetric d task md0 = d := by
  rw [writeBackMetric]
  cases hm : alookup d "metrics" with
  | none => rfl
  | some v =>
    cases v with
    | str s => rfl
    | other => rfl
    | node ms =>
      rw [taskEntry, hm] at ht
      have ht2 : alookup ms task = some (Val.node md0) := ht
      simp only [ht2]
      rw [dictInsert_noop ms task (Val.node md0) ht2]
      rw [dictInsert_noop d "metrics" (Val.node ms) hm]

theorem taskEntry_writeBack (d : List (String × Val)) (task : String)
    (ms md0 md2 : List (String × Val))
    (hm : alookup d "metrics" = some (Val.node ms))
    (ht0 : alookup ms task = some (Val.node md0)) :
    taskEntry task (writeBackMetric d task md2) = some (Val.node md2) ∧
    extractMetric task (writeBackMetric d task md2) = md2 := by
  have hwb : writeBackMetric d task md2
      = dictInsert d "metrics" (Val.node (dictInsert ms task (Val.node md2))) := by
    rw [writeBackMetric]
    simp only [hm, ht0]
  have h1 : taskEntry task (writeBackMetric d task md2) = some (Val.node md2) := by
    rw [hwb, taskEntry, alookup_dictInsert_self]
    show alookup (dictInsert ms task (Val.node md2)) task = some (Val.node md2)
    exact alookup_dictInsert_self ms task (Val.node md2)
  refine ⟨h1, ?_⟩
  rw [extractMetric, h1]

theorem docOK_writeBack (d : List (String × Val)) (task : String)
    (ms md0 md2 : List (String × Val))
    (hm : alookup d "metrics" = some (Val.node ms))
    (ht0 : alookup ms task = some (Val.node md0))
    (hwf : wfEntries md2 = true) :
    docOK task (writeBackMetric d task md2) = true := by
  have hwb : writeBackMetric d task md2
      = dictInsert d "metrics" (Val.node (dictInsert ms task (Val.node md2))) := by
    rw [writeBackMetric]
    simp only [hm, ht0]
  rw [hwb, docOK, alookup_dictInsert_self]
  show (match alookup (dictInsert ms task (Val.node md2)) task with
    | some (Val.node md) => wfEntries md
    | _ => true) = true
  rw [alookup_dictInsert_self]
  exact hwf

theorem processModel_settled (ft task : String) (aid : Nat)
    (existing : List (String × RemoteFile)) (lf : List (String × String))
    (ts : TaskState) (m : ModelEntry)
    (hok : modelOK task m = true)
    (hg : ∀ a ∈ discoveredOf ft task m, GoodArt ts.remote aid lf (modelMetric task m) a) :
    (processModel false false ft task aid existing lf ts m).1.remote = ts.remote ∧
    (processModel false false ft task aid existing lf ts m).1.updated = ts.updated ∧
    (processModel false false ft task aid existing lf ts m).1.created = ts.created ∧
    (∀ k ∈ keysOf ts.skipped,
      k ∈ keysOf (processModel false false ft task aid existing lf ts m).1.skipped) ∧
    (∀ a ∈ discoveredOf ft task m,
      a.2 ∈ keysOf (processModel false false ft task aid existing lf ts m).1.skipped) ∧
    (processModel false false ft task aid existing lf ts m).2.1 = m := by
  obtain ⟨name, doc⟩ := m
  cases doc with
  | none =>
    exact ⟨rfl, rfl, rfl, fun k hk => hk,
      fun a ha => absurd ha (List.not_mem_nil a), rfl⟩
  | some d =>
    cases ht : taskEntry task d with
    | some v =>
      cases v with
      | str s =>
        have hmm : extractMetric task d = [] := by rw [extractMetric, ht]
        have hdisc : discoveredOf ft task ⟨name, some d⟩ = [] := by
          show find_file_keys ft (extractMetric task d) "" [] = []
          rw [hmm]
          rfl
        have hres : processModel false false ft task aid existing lf ts ⟨name, some d⟩
            = (ts, ⟨name, some d⟩, false) := by
          rw [processModel]
          simp [ht]
        rw [hres, hdisc]
        exact ⟨rfl, rfl, rfl, fun k hk => hk,
          fun a ha => absurd ha (List.not_mem_nil a), rfl⟩
      | other =>
        have hmm : extractMetric task d = [] := by rw [extractMetric, ht]
        have hdisc : discoveredOf ft task ⟨name, some d⟩ = [] := by
          show find_file_keys ft (extractMetric task d) "" [] = []
          rw [hmm]
          rfl
        have hres : processModel false false ft task aid existing lf ts ⟨name, some d⟩
            = (ts, ⟨name, some d⟩, false) := by
          rw [processModel]
          simp [ht]
        rw [hres, hdisc]
        exact ⟨rfl, rfl, rfl, fun k hk => hk,
          fun a ha => absurd ha (List.not_mem_nil a), rfl⟩
      | node md0 =>
        have hmm : extractMetric task d = md0 := by rw [extractMetric, ht]
        have hdisc : discoveredOf ft task ⟨name, some d⟩
            = find_file_keys ft md0 "" [] := by
          show find_file_keys ft (extractMetric task d) "" [] = _
          rw [hmm]
        have hwf : wfEntries md0 = true := by
          have := modelOK_wf task ⟨name, some d⟩ d rfl hok
          rwa [hmm] at this
        have hg2 : ∀ a ∈ find_file_keys ft md0 "" [],
            GoodArt ts.remote aid lf md0 a := by
          intro a ha
          have := hg a (by rw [hdisc]; exact ha)
          have hmm2 : modelMetric task ⟨name, some d⟩ = md0 := by
            show extractMetric task d = md0
            exact hmm
          rwa [hmm2] at this
        obtain ⟨f1, f2, f3, f4, f5, f6⟩ :=
          fold_settled aid existing lf (find_file_keys ft md0 "" []) ts md0 hwf hg2
        have hres : processModel false false ft task aid existing lf ts ⟨name, some d⟩
            = (((find_file_keys ft md0 "" []).foldl
                  (processArtifact false false aid existing lf) (ts, md0)).1,
               ⟨name, some (writeBackMetric d task
                 ((find_file_keys ft md0 "" []).foldl
                   (processArtifact false false aid existing lf) (ts, md0)).2)⟩,
               true) := by
          rw [processModel]
          simp only [ht, hmm]
          simp
        rw [hres, hdisc]
        refine ⟨f2, f3, f4, f5, f6, ?_⟩
        show (⟨name, some (writeBackMetric d task _)⟩ : ModelEntry) = ⟨name, some d⟩
        rw [f1, writeBackMetric_roundtrip d task md0 ht]
    | none =>
      have hmm : extractMetric task d = [] := by rw [extractMetric, ht]
      have hdisc : discoveredOf ft task ⟨name, some d⟩ = [] := by
        show find_file_keys ft (extractMetric task d) "" [] = []
        rw [hmm]
        rfl
      have hwb : ∀ X, writeBackMetric d task X = d :=
        fun X => writeBackMetric_of_taskEntry_none d task X ht
      have hres : processModel false false ft task aid existing lf ts ⟨name, some d⟩
          = (ts, ⟨name, some d⟩, true) := by
        rw [processModel]
        simp only [ht, hmm]
        simp [find_file_keys, hwb]
      rw [hres, hdisc]
      exact ⟨rfl, rfl, rfl, fun k hk => hk,
        fun a ha => absurd ha (List.not_mem_nil a), rfl⟩

theorem runfold_settled (ft task : String) (aid : Nat)
    (existing : List (String × RemoteFile)) (lf : List (String × String)) :
    ∀ (models : List ModelEntry) (ts : TaskState) (ms : List ModelEntry) (ws : List String),
    (∀ m ∈ models, modelOK task m = true ∧
        ∀ a ∈ discoveredOf ft task m, GoodArt ts.remote aid lf (modelMetric task m) a) →
    (models.foldl (runStep false false ft task aid existing lf) (ts, ms, ws)).1.remote
        = ts.remote ∧
    (models.foldl (runStep false false ft task aid existing lf) (ts, ms, ws)).2.1
        = ms ++ models ∧
    (models.foldl (runStep false false ft task aid existing lf) (ts, ms, ws)).1.updated
        = ts.updated ∧
    (models.foldl (runStep false false ft task aid existing lf) (ts, ms, ws)).1.created
        = ts.created ∧
    (∀ k ∈ keysOf ts.skipped,
      k ∈ keysOf (models.foldl (runStep false false ft task aid existing lf)
        (ts, ms, ws)).1.skipped) ∧
    (∀ m ∈ models, ∀ a ∈ discoveredOf ft task m,
      a.2 ∈ keysOf (models.foldl (runStep false false ft task aid existing lf)
        (ts, ms, ws)).1.skipped) := by
  intro models
  induction models with
  | nil =>
    intro ts ms ws _
    exact ⟨rfl, by simp, rfl, rfl, fun k hk => hk,
      fun m hm => absurd hm (List.not_mem_nil m)⟩
  | cons m rest ih =>
    intro ts ms ws hset
    obtain ⟨p1, p2, p3, p4, p5, p6⟩ :=
      processModel_settled ft task aid existing lf ts m
        (hset m (List.mem_cons_self m rest)).1
        (hset m (List.mem_cons_self m rest)).2
    have hstep : runStep false false ft task aid existing lf (ts, ms, ws) m
        = ((processModel false false ft task aid existing lf ts m).1, ms ++ [m],
           if (processModel false false ft task aid existing lf ts m).2.2
             then ws ++ [m.name] else ws) := by
      rw [runStep, p6]
    have hset' : ∀ m2 ∈ rest, modelOK task m2 = true ∧
        ∀ a ∈ discoveredOf ft task m2,
          GoodArt (processModel false false ft task aid existing lf ts m).1.remote
            aid lf (modelMetric task m2) a := by
      intro m2 hm2
      refine ⟨(hset m2 (List.mem_cons_of_mem m hm2)).1, ?_⟩
      rw [p1]
      exact (hset m2 (List.mem_cons_of_mem m hm2)).2
    obtain ⟨q1, q2, q3, q4, q5, q6⟩ := ih _ (ms ++ [m])
      (if (processModel false false ft task aid existing lf ts m).2.2
        then ws ++ [m.name] else ws) hset'
    rw [List.foldl_cons, hstep]
    refine ⟨by rw [q1, p1], by rw [q2]; simp, by rw [q3, p2], by rw [q4, p3], ?_, ?_⟩
    · intro k hk
      exact q5 k (p4 k hk)
    · intro m2 hm2 a ha
      rcases List.mem_cons.mp hm2 with hm2 | hm2
      · subst hm2
        exact q5 a.2 (p5 a ha)
      · exact q6 m2 hm2 a ha

theorem resolveArticle_registered (aid : Nat) (r0 : Remote)
    (he : article_exists r0 aid = true) :
    resolveArticle false (some aid) r0 = (r0, aid) := by
  rw [resolveArticle.eq_def]
  simp [he]

theorem update_one_settled (task ft : String) (models : List ModelEntry) (aid : Nat)
    (remote1 : Remote) (lf : List (String × String))
    (he : article_exists remote1 aid = true)
    (hset : ∀ m ∈ models, modelOK task m = true ∧
        ∀ a ∈ discoveredOf ft task m, GoodArt remote1 aid lf (modelMetric task m) a) :
    (update_one_modeling_task_article task models false ft false (some aid) remote1 lf).remote
        = remote1 ∧
    (update_one_modeling_task_article task models false ft false (some aid) remote1 lf).models
        = models ∧
    (update_one_modeling_task_article task models false ft false (some aid) remote1 lf).updated
        = [] ∧
    (update_one_modeling_task_article task models false ft false (some aid) remote1 lf).created
        = [] ∧
    (∀ m ∈ models, ∀ a ∈ discoveredOf ft task m,
      a.2 ∈ keysOf (update_one_modeling_task_article task models false ft false
        (some aid) remote1 lf).skipped) := by
  have hres := resolveArticle_registered aid remote1 he
  simp only [update_one_modeling_task_article, hres]
  obtain ⟨q1, q2, q3, q4, _, q6⟩ :=
    runfold_settled ft task aid (get_existing_files remote1 aid) lf models
      ⟨remote1, [], [], []⟩ [] [] hset
  exact ⟨q1, by rw [q2]; simp, q3, q4, q6⟩

theorem getLastD_mem (l : List String) (h : l ≠ []) : l.getLastD "" ∈ l := by
  have h3 : l.getLast h = l.getLastD "" := by
    rw [List.getLastD_eq_getLast?, List.getLast?_eq_getLast _ h]
    rfl
  rw [← h3]
  exact List.getLast_mem h

theorem splitDot_url_dropLast (kp : String) :
    (splitDot (kp ++ "_url")).dropLast = (splitDot kp).dropLast := (artParts_url kp).1

theorem splitDot_url_getLastD (kp : String) :
    (splitDot (kp ++ "_url")).getLastD ""
      = (splitDot kp).getLastD "" ++ "_url" := (artParts_url kp).2

theorem url_write_props (ft : String) (md : List (String × Val)) (kp : String)
    (k rel : String) (segs : List String) (url : String)
    (hw : wfEntries md = true)
    (hsplitK : splitDot kp = k :: segs)
    (hdots : ∀ s ∈ k :: segs, dotFree s = true ∧ s ≠ "")
    (hget : getAtPath md ((k :: segs).dropLast) ((k :: segs).getLastD "")
      = some (Val.str rel)) :
    wfEntries (setAtPath md ((splitDot kp).dropLast)
      ((splitDot kp).getLastD "" ++ "_url") (Val.str url)) = true ∧
    ffkS ft (setAtPath md ((splitDot kp).dropLast)
      ((splitDot kp).getLastD "" ++ "_url") (Val.str url)) "" = ffkS ft md "" ∧
    getAtPath (setAtPath md ((splitDot kp).dropLast)
        ((splitDot kp).getLastD "" ++ "_url") (Val.str url))
      (artParts (kp ++ "_url")) (artLast (kp ++ "_url"))
      = some (Val.str url) := by
  have hlmem : (k :: segs).getLastD "" ∈ k :: segs := getLastD_mem _ (by simp)
  have hldot : dotFree ((splitDot kp).getLastD "" ++ "_url") = true := by
    rw [hsplitK]
    exact dotFree_append _ "_url" (hdots _ hlmem).1 url_dotFree
  have hlne : (splitDot kp).getLastD "" ++ "_url" ≠ "" :=
    append_ne_empty_of_ne _ "_url" (by decide)
  have hlurl : endsWithD ((splitDot kp).getLastD "" ++ "_url") "_url" = true :=
    endsWithD_self_append _ "_url"
  refine ⟨?_, ?_, ?_⟩
  · exact wfEntries_setAtPath_url ((splitDot kp).dropLast) md _ url hw hldot hlne
  · exact ffkS_setAtPath_url ((splitDot kp).dropLast) ft md "" _ url hw hlurl
  · rw [(artParts_url kp).1, (artParts_url kp).2, hsplitK]
    exact getAtPath_setAtPath_same ((k :: segs).dropLast) md
      ((k :: segs).getLastD "") _ (Val.str url) (Val.str rel) hget

theorem url_write_good_other (r : Remote) (aid : Nat) (lf : List (String × String))
    (md : List (String × Val)) (kp : String) (a2 : String × String) (url : String)
    (hw : wfEntries md = true)
    (hne : a2.1 ≠ kp)
    (hg : GoodArt r aid lf md a2) :
    GoodArt r aid lf (setAtPath md ((splitDot kp).dropLast)
      ((splitDot kp).getLastD "" ++ "_url") (Val.str url)) a2 := by
  have hlurl : endsWithD ((splitDot kp).getLastD "" ++ "_url") "_url" = true :=
    endsWithD_self_append _ "_url"
  have hpne : artParts (a2.1 ++ "_url") ++ [artLast (a2.1 ++ "_url")]
      ≠ (splitDot kp).dropLast ++ [(splitDot kp).getLastD "" ++ "_url"] := by
    rw [← (artParts_url kp).1, ← (artParts_url kp).2]
    exact url_paths_ne a2.1 kp hne
  exact goodArt_setAtPath r aid lf md a2 _ _ url hw hlurl hpne hg

theorem nodup_middle_not_left {α : Type} (xs ys : List α) (x : α)
    (h : (xs ++ x :: ys).Nodup) : x ∉ xs := by
  rw [List.nodup_append] at h
  intro hx
  exact h.2.2 hx (List.mem_cons_self x ys)

theorem artfold_establish (ft : String) (aid : Nat)
    (existing : List (String × RemoteFile)) (lf : List (String × String))
    (arts0 : List (String × String))
    (hknd : (keysOf arts0).Nodup)
    (hrnd : (arts0.map Prod.snd).Nodup)
    (hhash : ∀ rel ∈ arts0.map Prod.snd, ∃ h, alookup lf rel = some h) :
    ∀ (todo done : List (String × String)) (ts : TaskState) (md : List (String × Val)),
    arts0 = done ++ todo →
    wfEntries md = true →
    ffkS ft md "" = arts0 →
    (∀ a ∈ done, GoodArt ts.remote aid lf md a) →
    article_exists ts.remote aid = true →
    wfEntries (todo.foldl (processArtifact false false aid existing lf) (ts, md)).2
        = true ∧
    ffkS ft (todo.foldl (processArtifact false false aid existing lf) (ts, md)).2 ""
        = arts0 ∧
    (∀ a ∈ arts0,
      GoodArt (todo.foldl (processArtifact false false aid existing lf) (ts, md)).1.remote
        aid lf (todo.foldl (processArtifact false false aid existing lf) (ts, md)).2 a) ∧
    (∀ n, n ∉ todo.map Prod.snd →
      alookup (get_existing_files
          (todo.foldl (processArtifact false false aid existing lf) (ts, md)).1.remote aid) n
        = alookup (get_existing_files ts.remote aid) n) ∧
    article_exists
      (todo.foldl (processArtifact false false aid existing lf) (ts, md)).1.remote aid
        = true := by
  intro todo
  induction todo with
  | nil =>
    intro done ts md hsplit hw hffk hgood he
    have hdone : done = arts0 := by simpa using hsplit.symm
    subst hdone
    exact ⟨hw, hffk, fun a ha => hgood a ha, fun n _ => rfl, he⟩
  | cons a todo2 ih =>
    intro done ts md hsplit hw hffk hgood he
    have hmem_a : a ∈ arts0 := by
      rw [hsplit]
      exact List.mem_append_right done (List.mem_cons_self a todo2)
    obtain ⟨h, hlf⟩ := hhash a.2 (List.mem_map_of_mem Prod.snd hmem_a)
    have hmem_w : (a.1, a.2) ∈ ffkS ft md "" := by rw [hffk]; exact hmem_a
    obtain ⟨k, segs, hkmem, hsplitK0, hdots, hget, hfile⟩ :=
      ffkS_shape ft md hw "" [] (Or.inl ⟨rfl, rfl⟩) a.1 a.2 hmem_w
    have hsplitK : splitDot a.1 = k :: segs := by simpa using hsplitK0
    have hkeys_split : (keysOf done ++ a.1 :: keysOf todo2).Nodup := by
      have h2 := hknd
      rw [hsplit, keysOf_append] at h2
      simpa [keysOf] using h2
    have hk_notin_done : a.1 ∉ keysOf done := nodup_middle_not_left _ _ _ hkeys_split
    have hrels_split : (done.map Prod.snd ++ a.2 :: todo2.map Prod.snd).Nodup := by
      have h2 := hrnd
      rw [hsplit, List.map_append, List.map_cons] at h2
      exact h2
    have hr_notin_done : a.2 ∉ done.map Prod.snd := nodup_middle_not_left _ _ _ hrels_split
    have hbkey : ∀ b ∈ done, b.1 ≠ a.1 := by
      intro b hb hh
      exact hk_notin_done (hh ▸ List.mem_map_of_mem Prod.fst hb)
    have hbrel : ∀ b ∈ done, b.2 ≠ a.2 := by
      intro b hb hh
      exact hr_notin_done (hh ▸ List.mem_map_of_mem Prod.snd hb)
    have hsplit' : arts0 = (done ++ [a]) ++ todo2 := by
      rw [hsplit, List.append_assoc]
      rfl
    rcases query_shape ts.remote aid a.2 h with ⟨fid, hq⟩ | hq
    · -- the artifact already matches remotely: the skip branch
      have hentry := query_match_lookup ts.remote aid a.2 h fid hq
      have hstep : processArtifact false false aid existing lf (ts, md) a
          = (⟨ts.remote, dictInsert ts.skipped a.2 (downloadUrl fid), ts.updated,
              ts.created⟩,
             if hasKey md (a.1 ++ "_url") then md
             else setAtPath md ((splitDot a.1).dropLast)
               ((splitDot a.1).getLastD "" ++ "_url") (Val.str (downloadUrl fid))) := by
        rw [processArtifact_skip aid existing lf ts md a h fid hlf hq,
            splitDot_url_dropLast, splitDot_url_getLastD]
      by_cases hk : hasKey md (a.1 ++ "_url") = true
      · have hstep' : processArtifact false false aid existing lf (ts, md) a
            = (⟨ts.remote, dictInsert ts.skipped a.2 (downloadUrl fid), ts.updated,
                ts.created⟩, md) := by
          rw [hstep, if_pos hk]
        have hgood' : ∀ b ∈ done ++ [a],
            GoodArt (⟨ts.remote, dictInsert ts.skipped a.2 (downloadUrl fid),
              ts.updated, ts.created⟩ : TaskState).remote aid lf md b := by
          intro b hb
          rcases List.mem_append.mp hb with hb | hb
          · exact hgood b hb
          · rw [List.mem_singleton] at hb
            subst hb
            exact ⟨h, fid, hlf, hentry, Or.inl hk⟩
        have hres := ih (done ++ [a]) _ md hsplit' hw hffk hgood' he
        rw [List.foldl_cons, hstep']
        refine ⟨hres.1, hres.2.1, hres.2.2.1, ?_, hres.2.2.2.2⟩
        intro n hn
        exact hres.2.2.2.1 n (fun hh => hn (by simp [hh]))
      · obtain ⟨hw1, hffk1, hslot1⟩ := url_write_props ft md a.1 k a.2 segs
          (downloadUrl fid) hw hsplitK hdots hget
        have hstep' : processArtifact false false aid existing lf (ts, md) a
            = (⟨ts.remote, dictInsert ts.skipped a.2 (downloadUrl fid), ts.updated,
                ts.created⟩,
               setAtPath md ((splitDot a.1).dropLast)
                 ((splitDot a.1).getLastD "" ++ "_url") (Val.str (downloadUrl fid))) := by
          rw [hstep, if_neg hk]
        have hgood' : ∀ b ∈ done ++ [a],
            GoodArt (⟨ts.remote, dictInsert ts.skipped a.2 (downloadUrl fid),
              ts.updated, ts.created⟩ : TaskState).remote aid lf
              (setAtPath md ((splitDot a.1).dropLast)
                ((splitDot a.1).getLastD "" ++ "_url") (Val.str (downloadUrl fid))) b := by
          intro b hb
          rcases List.mem_append.mp hb with hb | hb
          · exact url_write_good_other ts.remote aid lf md a.1 b (downloadUrl fid)
              hw (hbkey b hb) (hgood b hb)
          · rw [List.mem_singleton] at hb
            subst hb
            exact ⟨h, fid, hlf, hentry, Or.inr hslot1⟩
        have hres := ih (done ++ [a]) _ _ hsplit' hw1 (hffk1.trans hffk) hgood' he
        rw [List.foldl_cons, hstep']
        refine ⟨hres.1, hres.2.1, hres.2.2.1, ?_, hres.2.2.2.2⟩
        intro n hn
        exact hres.2.2.2.1 n (fun hh => hn (by simp [hh]))
    · -- no usable remote copy: the upload branch
      have hq1 : (file_exists_with_same_hash ts.remote aid a.2 h).1 = false := by
        rw [hq]
      obtain ⟨hw1, hffk1, hslot1⟩ := url_write_props ft md a.1 k a.2 segs
        (downloadUrl (upload_file_if_needed ts.remote aid h a.2 false).2.1)
        hw hsplitK hdots hget
      have hentry1 := upload_entry ts.remote aid h a.2 false
      have hgood' : ∀ (b : String × String), b ∈ done ++ [a] →
          GoodArt (upload_file_if_needed ts.remote aid h a.2 false).1 aid lf
            (setAtPath md ((splitDot a.1).dropLast)
              ((splitDot a.1).getLastD "" ++ "_url")
              (Val.str (downloadUrl (upload_file_if_needed ts.remote aid h a.2 false).2.1)))
            b := by
        intro b hb
        rcases List.mem_append.mp hb with hb | hb
        · refine url_write_good_other _ aid lf md a.1 b _ hw (hbkey b hb) ?_
          exact goodArt_remote_frame ts.remote _ aid lf md b
            (upload_frame ts.remote aid h a.2 false b.2 (hbrel b hb)) (hgood b hb)
        · rw [List.mem_singleton] at hb
          subst hb
          exact ⟨h, (upload_file_if_needed ts.remote aid h b.2 false).2.1, hlf,
            hentry1, Or.inr hslot1⟩
      have he1 : article_exists (upload_file_if_needed ts.remote aid h a.2 false).1 aid
          = true := upload_article_exists ts.remote aid h a.2 false he
      have hstep := processArtifact_upload false aid existing lf ts md a h hlf (Or.inr hq1)
      by_cases hke : hasKey existing a.2 = true
      · have hstep' : processArtifact false false aid existing lf (ts, md) a
            = (⟨(upload_file_if_needed ts.remote aid h a.2 false).1, ts.skipped,
                dictInsert ts.updated a.2
                  (downloadUrl (upload_file_if_needed ts.remote aid h a.2 false).2.1),
                ts.created⟩,
               setAtPath md ((splitDot a.1).dropLast)
                 ((splitDot a.1).getLastD "" ++ "_url")
                 (Val.str (downloadUrl
                   (upload_file_if_needed ts.remote aid h a.2 false).2.1))) := by
          rw [hstep]
          simp only [hke, if_true]
        have hres := ih (done ++ [a])
          ⟨(upload_file_if_needed ts.remote aid h a.2 false).1, ts.skipped,
            dictInsert ts.updated a.2
              (downloadUrl (upload_file_if_needed ts.remote aid h a.2 false).2.1),
            ts.created⟩ _ hsplit' hw1 (hffk1.trans hffk) hgood' he1
        rw [List.foldl_cons, hstep']
        refine ⟨hres.1, hres.2.1, hres.2.2.1, ?_, hres.2.2.2.2⟩
        intro n hn
        have hn2 : n ≠ a.2 := fun hh => hn (by simp [hh])
        have hn3 : n ∉ todo2.map Prod.snd := fun hh => hn (by simp [hh])
        rw [hres.2.2.2.1 n hn3]
        exact upload_frame ts.remote aid h a.2 false n hn2
      · have hstep' : processArtifact false false aid existing lf (ts, md) a
            = (⟨(upload_file_if_needed ts.remote aid h a.2 false).1, ts.skipped,
                ts.updated,
                dictInsert ts.created a.2
                  (downloadUrl (upload_file_if_needed ts.remote aid h a.2 false).2.1)⟩,
               setAtPath md ((splitDot a.1).dropLast)
                 ((splitDot a.1).getLastD "" ++ "_url")
                 (Val.str (downloadUrl
                   (upload_file_if_needed ts.remote aid h a.2 false).2.1))) := by
          rw [hstep]
          simp only [hke, if_false]
          simp
        have hres := ih (done ++ [a])
          ⟨(upload_file_if_needed ts.remote aid h a.2 false).1, ts.skipped, ts.updated,
            dictInsert ts.created a.2
              (downloadUrl (upload_file_if_needed ts.remote aid h a.2 false).2.1)⟩
          _ hsplit' hw1 (hffk1.trans hffk) hgood' he1
        rw [List.foldl_cons, hstep']
        refine ⟨hres.1, hres.2.1, hres.2.2.1, ?_, hres.2.2.2.2⟩
        intro n hn
        have hn2 : n ≠ a.2 := fun hh => hn (by simp [hh])
        have hn3 : n ∉ todo2.map Prod.snd := fun hh => hn (by simp [hh])
        rw [hres.2.2.2.1 n hn3]
        exact upload_frame ts.remote aid h a.2 false n hn2

theorem taskEntry_node_decomp (d : List (String × Val)) (task : String)
    (md0 : List (String × Val)) (ht : taskEntry task d = some (Val.node md0)) :
    ∃ ms, alookup d "metrics" = some (Val.node ms)
      ∧ alookup ms task = some (Val.node md0) := by
  cases hm : alookup d "metrics" with
  | none => rw [taskEntry, hm] at ht; simp at ht
  | some v =>
    cases v with
    | str s => rw [taskEntry, hm] at ht; simp at ht
    | other => rw [taskEntry, hm] at ht; simp at ht
    | node ms =>
      rw [taskEntry, hm] at ht
      exact ⟨ms, rfl, ht⟩

theorem processModel_establish (ft task : String) (aid : Nat)
    (existing : List (String × RemoteFile)) (lf : List (String × String))
    (ts : TaskState) (m : ModelEntry)
    (hok : modelOK task m = true)
    (hrnd : ((discoveredOf ft task m).map Prod.snd).Nodup)
    (hhash : ∀ rel ∈ (discoveredOf ft task m).map Prod.snd, ∃ h, alookup lf rel = some h)
    (he : article_exists ts.remote aid = true) :
    modelOK task (processModel false false ft task aid existing lf ts m).2.1 = true ∧
    discoveredOf ft task (processModel false false ft task aid existing lf ts m).2.1
      = discoveredOf ft task m ∧
    (∀ a ∈ discoveredOf ft task m,
      GoodArt (processModel false false ft task aid existing lf ts m).1.remote aid lf
        (modelMetric task (processModel false false ft task aid existing lf ts m).2.1) a) ∧
    (∀ n, n ∉ (discoveredOf ft task m).map Prod.snd →
      alookup (get_existing_files
          (processModel false false ft task aid existing lf ts m).1.remote aid) n
        = alookup (get_existing_files ts.remote aid) n) ∧
    article_exists (processModel false false ft task aid existing lf ts m).1.remote aid
      = true := by
  obtain ⟨name, doc⟩ := m
  cases doc with
  | none =>
    exact ⟨hok, rfl, fun a ha => absurd ha (List.not_mem_nil a), fun n _ => rfl, he⟩
  | some d =>
    cases ht : taskEntry task d with
    | some v =>
      cases v with
      | str s =>
        have hmm : extractMetric task d = [] := by rw [extractMetric, ht]
        have hdisc : discoveredOf ft task ⟨name, some d⟩ = [] := by
          show find_file_keys ft (extractMetric task d) "" [] = []
          rw [hmm]
          rfl
        have hres : processModel false false ft task aid existing lf ts ⟨name, some d⟩
            = (ts, ⟨name, some d⟩, false) := by
          rw [processModel]
          simp [ht]
        rw [hres, hdisc]
        exact ⟨hok, rfl, fun a ha => absurd ha (List.not_mem_nil a), fun n _ => rfl, he⟩
      | other =>
        have hmm : extractMetric task d = [] := by rw [extractMetric, ht]
        have hdisc : discoveredOf ft task ⟨name, some d⟩ = [] := by
          show find_file_keys ft (extractMetric task d) "" [] = []
          rw [hmm]
          rfl
        have hres : processModel false false ft task aid existing lf ts ⟨name, some d⟩
            = (ts, ⟨name, some d⟩, false) := by
          rw [processModel]
          simp [ht]
        rw [hres, hdisc]
        exact ⟨hok, rfl, fun a ha => absurd ha (List.not_mem_nil a), fun n _ => rfl, he⟩
      | node md0 =>
        obtain ⟨ms, hm, ht0⟩ := taskEntry_node_decomp d task md0 ht
        have hmm : extractMetric task d = md0 := by rw [extractMetric, ht]
        have hdisc : discoveredOf ft task ⟨name, some d⟩
            = find_file_keys ft md0 "" [] := by
          show find_file_keys ft (extractMetric task d) "" [] = _
          rw [hmm]
        have hwf : wfEntries md0 = true := by
          have := modelOK_wf task ⟨name, some d⟩ d rfl hok
          rwa [hmm] at this
        have hbr : find_file_keys ft md0 "" [] = ffkS ft md0 "" :=
          find_file_keys_eq_ffkS ft md0 hwf
        have hknd : (keysOf (find_file_keys ft md0 "" [])).Nodup := by
          rw [hbr]
          exact ffkS_keys_nodup ft md0 hwf "" [] (Or.inl ⟨rfl, rfl⟩)
        have hrnd2 : ((find_file_keys ft md0 "" []).map Prod.snd).Nodup := by
          rw [← hdisc]
          exact hrnd
        have hhash2 : ∀ rel ∈ (find_file_keys ft md0 "" []).map Prod.snd,
            ∃ h, alookup lf rel = some h := by
          rw [← hdisc]
          exact hhash
        obtain ⟨e1, e2, e3, e4, e5⟩ :=
          artfold_establish ft aid existing lf (find_file_keys ft md0 "" [])
            hknd hrnd2 hhash2 (find_file_keys ft md0 "" []) [] ts md0
            (by simp) hwf hbr.symm (fun a ha => absurd ha (List.not_mem_nil a)) he
        have hres : processModel false false ft task aid existing lf ts ⟨name, some d⟩
            = (((find_file_keys ft md0 "" []).foldl
                  (processArtifact false false aid existing lf) (ts, md0)).1,
               ⟨name, some (writeBackMetric d task
                 ((find_file_keys ft md0 "" []).foldl
                   (processArtifact false false aid existing lf) (ts, md0)).2)⟩,
               true) := by
          rw [processModel]
          simp only [ht, hmm]
          simp
        obtain ⟨hte2, hex2⟩ := taskEntry_writeBack d task ms md0
          ((find_file_keys ft md0 "" []).foldl
            (processArtifact false false aid existing lf) (ts, md0)).2 hm ht0
        have hmm2 : modelMetric task (⟨name, some (writeBackMetric d task
            ((find_file_keys ft md0 "" []).foldl
              (processArtifact false false aid existing lf) (ts, md0)).2)⟩ : ModelEntry)
            = ((find_file_keys ft md0 "" []).foldl
                (processArtifact false false aid existing lf) (ts, md0)).2 := by
          show extractMetric task _ = _
          exact hex2
        have hdisc2 : discoveredOf ft task (⟨name, some (writeBackMetric d task
            ((find_file_keys ft md0 "" []).foldl
              (processArtifact false false aid existing lf) (ts, md0)).2)⟩ : ModelEntry)
            = find_file_keys ft md0 "" [] := by
          show find_file_keys ft (modelMetric task _) "" [] = _
          rw [hmm2]
          rw [find_file_keys_eq_ffkS ft _ e1]
          exact e2
        rw [hres, hdisc]
        refine ⟨?_, hdisc2, ?_, e4, e5⟩
        · show docOK task (writeBackMetric d task _) = true
          exact docOK_writeBack d task ms md0 _ hm ht0 e1
        · intro a ha
          rw [hmm2]
          exact e3 a ha
    | none =>
      have hmm : extractMetric task d = [] := by rw [extractMetric, ht]
      have hdisc : discoveredOf ft task ⟨name, some d⟩ = [] := by
        show find_file_keys ft (extractMetric task d) "" [] = []
        rw [hmm]
        rfl
      have hwb : ∀ X, writeBackMetric d task X = d :=
        fun X => writeBackMetric_of_taskEntry_none d task X ht
      have hres : processModel false false ft task aid existing lf ts ⟨name, some d⟩
          = (ts, ⟨name, some d⟩, true) := by
        rw [processModel]
        simp only [ht, hmm]
        simp [find_file_keys, hwb]
      rw [hres, hdisc]
      exact ⟨hok, rfl, fun a ha => absurd ha (List.not_mem_nil a), fun n _ => rfl, he⟩

theorem discoveredRels_append (ft task : String) (xs ys : List ModelEntry) :
    discoveredRels ft task (xs ++ ys)
      = discoveredRels ft task xs ++ discoveredRels ft task ys := by
  rw [discoveredRels, List.flatMap_append]
  rfl

theorem discoveredRels_singleton (ft task : String) (m : ModelEntry) :
    discoveredRels ft task [m] = (discoveredOf ft task m).map Prod.snd := by
  rw [discoveredRels]
  simp

theorem mem_discoveredRels (ft task : String) (ms : List ModelEntry) (rel : String) :
    rel ∈ discoveredRels ft task ms
      ↔ ∃ m ∈ ms, rel ∈ (discoveredOf ft task m).map Prod.snd := by
  rw [discoveredRels, List.mem_flatMap]

theorem runfold_establish (ft task : String) (aid : Nat)
    (existing : List (String × RemoteFile)) (lf : List (String × String)) :
    ∀ (models : List ModelEntry) (ts : TaskState) (ms : List ModelEntry) (ws : List String),
    (∀ m ∈ models, modelOK task m = true) →
    (discoveredRels ft task models).Nodup →
    (∀ rel ∈ discoveredRels ft task models, ∃ h, alookup lf rel = some h) →
    article_exists ts.remote aid = true →
    (∀ m2 ∈ ms, modelOK task m2 = true ∧
       ∀ a ∈ discoveredOf ft task m2, GoodArt ts.remote aid lf (modelMetric task m2) a) →
    (∀ rel ∈ discoveredRels ft task ms, rel ∉ discoveredRels ft task models) →
    article_exists
      (models.foldl (runStep false false ft task aid existing lf) (ts, ms, ws)).1.remote
        aid = true ∧
    (∀ m2 ∈ (models.foldl (runStep false false ft task aid existing lf) (ts, ms, ws)).2.1,
      modelOK task m2 = true ∧
      ∀ a ∈ discoveredOf ft task m2,
        GoodArt (models.foldl (runStep false false ft task aid existing lf)
            (ts, ms, ws)).1.remote aid lf (modelMetric task m2) a) ∧
    discoveredRels ft task
        (models.foldl (runStep false false ft task aid existing lf) (ts, ms, ws)).2.1
      = discoveredRels ft task ms ++ discoveredRels ft task models := by
  intro models
  induction models with
  | nil =>
    intro ts ms ws _ _ _ he hms _
    refine ⟨he, hms, ?_⟩
    show discoveredRels ft task ms = discoveredRels ft task ms ++ discoveredRels ft task []
    have hnil : discoveredRels ft task [] = [] := rfl
    rw [hnil]
    simp
  | cons m rest ih =>
    intro ts ms ws hoks hnd hhash he hms hdisj
    have hndm : ((discoveredOf ft task m).map Prod.snd).Nodup := by
      rw [discoveredRels_cons] at hnd
      exact (List.nodup_append.mp hnd).1
    have hhashm : ∀ rel ∈ (discoveredOf ft task m).map Prod.snd,
        ∃ h, alookup lf rel = some h := by
      intro rel hr
      exact hhash rel (by rw [discoveredRels_cons]; exact List.mem_append_left _ hr)
    obtain ⟨g1, g2, g3, g4, g5⟩ :=
      processModel_establish ft task aid existing lf ts m
        (hoks m (List.mem_cons_self m rest)) hndm hhashm he
    have hstep : runStep false false ft task aid existing lf (ts, ms, ws) m
        = ((processModel false false ft task aid existing lf ts m).1,
           ms ++ [(processModel false false ft task aid existing lf ts m).2.1],
           if (processModel false false ft task aid existing lf ts m).2.2
             then ws ++ [m.name] else ws) := by
      rw [runStep]
    have hms' : ∀ m2 ∈ ms ++ [(processModel false false ft task aid existing lf ts m).2.1],
        modelOK task m2 = true ∧
        ∀ a ∈ discoveredOf ft task m2,
          GoodArt (processModel false false ft task aid existing lf ts m).1.remote aid lf
            (modelMetric task m2) a := by
      intro m2 hm2
      rcases List.mem_append.mp hm2 with hm2 | hm2
      · refine ⟨(hms m2 hm2).1, ?_⟩
        intro a ha
        have hrel : a.2 ∈ discoveredRels ft task ms :=
          (mem_discoveredRels ft task ms a.2).mpr
            ⟨m2, hm2, List.mem_map_of_mem Prod.snd ha⟩
        have hnot : a.2 ∉ (discoveredOf ft task m).map Prod.snd := by
          intro hh
          exact hdisj a.2 hrel (by rw [discoveredRels_cons]; exact List.mem_append_left _ hh)
        exact goodArt_remote_frame ts.remote _ aid lf _ a (g4 a.2 hnot)
          ((hms m2 hm2).2 a ha)
      · rw [List.mem_singleton] at hm2
        subst hm2
        refine ⟨g1, ?_⟩
        intro a ha
        rw [g2] at ha
        exact g3 a ha
    have hdisj' : ∀ rel ∈ discoveredRels ft task
        (ms ++ [(processModel false false ft task aid existing lf ts m).2.1]),
        rel ∉ discoveredRels ft task rest := by
      intro rel hr
      rw [discoveredRels_append, discoveredRels_singleton, g2] at hr
      rcases List.mem_append.mp hr with hr | hr
      · intro hh
        exact hdisj rel hr (by rw [discoveredRels_cons]; exact List.mem_append_right _ hh)
      · intro hh
        rw [discoveredRels_cons, List.nodup_append] at hnd
        exact hnd.2.2 hr hh
    have hoks' : ∀ m2 ∈ rest, modelOK task m2 = true :=
      fun m2 hm2 => hoks m2 (List.mem_cons_of_mem m hm2)
    have hnd' : (discoveredRels ft task rest).Nodup := by
      rw [discoveredRels_cons, List.nodup_append] at hnd
      exact hnd.2.1
    have hhash' : ∀ rel ∈ discoveredRels ft task rest, ∃ h, alookup lf rel = some h := by
      intro rel hr
      exact hhash rel (by rw [discoveredRels_cons]; exact List.mem_append_right _ hr)
    obtain ⟨r1, r2, r3⟩ := ih (processModel false false ft task aid existing lf ts m).1
      (ms ++ [(processModel false false ft task aid existing lf ts m).2.1])
      (if (processModel false false ft task aid existing lf ts m).2.2
        then ws ++ [m.name] else ws)
      hoks' hnd' hhash' g5 hms' hdisj'
    rw [List.foldl_cons, hstep]
    refine ⟨r1, r2, ?_⟩
    rw [r3, discoveredRels_append, discoveredRels_singleton, g2,
        discoveredRels_cons, List.append_assoc]

theorem update_one_establish (task ft : String) (models : List ModelEntry) (aid : Nat)
    (remote0 : Remote) (lf : List (String × String))
    (he : article_exists remote0 aid = true)
    (hok : ∀ m ∈ models, modelOK task m = true)
    (hnd : (discoveredRels ft task models).Nodup)
    (hhash : ∀ rel ∈ discoveredRels ft task models, ∃ h, alookup lf rel = some h) :
    article_exists
      (update_one_modeling_task_article task models false ft false (some aid) remote0 lf).remote
        aid = true ∧
    (∀ m2 ∈ (update_one_modeling_task_article task models false ft false
        (some aid) remote0 lf).models,
      modelOK task m2 = true ∧
      ∀ a ∈ discoveredOf ft task m2,
        GoodArt (update_one_modeling_task_article task models false ft false
            (some aid) remote0 lf).remote aid lf (modelMetric task m2) a) ∧
    discoveredRels ft task
        (update_one_modeling_task_article task models false ft false
          (some aid) remote0 lf).models
      = discoveredRels ft task models := by
  have hres := resolveArticle_registered aid remote0 he
  simp only [update_one_modeling_task_article, hres]
  obtain ⟨r1, r2, r3⟩ :=
    runfold_establish ft task aid (get_existing_files remote0 aid) lf models
      ⟨remote0, [], [], []⟩ [] [] hok hnd hhash he
      (fun m2 hm2 => absurd hm2 (List.not_mem_nil m2))
      (fun rel hr => absurd hr (by simp [discoveredRels]))
  refine ⟨r1, r2, ?_⟩
  rw [r3]
  rfl

/-- Claim C3 (amended): when the task's collection id is registered and
accessible, every model document is well-formed for the task, the
discovered relative paths are pairwise distinct and every one of them
resolves to a local file, running the engine twice in execute mode with
force off leaves the second run with no uploads: the remote inventory and
every metadata tree are byte-identical to their state after the first
run, the second run's updated and created buckets are empty, and every
discovered artifact lands in its skipped bucket. -/
theorem C3_second_run_skips_everything (task fileType : String)
    (models : List ModelEntry) (aid : Nat) (remote0 : Remote)
    (lf : List (String × String)) (r1 r2 : RunResult)
    (he : article_exists remote0 aid = true)
    (hok : ∀ m ∈ models, modelOK task m = true)
    (hnd : (discoveredRels fileType task models).Nodup)
    (hhash : ∀ rel ∈ discoveredRels fileType task models, ∃ h, alookup lf rel = some h)
    (hr1 : r1 = update_one_modeling_task_article task models false fileType false
      (some aid) remote0 lf)
    (hr2 : r2 = update_one_modeling_task_article task r1.models false fileType false
      (some aid) r1.remote lf) :
    r2.remote = r1.remote ∧ r2.models = r1.models ∧
    r2.updated = [] ∧ r2.created = [] ∧
    (∀ rel ∈ discoveredRels fileType task r1.models, rel ∈ keysOf r2.skipped) := by
  obtain ⟨e1, e2, e3⟩ :=
    update_one_establish task fileType models aid remote0 lf he hok hnd hhash
  rw [← hr1] at e1 e2 e3
  obtain ⟨s1, s2, s3, s4, s5⟩ :=
    update_one_settled task fileType r1.models aid r1.remote lf e1 e2
  rw [← hr2] at s1 s2 s3 s4 s5
  refine ⟨s1, s2, s3, s4, ?_⟩
  intro rel hr
  obtain ⟨m, hm, hrm⟩ := (mem_discoveredRels fileType task r1.models rel).mp hr
  obtain ⟨a, ha, hae⟩ := List.mem_map.mp hrm
  rw [← hae]
  exact s5 m hm a ha

/-- With no registered collection id the engine is not idempotent: the
first run creates collection 0 and uploads `p` there, but the second run
creates a fresh collection 1 (id 0 was never registered), finds it empty,
and uploads `p` again — the second run's outcome is created, not skipped,
and the remote inventory changes again.  This contradicts the claimed
unconditional idempotence. -/
theorem C3_unregistered_not_idempotent :
    (update_one_modeling_task_article "t"
      (update_one_modeling_task_article "t"
        [⟨"m", some [("metrics", Val.node [("t", Val.node [("x_file", Val.str "p")])])]⟩]
        false "all" false none ⟨[], 0, 0⟩ [("p", "h")]).models
      false "all" false none
      (update_one_modeling_task_article "t"
        [⟨"m", some [("metrics", Val.node [("t", Val.node [("x_file", Val.str "p")])])]⟩]
        false "all" false none ⟨[], 0, 0⟩ [("p", "h")]).remote
      [("p", "h")]).skipped = [] ∧
    (update_one_modeling_task_article "t"
      (update_one_modeling_task_article "t"
        [⟨"m", some [("metrics", Val.node [("t", Val.node [("x_file", Val.str "p")])])]⟩]
        false "all" false none ⟨[], 0, 0⟩ [("p", "h")]).models
      false "all" false none
      (update_one_modeling_task_article "t"
        [⟨"m", some [("metrics", Val.node [("t", Val.node [("x_file", Val.str "p")])])]⟩]
        false "all" false none ⟨[], 0, 0⟩ [("p", "h")]).remote
      [("p", "h")]).created = [("p", "download-prefix/1")] := by
  exact ⟨rfl, rfl⟩

/-- Concrete instance of the amended C3 theorem: one model, one artifact,
a registered accessible collection and the local file present; the second
run changes nothing and skips the artifact. -/
theorem C3_second_run_skips_everything_witness :
    article_exists (⟨[(5, [])], 6, 0⟩ : Remote) 5 = true ∧
    ((update_one_modeling_task_article "t"
        (update_one_modeling_task_article "t"
          [⟨"m", some [("metrics", Val.node [("t", Val.node [("x_file", Val.str "p")])])]⟩]
          false "all" false (some 5) ⟨[(5, [])], 6, 0⟩ [("p", "h")]).models
        false "all" false (some 5)
        (update_one_modeling_task_article "t"
          [⟨"m", some [("metrics", Val.node [("t", Val.node [("x_file", Val.str "p")])])]⟩]
          false "all" false (some 5) ⟨[(5, [])], 6, 0⟩ [("p", "h")]).remote
        [("p", "h")]).remote
      = (update_one_modeling_task_article "t"
          [⟨"m", some [("metrics", Val.node [("t", Val.node [("x_file", Val.str "p")])])]⟩]
          false "all" false (some 5) ⟨[(5, [])], 6, 0⟩ [("p", "h")]).remote ∧
     (update_one_modeling_task_article "t"
        (update_one_modeling_task_article "t"
          [⟨"m", some [("metrics", Val.node [("t", Val.node [("x_file", Val.str "p")])])]⟩]
          false "all" false (some 5) ⟨[(5, [])], 6, 0⟩ [("p", "h")]).models
        false "all" false (some 5)
        (update_one_modeling_task_article "t"
          [⟨"m", some [("metrics", Val.node [("t", Val.node [("x_file", Val.str "p")])])]⟩]
          false "all" false (some 5) ⟨[(5, [])], 6, 0⟩ [("p", "h")]).remote
        [("p", "h")]).models
      = (update_one_modeling_task_article "t"
          [⟨"m", some [("metrics", Val.node [("t", Val.node [("x_file", Val.str "p")])])]⟩]
          false "all" false (some 5) ⟨[(5, [])], 6, 0⟩ [("p", "h")]).models ∧
     (update_one_modeling_task_article "t"
        (update_one_modeling_task_article "t"
          [⟨"m", some [("metrics", Val.node [("t", Val.node [("x_file", Val.str "p")])])]⟩]
          false "all" false (some 5) ⟨[(5, [])], 6, 0⟩ [("p", "h")]).models
        false "all" false (some 5)
        (update_one_modeling_task_article "t"
          [⟨"m", some [("metrics", Val.node [("t", Val.node [("x_file", Val.str "p")])])]⟩]
          false "all" false (some 5) ⟨[(5, [])], 6, 0⟩ [("p", "h")]).remote
        [("p", "h")]).updated = [] ∧
     (update_one_modeling_task_article "t"
        (update_one_modeling_task_article "t"
          [⟨"m", some [("metrics", Val.node [("t", Val.node [("x_file", Val.str "p")])])]⟩]
          false "all" false (some 5) ⟨[(5, [])], 6, 0⟩ [("p", "h")]).models
        false "all" false (some 5)
        (update_one_modeling_task_article "t"
          [⟨"m", some [("metrics", Val.node [("t", Val.node [("x_file", Val.str "p")])])]⟩]
          false "all" false (some 5) ⟨[(5, [])], 6, 0⟩ [("p", "h")]).remote
        [("p", "h")]).created = [] ∧
     "p" ∈ keysOf (update_one_modeling_task_article "t"
        (update_one_modeling_task_article "t"
          [⟨"m", some [("metrics", Val.node [("t", Val.node [("x_file", Val.str "p")])])]⟩]
          false "all" false (some 5) ⟨[(5, [])], 6, 0⟩ [("p", "h")]).models
        false "all" false (some 5)
        (update_one_modeling_task_article "t"
          [⟨"m", some [("metrics", Val.node [("t", Val.node [("x_file", Val.str "p")])])]⟩]
          false "all" false (some 5) ⟨[(5, [])], 6, 0⟩ [("p", "h")]).remote
        [("p", "h")]).skipped) := by
  refine ⟨rfl, ?_⟩
  have hmain := C3_second_run_skips_everything "t" "all"
    [⟨"m", some [("metrics", Val.node [("t", Val.node [("x_file", Val.str "p")])])]⟩]
    5 ⟨[(5, [])], 6, 0⟩ [("p", "h")] _ _ rfl
    (by
      intro m hm
      rw [List.mem_singleton] at hm
      subst hm
      rfl)
    (by decide)
    (by
      intro rel hr
      have hlist : discoveredRels "all" "t"
          [⟨"m", some [("metrics", Val.node [("t", Val.node [("x_file", Val.str "p")])])]⟩]
          = ["p"] := rfl
      rw [hlist] at hr
      have hrel : rel = "p" := List.mem_singleton.mp hr
      subst hrel
      exact ⟨"h", rfl⟩)
    rfl rfl
  exact ⟨hmain.1, hmain.2.1, hmain.2.2.1, hmain.2.2.2.1,
    hmain.2.2.2.2 "p" (by decide)⟩
